import Mathlib

/-!
# LibBi particle filter driver

A shallow embedding of `bi::ParticleFilter` (`share/src/bi/method/ParticleFilter.hpp`).

The driver is a class template over a model `B`, a simulator `S`, a resampler `R`
and an output `IO1`.  None of these is part of the driver: they are represented by
the functions the driver calls on them.  Every piece of mutable data the driver
touches is threaded explicitly through a machine state `Mach`:

* `w`    : the internal state of the collaborators (random number generator,
           simulator, resampler), which only they can read or change;
* `out`  : the output sink, `none` for `out == NULL`, otherwise the calls made on it;
* `s`    : the particle state `State<B,L>& s`;
* `lws`  : the log-weights vector;
* `as`   : the ancestry vector;
* `trace`: a ghost record of the driver methods entered and of the resampler
           operations invoked, in the order in which they happen.

`real` is an arbitrary type `α` with `0`, `+`, `-` and a cast from the naturals.
Vectors are functions on `Fin n`, so that a collaborator that receives a vector
view cannot change its length.
-/

namespace bi

/-- Failures of the driver: a `BI_ASSERT` pre-condition that does not hold, or a
schedule iterator dereferenced outside the schedule. -/
inductive Err where
  | assertion
  | outOfRange
deriving DecidableEq, Repr

/-- Modelled from the spec: the schedule element record
`{time, hasObs, hasOutput, indexObs, indexOutput}` (the class `ScheduleElement`
is declared outside `ParticleFilter.hpp`). -/
structure ScheduleElement (τ : Type) where
  time : τ
  hasObs : Bool
  hasOutput : Bool
  indexObs : Nat
  indexOutput : Nat
deriving DecidableEq, Repr

/-- The particle state `State<B,L>` for `P` particles: `dyn` is `s.getDyn()`, one
row per particle, and `par` is what `s.get(P_VAR)` returns. -/
structure State (γ ε : Type) (P : Nat) where
  dyn : Fin P → γ
  par : ε

/-- Modelled from the spec: the calls of the output sink interface
(`clear`, `write_parameters`, `write_time`, `write_state`, `write_log_weights`,
`write_ll`).  The sink is represented by the sequence of calls made on it. -/
inductive SinkCall (τ α γ ε : Type) (P n m : Nat) where
  | clear
  | writeParameters (par : ε)
  | writeTime (k : Nat) (t : τ)
  | writeState (k : Nat) (dyn : Fin P → γ) (as : Fin m → Int) (r : Bool)
  | writeLogWeights (k : Nat) (lws : Fin n → α)
  | writeLL (ll : α)

/-- Ghost trace entries.  The first group marks the driver's own methods (with the
schedule element they are applied to, and for `correct`, `step` and `outputT` the
value returned or passed); `pin` is the assignment
`row(s.getDyn(), 0) = column(X, k)`; the last group are the state-changing
operations of the resampler. -/
inductive Event (τ α : Type) where
  | init (now : ScheduleElement τ)
  | output0
  | resample (now : ScheduleElement τ)
  | resampleCond (now : ScheduleElement τ) (a : Int)
  | predict (next : ScheduleElement τ)
  | pin (k : Nat)
  | correct (now : ScheduleElement τ) (ll : α)
  | output (now : ScheduleElement τ) (r : Bool)
  | stepReturn (ll : α)
  | term
  | outputT (ll : α)
  | setMaxLogWeight (v : α)
  | resam_resample
  | resam_cond_resample (a_in a_out : Int)
deriving DecidableEq, Repr

/-- The resampler interface `R` as the driver uses it.  `needsMax` is the trait
`resampler_needs_max<R>::value`. -/
structure Resampler (α γ ε ω : Type) (P n m : Nat) where
  isTriggered : ω → (Fin n → α) → Bool
  needsMax : Bool
  setMaxLogWeight : ω → α → ω
  resample : ω → (Fin n → α) → (Fin m → Int) → State γ ε P →
    ω × (Fin n → α) × (Fin m → Int) × State γ ε P
  cond_resample : ω → Int → Int → (Fin n → α) → (Fin m → Int) → State γ ε P →
    ω × (Fin n → α) × (Fin m → Int) × State γ ε P

/-- The members of a `ParticleFilter<B,S,R,IO1>` object other than the sink: the
model `m`, the simulator `sim` (never `NULL`, by the constructor's assertion), the
resampler `resam` (`none` for `NULL`), and the library primitives the driver calls
(`logsumexp_reduce`, `bi::log`, `Resampler::normalise`). -/
structure ParticleFilter (τ α γ ε ω μ ι θ : Type) (P n m : Nat) where
  observationLogDensity : State γ ε P → μ → Fin P → α
  observationMaxLogDensity : State γ ε P → μ → α
  sim_init : ω → ScheduleElement τ → State γ ε P → ι → ω × State γ ε P
  sim_init_theta : ω → θ → ScheduleElement τ → State γ ε P → ω × State γ ε P
  sim_advance : ω → ScheduleElement τ → State γ ε P → ω × State γ ε P
  sim_term : ω → ω
  getMask : ω → Nat → μ
  resam : Option (Resampler α γ ε ω P n m)
  logsumexp_reduce : (Fin n → α) → α
  log : α → α
  normalise : (Fin n → α) → (Fin n → α)

/-- Everything the driver can change. -/
structure Mach (τ α γ ε ω : Type) (P n m : Nat) where
  w : ω
  out : Option (List (SinkCall τ α γ ε P n m))
  trace : List (Event τ α)
  s : State γ ε P
  lws : Fin n → α
  as : Fin m → Int

section Driver

variable {τ α γ ε ω μ ι θ : Type} {P n m : Nat}

/-- Append one entry to the ghost trace. -/
def emit (e : Event τ α) (x : Mach τ α γ ε ω P n m) : Mach τ α γ ε ω P n m :=
  { x with trace := x.trace ++ [e] }

/-- One call on the sink; only reached when `out != NULL`. -/
def sink (c : SinkCall τ α γ ε P n m) (x : Mach τ α γ ε ω P n m) : Mach τ α γ ε ω P n m :=
  { x with out := x.out.map (fun calls => calls ++ [c]) }

/-- Dereference of a schedule iterator, `*iter`. -/
def deref (sched : List (ScheduleElement τ)) (iter : Nat) : Except Err (ScheduleElement τ) :=
  match sched[iter]? with
  | some e => .ok e
  | none => .error .outOfRange

/-- Modelled from the spec: `seq_elements(as, first)` fills a vector with
`first, first + 1, ...` (the driver calls it with `first = 0`, so `as[i] := i`). -/
def seq_elements (first : Int) : Fin m → Int :=
  fun i => first + (i.val : Int)

/-- Modelled from the spec: `m.observationLogDensities(s, mask, lws)` adds
`log p(y | x_p)` into `lws[p]` for each particle `p`. -/
def observationLogDensities [Add α] (pf : ParticleFilter τ α γ ε ω μ ι θ P n m)
    (s : State γ ε P) (mask : μ) (lws : Fin n → α) : Fin n → α :=
  fun i => if h : i.val < P then lws i + pf.observationLogDensity s mask ⟨i.val, h⟩ else lws i

/-- Modelled from the spec: `row(s.getDyn(), 0) = column(X, k)`, where `X k` is
column `k` of the reference trajectory; row 0 has to exist. -/
def pinRow0 (X : Nat → γ) (k : Nat) (x : Mach τ α γ ε ω P n m) :
    Except Err (Mach τ α γ ε ω P n m) :=
  if 0 < P then
    .ok (emit (.pin k)
      { x with s := { x.s with dyn := fun i => if i.val = 0 then X k else x.s.dyn i } })
  else .error .assertion

/-- The body shared by both `ParticleFilter::init` overloads after `sim->init`. -/
def initTail [Zero α] (now : ScheduleElement τ) (w : ω) (s : State γ ε P)
    (x : Mach τ α γ ε ω P n m) : Mach τ α γ ε ω P n m :=
  let x := emit (.init now) { x with w := w, s := s, lws := fun _ => 0, as := seq_elements 0 }
  if x.out.isSome then sink .clear x else x

/-- `ParticleFilter::init(rng, now, s, lws, as, inInit)`. -/
def init [Zero α] (pf : ParticleFilter τ α γ ε ω μ ι θ P n m) (now : ScheduleElement τ)
    (inInit : ι) (x : Mach τ α γ ε ω P n m) : Except Err (Mach τ α γ ε ω P n m) :=
  if P = m ∧ P = n then
    let r := pf.sim_init x.w now x.s inInit
    .ok (initTail now r.1 r.2 x)
  else .error .assertion

/-- `ParticleFilter::init(rng, theta, now, s, lws, as)`. -/
def initTheta [Zero α] (pf : ParticleFilter τ α γ ε ω μ ι θ P n m) (theta : θ)
    (now : ScheduleElement τ) (x : Mach τ α γ ε ω P n m) :
    Except Err (Mach τ α γ ε ω P n m) :=
  if P = m ∧ P = n then
    let r := pf.sim_init_theta x.w theta now x.s
    .ok (initTail now r.1 r.2 x)
  else .error .assertion

/-- `ParticleFilter::predict(rng, next, s)`. -/
def predict (pf : ParticleFilter τ α γ ε ω μ ι θ P n m) (next : ScheduleElement τ)
    (x : Mach τ α γ ε ω P n m) : Mach τ α γ ε ω P n m :=
  let r := pf.sim_advance x.w next x.s
  emit (.predict next) { x with w := r.1, s := r.2 }

/-- `ParticleFilter::correct(now, s, lws)`. -/
def correct [Zero α] [Add α] [Sub α] [NatCast α] (pf : ParticleFilter τ α γ ε ω μ ι θ P n m)
    (now : ScheduleElement τ) (x : Mach τ α γ ε ω P n m) :
    Except Err (α × Mach τ α γ ε ω P n m) :=
  if P = n then
    if now.hasObs then
      let lws := observationLogDensities pf x.s (pf.getMask x.w now.indexObs) x.lws
      let ll := pf.logsumexp_reduce lws - pf.log (P : α)
      .ok (ll, emit (.correct now ll) { x with lws := lws })
    else .ok (0, emit (.correct now 0) x)
  else .error .assertion

/-- The flag `r = now.hasObs() && resam != NULL && resam->isTriggered(lws)`. -/
def triggered (pf : ParticleFilter τ α γ ε ω μ ι θ P n m) (now : ScheduleElement τ)
    (x : Mach τ α γ ε ω P n m) : Bool :=
  now.hasObs && (match pf.resam with
    | some R => R.isTriggered x.w x.lws
    | none => false)

/-- The optional `resam->setMaxLogWeight(m.observationMaxLogDensity(s, mask))`. -/
def setMax (pf : ParticleFilter τ α γ ε ω μ ι θ P n m) (R : Resampler α γ ε ω P n m)
    (now : ScheduleElement τ) (x : Mach τ α γ ε ω P n m) : Mach τ α γ ε ω P n m :=
  if R.needsMax then
    let v := pf.observationMaxLogDensity x.s (pf.getMask x.w now.indexObs)
    emit (.setMaxLogWeight v) { x with w := R.setMaxLogWeight x.w v }
  else x

/-- The else-branch of both `resample` overloads:
`seq_elements(as, 0); Resampler::normalise(lws);`. -/
def noResample (pf : ParticleFilter τ α γ ε ω μ ι θ P n m) (x : Mach τ α γ ε ω P n m) :
    Mach τ α γ ε ω P n m :=
  { x with as := seq_elements 0, lws := pf.normalise x.lws }

/-- `ParticleFilter::resample(rng, now, s, lws, as)`. -/
def resample (pf : ParticleFilter τ α γ ε ω μ ι θ P n m) (now : ScheduleElement τ)
    (x : Mach τ α γ ε ω P n m) : Except Err (Bool × Mach τ α γ ε ω P n m) :=
  if P = n then
    let r := triggered pf now x
    let x := emit (.resample now) x
    match r, pf.resam with
    | true, some R =>
      let x := emit .resam_resample (setMax pf R now x)
      let q := R.resample x.w x.lws x.as x.s
      .ok (r, { x with w := q.1, lws := q.2.1, as := q.2.2.1, s := q.2.2.2 })
    | _, _ => .ok (r, noResample pf x)
  else .error .assertion

/-- `ParticleFilter::resample(rng, now, s, a, lws, as)`, the overload with a
conditioned ancestor. -/
def resampleCond (pf : ParticleFilter τ α γ ε ω μ ι θ P n m) (now : ScheduleElement τ)
    (a : Int) (x : Mach τ α γ ε ω P n m) : Except Err (Bool × Mach τ α γ ε ω P n m) :=
  if P = n ∧ a = 0 then
    let r := triggered pf now x
    let x := emit (.resampleCond now a) x
    match r, pf.resam with
    | true, some R =>
      let x := emit (.resam_cond_resample a a) (setMax pf R now x)
      let q := R.cond_resample x.w a a x.lws x.as x.s
      .ok (r, { x with w := q.1, lws := q.2.1, as := q.2.2.1, s := q.2.2.2 })
    | _, _ => .ok (r, noResample pf x)
  else .error .assertion

/-- `ParticleFilter::output0(s)`. -/
def output0 (x : Mach τ α γ ε ω P n m) : Mach τ α γ ε ω P n m :=
  let x := emit .output0 x
  if x.out.isSome then sink (.writeParameters x.s.par) x else x

/-- `ParticleFilter::output(now, s, r, lws, as)`. -/
def output (now : ScheduleElement τ) (r : Bool) (x : Mach τ α γ ε ω P n m) :
    Mach τ α γ ε ω P n m :=
  let x := emit (.output now r) x
  if x.out.isSome && now.hasOutput then
    let k := now.indexOutput
    sink (.writeLogWeights k x.lws) (sink (.writeState k x.s.dyn x.as r)
      (sink (.writeTime k now.time) x))
  else x

/-- `ParticleFilter::outputT(ll)`. -/
def outputT (ll : α) (x : Mach τ α γ ε ω P n m) : Mach τ α γ ε ω P n m :=
  let x := emit (.outputT ll) x
  if x.out.isSome then sink (.writeLL ll) x else x

/-- `ParticleFilter::term()`. -/
def term (pf : ParticleFilter τ α γ ε ω μ ι θ P n m) (x : Mach τ α γ ε ω P n m) :
    Mach τ α γ ε ω P n m :=
  emit .term { x with w := pf.sim_term x.w }

/-- The loop of `step`:
`do { ++iter; predict(rng, *iter, s); } while (iter + 1 != last && !iter->hasOutput());`
The list argument is the schedule after position `iter`; running off its end is a
dereference outside the schedule. -/
def predictLoop (pf : ParticleFilter τ α γ ε ω μ ι θ P n m) (last : Nat) :
    List (ScheduleElement τ) → Nat → Mach τ α γ ε ω P n m →
    Except Err (Nat × Mach τ α γ ε ω P n m)
  | [], _, _ => .error .outOfRange
  | e :: rest, iter, x =>
    if (iter + 1 + 1 != last) && !e.hasOutput then
      predictLoop pf last rest (iter + 1) (predict pf e x)
    else .ok (iter + 1, predict pf e x)

/-- `ParticleFilter::step(rng, iter, last, s, lws, as)`; returns the increment and
the advanced iterator. -/
def step [Zero α] [Add α] [Sub α] [NatCast α] (pf : ParticleFilter τ α γ ε ω μ ι θ P n m)
    (sched : List (ScheduleElement τ)) (last iter : Nat) (x : Mach τ α γ ε ω P n m) :
    Except Err (α × Nat × Mach τ α γ ε ω P n m) := do
  let now ← deref sched iter
  let (r, x) ← resample pf now x
  let (iter, x) ← predictLoop pf last (sched.drop (iter + 1)) iter x
  let e ← deref sched iter
  let (ll, x) ← correct pf e x
  let x := output e r x
  return (ll, iter, emit (.stepReturn ll) x)

/-- `ParticleFilter::step(rng, iter, last, s, X, lws, as)`, the conditional step. -/
def stepCond [Zero α] [Add α] [Sub α] [NatCast α] (pf : ParticleFilter τ α γ ε ω μ ι θ P n m)
    (sched : List (ScheduleElement τ)) (last iter : Nat) (X : Nat → γ)
    (x : Mach τ α γ ε ω P n m) : Except Err (α × Nat × Mach τ α γ ε ω P n m) := do
  let now ← deref sched iter
  let (r, x) ← resample pf now x
  let (iter, x) ← predictLoop pf last (sched.drop (iter + 1)) iter x
  let e ← deref sched iter
  let x ← pinRow0 X e.indexOutput x
  let (ll, x) ← correct pf e x
  let x := output e r x
  return (ll, iter, emit (.stepReturn ll) x)

/-- The loop of `filter`: `while (iter + 1 != last) { ll += step(...); }`.
Every `step` advances `iter`, so `fuel = sched.length` iterations are never
exhausted before a dereference leaves the schedule. -/
def filterLoop [Zero α] [Add α] [Sub α] [NatCast α] (pf : ParticleFilter τ α γ ε ω μ ι θ P n m)
    (sched : List (ScheduleElement τ)) (last : Nat) :
    Nat → Nat → α → Mach τ α γ ε ω P n m → Except Err (α × Nat × Mach τ α γ ε ω P n m)
  | 0, iter, ll, x => if iter + 1 != last then .error .outOfRange else .ok (ll, iter, x)
  | fuel + 1, iter, ll, x =>
    if iter + 1 != last then do
      let (inc, iter, x) ← step pf sched last iter x
      filterLoop pf sched last fuel iter (ll + inc) x
    else .ok (ll, iter, x)

/-- `ParticleFilter::filter(rng, first, last, s, inInit)`.  The vectors `lws(P)` and
`as(P)` are allocated by `filter`, so all three sizes are `P`; their initial
contents are those of `x`. -/
def filter [Zero α] [Add α] [Sub α] [NatCast α] (pf : ParticleFilter τ α γ ε ω μ ι θ P P P)
    (sched : List (ScheduleElement τ)) (first last : Nat) (inInit : ι)
    (x : Mach τ α γ ε ω P P P) : Except Err (α × Mach τ α γ ε ω P P P) := do
  let now ← deref sched first
  let x ← init pf now inInit x
  let x := output0 x
  let (ll, x) ← correct pf now x
  let x := output now false x
  let (ll, _, x) ← filterLoop pf sched last sched.length first ll x
  let x := term pf x
  let x := outputT ll x
  return (ll, x)

/-- The values carried by the `stepReturn` entries of a trace, in order: what each
`step` call returned. -/
def stepReturns : List (Event τ α) → List α
  | [] => []
  | .stepReturn v :: t => v :: stepReturns t
  | _ :: t => stepReturns t

/-- Whether a trace entry is a draw of ancestors by the resampler
(`resam->resample` or `resam->cond_resample`). -/
def Event.isResampling : Event τ α → Bool
  | .resam_resample => true
  | .resam_cond_resample _ _ => true
  | _ => false

/-- Whether, reading a trace from some point on, row 0 is overwritten with column
`k` of `X` before the next `predict` or `correct`. -/
def pinnedBeforeNext (k : Nat) : List (Event τ α) → Bool
  | [] => false
  | .pin j :: t => if j = k then true else pinnedBeforeNext k t
  | .predict _ :: _ => false
  | .correct _ _ :: _ => false
  | _ :: t => pinnedBeforeNext k t

/-- The property of a trace that after every `predict` on an element `e`, row 0 is
overwritten with column `e.indexOutput` of `X` before the next `predict` or
`correct`. -/
def pinnedAfterEveryPredict : List (Event τ α) → Bool
  | [] => true
  | .predict e :: t => pinnedBeforeNext e.indexOutput t && pinnedAfterEveryPredict t
  | _ :: t => pinnedAfterEveryPredict t

end Driver

/-! ## A concrete filter, used to instantiate the theorems -/

section Instance

/-- A resampler on two particles that triggers whenever the first log-weight is
positive; `resample` copies particle 1 and `cond_resample` keeps ancestor 0. -/
def resamW : Resampler Int Int Unit Nat 2 2 2 where
  isTriggered := fun _ lws => decide (0 < lws 0)
  needsMax := true
  setMaxLogWeight := fun w _ => w + 100
  resample := fun w _ _ s => (w + 1, (fun _ => 7), (fun _ => 1), s)
  cond_resample := fun w _ _ _ _ s => (w + 2, (fun _ => 9), (fun _ => 0), s)

/-- A filter on two particles with integer rows: the simulator adds one to every
row, the observation log-density of a particle is its row. -/
def pfW : ParticleFilter Int Int Int Unit Nat Unit Unit Unit 2 2 2 where
  observationLogDensity := fun s _ p => s.dyn p
  observationMaxLogDensity := fun _ _ => 5
  sim_init := fun w _ s _ => (w, s)
  sim_init_theta := fun w _ _ s => (w, s)
  sim_advance := fun w _ s => (w + 1, { s with dyn := fun i => s.dyn i + 1 })
  sim_term := fun w => w
  getMask := fun _ _ => ()
  resam := some resamW
  logsumexp_reduce := fun v => v 0 + v 1
  log := fun a => a
  normalise := fun v => fun i => v i - v 0

/-- The same filter with `resam == NULL`. -/
def pfNoResam : ParticleFilter Int Int Int Unit Nat Unit Unit Unit 2 2 2 :=
  { pfW with resam := none }

/-- Schedule element at time `t` with output index and observation index `k`. -/
def elW (t : Int) (obs outp : Bool) (k : Nat) : ScheduleElement Int :=
  { time := t, hasObs := obs, hasOutput := outp, indexObs := k, indexOutput := k }

/-- Three times; the middle one has neither an observation nor an output. -/
def schedW : List (ScheduleElement Int) :=
  [elW 0 true true 0, elW 1 false false 1, elW 2 true true 1]

/-- Three times without any observation. -/
def schedNoObs : List (ScheduleElement Int) :=
  [elW 0 false true 0, elW 1 false false 1, elW 2 false true 1]

/-- Initial machine: sink attached and empty, rows `3` and `4`, log-weights `1, 2`. -/
def machW : Mach Int Int Int Unit Nat 2 2 2 where
  w := 0
  out := some []
  trace := []
  s := { dyn := fun i => 3 + (i.val : Int), par := () }
  lws := fun i => 1 + (i.val : Int)
  as := fun _ => 0

/-- Reference trajectory whose column `k` is `50 + k`. -/
def refW : Nat → Int := fun k => 50 + (k : Int)

end Instance

/-! ## The conditional `filter`, and what is read off the sink -/

section ConditionalDriver

variable {τ α γ ε ω μ ι θ : Type} {P n m : Nat}

/-- The loop of the conditional `filter`:
`while (iter + 1 != last) { ll += step(rng, iter, last, s, X, lws, as); }`. -/
def filterCondLoop [Zero α] [Add α] [Sub α] [NatCast α]
    (pf : ParticleFilter τ α γ ε ω μ ι θ P n m) (sched : List (ScheduleElement τ))
    (last : Nat) (X : Nat → γ) :
    Nat → Nat → α → Mach τ α γ ε ω P n m → Except Err (α × Nat × Mach τ α γ ε ω P n m)
  | 0, iter, ll, x => if iter + 1 != last then .error .outOfRange else .ok (ll, iter, x)
  | fuel + 1, iter, ll, x =>
    if iter + 1 != last then do
      let (inc, iter, x) ← stepCond pf sched last iter X x
      filterCondLoop pf sched last X fuel iter (ll + inc) x
    else .ok (ll, iter, x)

/-- `ParticleFilter::filter(rng, first, last, theta, s, X)`, the conditional
particle filter. -/
def filterCond [Zero α] [Add α] [Sub α] [NatCast α]
    (pf : ParticleFilter τ α γ ε ω μ ι θ P P P) (sched : List (ScheduleElement τ))
    (first last : Nat) (theta : θ) (X : Nat → γ) (x : Mach τ α γ ε ω P P P) :
    Except Err (α × Mach τ α γ ε ω P P P) := do
  let now ← deref sched first
  let x ← initTheta pf theta now x
  let x ← pinRow0 X 0 x
  let x := output0 x
  let (ll, x) ← correct pf now x
  let x := output now false x
  let (ll, _, x) ← filterCondLoop pf sched last X sched.length first ll x
  let x := term pf x
  let x := outputT ll x
  return (ll, x)

/-- The calls `output(now, s, r, lws, as)` makes on an attached sink: one record
`(time, state, ancestry, flag, log-weights)` at index `now.indexOutput` when `now`
has an output, nothing otherwise. -/
def outputRecords (now : ScheduleElement τ) (r : Bool) (x : Mach τ α γ ε ω P n m) :
    List (SinkCall τ α γ ε P n m) :=
  if now.hasOutput then
    [SinkCall.writeTime now.indexOutput now.time,
      SinkCall.writeState now.indexOutput x.s.dyn x.as r,
      SinkCall.writeLogWeights now.indexOutput x.lws]
  else []

/-- The parts of a time-indexed record. -/
inductive RecordPart (τ : Type) where
  | time (t : τ)
  | state
  | logWeights
deriving DecidableEq, Repr

/-- The time-indexed record parts among a sequence of sink calls, each with the
output index it was written at, in the order written. -/
def recordParts : List (SinkCall τ α γ ε P n m) → List (Nat × RecordPart τ)
  | [] => []
  | .writeTime k t :: rest => (k, .time t) :: recordParts rest
  | .writeState k _ _ _ :: rest => (k, .state) :: recordParts rest
  | .writeLogWeights k _ :: rest => (k, .logWeights) :: recordParts rest
  | _ :: rest => recordParts rest

/-- The record parts a stretch of the schedule is to produce: for each element with
an output, in schedule order, its time, state and log-weights at its output index. -/
def expectedParts : List (ScheduleElement τ) → List (Nat × RecordPart τ)
  | [] => []
  | e :: rest =>
    if e.hasOutput then
      (e.indexOutput, .time e.time) :: (e.indexOutput, .state) ::
        (e.indexOutput, .logWeights) :: expectedParts rest
    else expectedParts rest

/-- The state records among a sequence of sink calls, as pairs of the output index
and the recorded row 0 (particle 0). -/
def pinnedRows : List (SinkCall τ α γ ε (P + 1) n m) → List (Nat × γ)
  | [] => []
  | .writeState k dyn _ _ :: rest => (k, dyn 0) :: pinnedRows rest
  | _ :: rest => pinnedRows rest

end ConditionalDriver

/-! ## Further instances -/

section Instance2

/-- A filter with any sizes of state, log-weights and ancestry and no resampler. -/
def pfSized (P n m : Nat) : ParticleFilter Int Int Int Unit Nat Unit Unit Unit P n m where
  observationLogDensity := fun s _ p => s.dyn p
  observationMaxLogDensity := fun _ _ => 0
  sim_init := fun w _ s _ => (w + 1, s)
  sim_init_theta := fun w _ _ s => (w + 2, s)
  sim_advance := fun w _ s => (w + 1, { s with dyn := fun i => s.dyn i + 1 })
  sim_term := fun w => w
  getMask := fun _ _ => ()
  resam := none
  logsumexp_reduce := fun _ => 0
  log := fun a => a
  normalise := fun v => v

/-- A machine of any sizes with a sink attached. -/
def machSized (P n m : Nat) : Mach Int Int Int Unit Nat P n m where
  w := 0
  out := some []
  trace := []
  s := { dyn := fun _ => 3, par := () }
  lws := fun _ => 1
  as := fun _ => 5

/-- Two times with outputs whose output indices start at `1`. -/
def schedLate : List (ScheduleElement Int) :=
  [elW 0 true true 1, elW 1 true true 2]

/-- Extended integers standing in for log-weights, with `-inf`, `+inf` and `nan`. -/
inductive LogVal where
  | negInf
  | fin (v : Int)
  | posInf
  | nan
deriving DecidableEq, Repr

/-- Addition of extended values. -/
def LogVal.add : LogVal → LogVal → LogVal
  | .fin a, .fin b => .fin (a + b)
  | .nan, _ => .nan
  | _, .nan => .nan
  | .negInf, .posInf => .nan
  | .posInf, .negInf => .nan
  | .negInf, _ => .negInf
  | _, .negInf => .negInf
  | .posInf, _ => .posInf
  | _, .posInf => .posInf

/-- Negation of extended values. -/
def LogVal.neg : LogVal → LogVal
  | .fin a => .fin (-a)
  | .negInf => .posInf
  | .posInf => .negInf
  | .nan => .nan

/-- Maximum of extended values, standing in for `logsumexp` of two terms. -/
def LogVal.max : LogVal → LogVal → LogVal
  | .nan, _ => .nan
  | _, .nan => .nan
  | .negInf, b => b
  | a, .negInf => a
  | .posInf, _ => .posInf
  | _, .posInf => .posInf
  | .fin a, .fin b => .fin (if a ≤ b then b else a)

instance : Zero LogVal := ⟨.fin 0⟩

instance : Add LogVal := ⟨LogVal.add⟩

instance : Sub LogVal := ⟨fun a b => LogVal.add a (LogVal.neg b)⟩

instance : NatCast LogVal := ⟨fun k => .fin (k : Int)⟩

/-- A two-particle filter without resampler whose observation log-density is `-inf`
for every particle. -/
def pfDegenerate : ParticleFilter Int LogVal Int Unit Nat Unit Unit Unit 2 2 2 where
  observationLogDensity := fun _ _ _ => .negInf
  observationMaxLogDensity := fun _ _ => .negInf
  sim_init := fun w _ s _ => (w, s)
  sim_init_theta := fun w _ _ s => (w, s)
  sim_advance := fun w _ s => (w + 1, s)
  sim_term := fun w => w
  getMask := fun _ _ => ()
  resam := none
  logsumexp_reduce := fun v => LogVal.max (v 0) (v 1)
  log := fun a => a
  normalise := fun v => v

/-- Initial machine for `pfDegenerate`. -/
def machDegenerate : Mach Int LogVal Int Unit Nat 2 2 2 where
  w := 0
  out := some []
  trace := []
  s := { dyn := fun _ => 0, par := () }
  lws := fun _ => .fin 0
  as := fun _ => 0

/-- A resampler on one particle as the spec describes it: it triggers whenever asked
and `resample` sets the log-weight to the log of the mean weight, which for one
particle is `logsumexp(lws) - log 1`, the weight itself; the particle is kept. -/
def resamOne : Resampler Int Int Unit Nat 1 1 1 where
  isTriggered := fun _ _ => true
  needsMax := false
  setMaxLogWeight := fun w _ => w
  resample := fun w lws _ s => (w + 1, (fun _ => lws 0 - 0), (fun _ => 0), s)
  cond_resample := fun w _ _ lws _ s => (w + 1, (fun _ => lws 0 - 0), (fun _ => 0), s)

/-- A filter on one particle: the simulator adds one to the row, the observation
log-density of the particle is its row, `logsumexp` of the single weight is that
weight, `log 1 = 0`, and `normalise` subtracts the maximum. -/
def pfOne : ParticleFilter Int Int Int Unit Nat Unit Unit Unit 1 1 1 where
  observationLogDensity := fun s _ p => s.dyn p
  observationMaxLogDensity := fun _ _ => 0
  sim_init := fun w _ s _ => (w, s)
  sim_init_theta := fun w _ _ s => (w, s)
  sim_advance := fun w _ s => (w + 1, { s with dyn := fun i => s.dyn i + 1 })
  sim_term := fun w => w
  getMask := fun _ _ => ()
  resam := some resamOne
  logsumexp_reduce := fun v => v 0
  log := fun a => a - 1
  normalise := fun v => fun i => v i - v 0

/-- Initial machine for `pfOne`: the particle's row is `3`. -/
def machOne : Mach Int Int Int Unit Nat 1 1 1 where
  w := 0
  out := some []
  trace := []
  s := { dyn := fun _ => 3, par := () }
  lws := fun _ => 0
  as := fun _ => 0

/-- Two observation times with outputs `0` and `1`. -/
def schedTwoObs : List (ScheduleElement Int) :=
  [elW 0 true true 0, elW 1 true true 1]

/-- Two observation times with an output time without observation in between. -/
def schedTwoObsApart : List (ScheduleElement Int) :=
  [elW 0 true true 0, elW 1 false true 1, elW 2 true true 2]

end Instance2

/-! ## The RK4(3)5[2R+]C integrator

A shallow embedding of `RK43IntegratorHost::update`
(`libbi/src/bi/host/ode/RK43IntegratorHost.hpp`).  `real` is a linearly ordered
field `α` (exact arithmetic); `BI_MATH_LOG` and `BI_MATH_EXP`, the tuning constants
and the five stages of the visitor are parameters.  The state of one particle's
loop is a record `Loop`; its fields `iters`, `accepts` and `accepted` are ghost
fields that count the iterations begun and the steps accepted and keep the state
the last accepted step produced. -/

section Integrator

/-- Modelled from the spec: the integrator tuning constants `h_h0`, `h_uround`,
`h_atoler`, `h_rtoler`, `h_facl`, `h_facr`, `h_logsafe`, `h_expo`, `h_beta` and
`h_nsteps` of `IntegratorConstants.hpp`, which is not among the sources.  The loop
reads them as variables; the values they are given at process start are those of
`deriveConstants`. -/
structure IntegratorConstants (α : Type) where
  h0 : α
  uround : α
  atoler : α
  rtoler : α
  facl : α
  facr : α
  logsafe : α
  expo : α
  beta : α
  nsteps : Int

/-- The library functions `BI_MATH_LOG` and `BI_MATH_EXP`. -/
structure MathFns (α : Type) where
  log : α → α
  exp : α → α

/-- The three registers `r1`, `r2`, `err` a stage works on. -/
structure Registers (α : Type) (N : Nat) where
  r1 : Fin N → α
  r2 : Fin N → α
  err : Fin N → α

/-- The stages `Visitor::stage1 ... stage5` of `RK43VisitorHost.hpp`, which is not
among the sources: each takes `t`, `h`, the particle `p`, the shared particle state
it reads through `pax`, and the registers, and returns the registers. -/
structure Visitor (α : Type) (N : Nat) where
  stage1 : α → α → Nat → (Fin N → α) → Registers α N → Registers α N
  stage2 : α → α → Nat → (Fin N → α) → Registers α N → Registers α N
  stage3 : α → α → Nat → (Fin N → α) → Registers α N → Registers α N
  stage4 : α → α → Nat → (Fin N → α) → Registers α N → Registers α N
  stage5 : α → α → Nat → (Fin N → α) → Registers α N → Registers α N

/-- The variables of one particle's integration loop: `t`, `h`, `logfacold`, `n`,
the vectors `r1`, `r2`, `err`, `old`, the shared particle state `*sharedHostState`,
and the ghost fields `iters`, `accepts`, `accepted`. -/
structure Loop (α : Type) (N : Nat) where
  t : α
  h : α
  logfacold : α
  n : Nat
  r1 : Fin N → α
  r2 : Fin N → α
  err : Fin N → α
  old : Fin N → α
  shared : Fin N → α
  iters : Nat
  accepts : Nat
  accepted : Fin N → α

/-- How an iteration of the loop ends: it goes on to `++n`, or it leaves the loop
by `break`. -/
inductive Flow (σ : Type) where
  | next (s : σ)
  | exit (s : σ)

variable {α : Type} [LinearOrderedField α] {N : Nat}

/-- Modelled from the spec: the constants as derived once at process start from the
user-supplied `rtoler`, `atoler`, `h0` and `nsteps`: `uround := machine_epsilon`,
`expo := 0.2`, `facl := 0.2`, `facr := 10.0`, `logsafe := log(0.9)`, `beta := 0.04`;
they are read-only thereafter. -/
def deriveConstants (fns : MathFns α) (machine_epsilon rtoler atoler h0 : α) (nsteps : Int) :
    IntegratorConstants α where
  h0 := h0
  uround := machine_epsilon
  atoler := atoler
  rtoler := rtoler
  facl := 2 / 10
  facr := 10
  logsafe := fns.log (9 / 10)
  expo := 2 / 10
  beta := 4 / 100
  nsteps := nsteps

/-- The final-interval clamp:
`if (t + 1.01*h - t2 > 0) { h = t2 - t; if (h <= 0) { t = t2; break; } }`. -/
def clamp (t2 : α) (s : Loop α N) : Flow (Loop α N) :=
  if s.t + 101 / 100 * s.h - t2 > 0 then
    if t2 - s.t ≤ 0 then .exit { s with h := t2 - s.t, t := t2 }
    else .next { s with h := t2 - s.t }
  else .next s

/-- The registers written back into the loop variables. -/
def setRegisters (q : Registers α N) (s : Loop α N) : Loop α N :=
  { s with r1 := q.r1, r2 := q.r2, err := q.err }

/-- One `Visitor::stageK(t, h, p, pax, r1.buf(), r2.buf(), err.buf())`. -/
def applyStage (f : α → α → Nat → (Fin N → α) → Registers α N → Registers α N) (p : Nat)
    (s : Loop α N) : Loop α N :=
  setRegisters (f s.t s.h p s.shared ⟨s.r1, s.r2, s.err⟩) s

/-- `*sharedHostState = r1`. -/
def commit1 (s : Loop α N) : Loop α N := { s with shared := s.r1 }

/-- `*sharedHostState = r2`. -/
def commit2 (s : Loop α N) : Loop α N := { s with shared := s.r2 }

/-- The five stages, each followed by the commit of `r1` or `r2` to the shared
state. -/
def stages (v : Visitor α N) (p : Nat) (s : Loop α N) : Loop α N :=
  commit1 (applyStage v.stage5 p (commit2 (applyStage v.stage4 p (commit1
    (applyStage v.stage3 p (commit2 (applyStage v.stage2 p (commit1
      (applyStage v.stage1 p s)))))))))

/-- The error norm: `e2 = 0; for id < N: e = err(id)*h/(atoler +
rtoler*max(|old(id)|, |r1(id)|)); e2 += e*e;` then `e2 /= N`. -/
def errorNorm (c : IntegratorConstants α) (s : Loop α N) : α :=
  (List.finRange N).foldl
    (fun e2 id => e2 +
      (s.err id * s.h / (c.atoler + c.rtoler * max |s.old id| |s.r1 id|)) *
      (s.err id * s.h / (c.atoler + c.rtoler * max |s.old id| |s.r1 id|))) 0 / (N : α)

/-- Acceptance: `if (e2 <= 1) { t += h; if (t < t2) old = r1; } else { r1 = old;
*sharedHostState = old; }`.  On acceptance the ghost fields record the step. -/
def acceptReject (t2 e2 : α) (s : Loop α N) : Loop α N :=
  if e2 ≤ 1 then
    if s.t + s.h < t2 then
      { s with t := s.t + s.h, old := s.r1, accepts := s.accepts + 1, accepted := s.r1 }
    else { s with t := s.t + s.h, accepts := s.accepts + 1, accepted := s.r1 }
  else { s with r1 := s.old, shared := s.old }

/-- The step-size update, performed `if (t < t2)`. -/
def nextStepSize (c : IntegratorConstants α) (fns : MathFns α) (t2 e2 : α) (s : Loop α N) :
    Loop α N :=
  if s.t < t2 then
    if e2 > 1 then
      { s with h := s.h * max c.facl (fns.exp (c.logsafe - c.expo * fns.log e2)) }
    else
      { s with
        h := s.h * min c.facr (max c.facl
          (fns.exp (c.beta * s.logfacold + c.logsafe - c.expo * fns.log e2)))
        logfacold := 1 / 2 * fns.log (max e2 (1 / 100000000)) }
  else s

/-- The value `e2` computed in the iteration that starts in `s`, if the iteration
gets that far. -/
def iterationE2 (c : IntegratorConstants α) (v : Visitor α N) (t2 : α) (p : Nat)
    (s : Loop α N) : Option α :=
  match clamp t2 { s with iters := s.iters + 1 } with
  | .exit _ => none
  | .next s1 => some (errorNorm c (stages v p s1))

/-- The body of `while (t < t2 && n < h_nsteps)`.  The test
`if (0.1*|h| <= |t|*h_uround) { }` has an empty body and is left out. -/
def body (c : IntegratorConstants α) (fns : MathFns α) (v : Visitor α N) (t2 : α) (p : Nat)
    (s : Loop α N) : Flow (Loop α N) :=
  match clamp t2 { s with iters := s.iters + 1 } with
  | .exit s1 => .exit s1
  | .next s1 =>
    .next { nextStepSize c fns t2 (errorNorm c (stages v p s1))
        (acceptReject t2 (errorNorm c (stages v p s1)) (stages v p s1)) with
      n := s.n + 1 }

/-- The loop `while (t < t2 && n < h_nsteps) { ... }`, run for at most `fuel`
iterations. -/
def loop (c : IntegratorConstants α) (fns : MathFns α) (v : Visitor α N) (t2 : α) (p : Nat) :
    Nat → Loop α N → Loop α N
  | 0, s => s
  | fuel + 1, s =>
    if s.t < t2 ∧ (s.n : Int) < c.nsteps then
      match body c fns v t2 p s with
      | .exit s1 => s1
      | .next s1 => loop c fns v t2 p fuel s1
    else s

/-- The variables on entry to the loop for a particle whose shared state is `x0`;
`r2` and `err` hold whatever the scratch vectors held. -/
def start (c : IntegratorConstants α) (fns : MathFns α) (t1 : α) (x0 r2 err : Fin N → α) :
    Loop α N where
  t := t1
  h := c.h0
  logfacold := fns.log (1 / 10000)
  n := 0
  r1 := x0
  r2 := r2
  err := err
  old := x0
  shared := x0
  iters := 0
  accepts := 0
  accepted := x0

/-- The integration of one particle: the loop run to its end, which takes at most
`h_nsteps` iterations. -/
def integrate (c : IntegratorConstants α) (fns : MathFns α) (v : Visitor α N) (t1 t2 : α)
    (p : Nat) (x0 r2 err : Fin N → α) : Loop α N :=
  loop c fns v t2 p c.nsteps.toNat (start c fns t1 x0 r2 err)

/-- `RK43IntegratorHost::update(t1, t2, s)`: after `assert(t1 < t2)`, every particle
`p` is loaded into the shared state, integrated, and the shared state committed
back. -/
def update {P : Nat} (c : IntegratorConstants α) (fns : MathFns α) (v : Visitor α N)
    (t1 t2 : α) (dstate r2 err : Fin P → Fin N → α) : Except Err (Fin P → Fin N → α) :=
  if t1 < t2 then
    .ok (fun p => (integrate c fns v t1 t2 p.val (dstate p) (r2 p) (err p)).shared)
  else .error .assertion

/-- Tuning constants over the rationals: `facl = 1/5`, `facr` as given, tolerances
`1`, at most ten attempts. -/
def constsW (h0 facr : ℚ) : IntegratorConstants ℚ where
  h0 := h0
  uround := 1 / 1000000
  atoler := 1
  rtoler := 1
  facl := 1 / 5
  facr := facr
  logsafe := 0
  expo := 1 / 5
  beta := 0
  nsteps := 10

/-- Stand-ins for `log` and `exp` over the rationals. -/
def fnsW : MathFns ℚ where
  log := fun _ => 0
  exp := fun _ => 1

/-- A visitor for one variable with `dx/dt = 1` and no error estimate: stage 5 adds
`h` to `r1` and clears `err`, the other stages do nothing. -/
def visitorW : Visitor ℚ 1 where
  stage1 := fun _ _ _ _ q => q
  stage2 := fun _ _ _ _ q => q
  stage3 := fun _ _ _ _ q => q
  stage4 := fun _ _ _ _ q => q
  stage5 := fun _ h _ _ q => ⟨fun i => q.r1 i + h, q.r2, fun _ => 0⟩

/-- A visitor for one variable whose error estimate is so large that every step is
rejected. -/
def visitorReject : Visitor ℚ 1 where
  stage1 := fun _ _ _ _ q => q
  stage2 := fun _ _ _ _ q => q
  stage3 := fun _ _ _ _ q => q
  stage4 := fun _ _ _ _ q => q
  stage5 := fun _ h _ _ q => ⟨fun i => q.r1 i + h, q.r2, fun _ => 1000 / h⟩

end Integrator

/-! ## Host matrices

A shallow embedding of `host_matrix_handle`, `host_matrix_reference` and
`host_matrix` (`libbi/src/bi/host/math/matrix.hpp`).  A pointer `T*` is an address
counted in elements of `T`, with `0` for `NULL`; memory is a function from
addresses to values, threaded through the operations that write to it.
`size_type` is `int`, represented by the integers (products and offsets are taken
not to overflow).  The block an allocator call hands out is an argument `fresh` of
the operation that allocates. -/

section Matrix

/-- Modelled from the spec: the failures of the matrix classes, an `assert` that does
not hold and the `ResizeForbidden` error, which
`BI_ERROR(own, "Cannot resize host_matrix constructed as view of other matrix")`
raises when `own` is false (the macro is defined outside `matrix.hpp`). -/
inductive MatErr where
  | assertion
  | resizeForbidden
deriving DecidableEq, Repr

/-- The members `ptr`, `rows`, `cols`, `ld` of a `host_matrix_handle<T>`. -/
structure host_matrix_handle where
  ptr : Int
  rows : Int
  cols : Int
  ld : Int
deriving DecidableEq, Repr

/-- A `host_matrix<T,A>`: the handle and the flag `own`. -/
structure host_matrix extends host_matrix_handle where
  own : Bool
deriving DecidableEq, Repr

/-- Memory holding values of type `T`. -/
abbrev Heap (T : Type) := Int → T

variable {T : Type}

/-- `host_matrix_handle::size1()`. -/
def host_matrix_handle.size1 (A : host_matrix_handle) : Int := A.rows

/-- `host_matrix_handle::size2()`. -/
def host_matrix_handle.size2 (A : host_matrix_handle) : Int := A.cols

/-- `host_matrix_handle::lead()`. -/
def host_matrix_handle.lead (A : host_matrix_handle) : Int := A.ld

/-- `host_matrix_handle::buf()`. -/
def host_matrix_handle.buf (A : host_matrix_handle) : Int := A.ptr

/-- The address of `ptr[j*ld + i]`. -/
def host_matrix_handle.addr (A : host_matrix_handle) (i j : Int) : Int :=
  A.ptr + (j * A.ld + i)

/-- `host_matrix_handle::operator()(i, j)`, read. -/
def host_matrix_handle.get (A : host_matrix_handle) (heap : Heap T) (i j : Int) :
    Except MatErr T :=
  if (0 ≤ i ∧ i < A.size1) ∧ (0 ≤ j ∧ j < A.size2) then .ok (heap (A.addr i j))
  else .error .assertion

/-- `host_matrix_handle::operator()(i, j)`, written with `v`. -/
def host_matrix_handle.set (A : host_matrix_handle) (heap : Heap T) (i j : Int) (v : T) :
    Except MatErr (Heap T) :=
  if (0 ≤ i ∧ i < A.size1) ∧ (0 ≤ j ∧ j < A.size2) then
    .ok (Function.update heap (A.addr i j) v)
  else .error .assertion

/-- `host_matrix_handle::same(o)`: `sameType` is
`equals<value_type, M1::value_type>::value`, `oOnDevice` is `M1::on_device`, and
`on_device` of a host handle is `false`. -/
def host_matrix_handle.same (sameType oOnDevice : Bool) (A o : host_matrix_handle) : Bool :=
  sameType && (false == oOnDevice) && (A.buf == o.buf) && (A.size1 == o.size1) &&
    (A.size2 == o.size2) && (A.lead == o.lead)

/-- The constructor `host_matrix_reference(data, rows, cols, lead)`. -/
def host_matrix_reference (data rows cols lead : Int) : Except MatErr host_matrix_handle :=
  if rows ≥ 0 ∧ cols ≥ 0 then
    .ok { ptr := data, rows := rows, cols := cols,
          ld := max 1 (if lead < 0 then rows else lead) }
  else .error .assertion

/-- The default constructor `host_matrix()`: the base is built with the default
arguments `(NULL, 0, 0, -1)`. -/
def host_matrix.empty : Except MatErr host_matrix :=
  match host_matrix_reference 0 0 0 (-1) with
  | .ok A => .ok { A with own := true }
  | .error e => .error e

/-- The constructor `host_matrix(rows, cols)`; `fresh` is what
`alloc.allocate(rows*cols)` returns. -/
def host_matrix.create (fresh rows cols : Int) : Except MatErr host_matrix :=
  match host_matrix_reference 0 rows cols rows with
  | .ok A =>
    if rows ≥ 0 ∧ cols ≥ 0 then
      .ok { A with ptr := if rows * cols > 0 then fresh else A.ptr, own := true }
    else .error .assertion
  | .error e => .error e

/-- The copy constructor `host_matrix(const host_matrix& o)`. -/
def host_matrix.copy (o : host_matrix) : Except MatErr host_matrix :=
  match host_matrix_reference o.buf o.size1 o.size2 o.lead with
  | .ok A => .ok { A with own := false }
  | .error e => .error e

/-- A sequence of element copies `*dst = *src`, given as pairs `(dst, src)` and
performed in order. -/
def copyElems (heap : Heap T) (pairs : List (Int × Int)) : Heap T :=
  pairs.foldl (fun h p => Function.update h p.1 (h p.2)) heap

/-- The element copies of `memcpy(dst, src, n*sizeof(T))`. -/
def memcpyPairs (dst src n : Int) : List (Int × Int) :=
  (List.range n.toNat).map (fun (k : Nat) => (dst + (k : Int), src + (k : Int)))

/-- `memcpy(dst, src, n*sizeof(T))` on blocks that do not overlap. -/
def memcpy (heap : Heap T) (dst src n : Int) : Heap T :=
  copyElems heap (memcpyPairs dst src n)

/-- Modelled from the spec: the element copies of `column(A, j) = column(o, j)`,
where `column(j)` is a view of length `rows` striding 1 in memory and vector
assignment is deep. -/
def columnPairs (A o : host_matrix_handle) (j : Nat) : List (Int × Int) :=
  (List.range A.size1.toNat).map
    (fun (k : Nat) => (A.addr (k : Int) (j : Int), o.addr (k : Int) (j : Int)))

/-- The loop `for (i = 0; i < size2(); ++i) column(*this, i) = column(o, i);`. -/
def assignColumns (heap : Heap T) (A o : host_matrix_handle) : Heap T :=
  (List.range A.size2.toNat).foldl (fun (h : Heap T) (j : Nat) => copyElems h (columnPairs A o j))
    heap

/-- `host_matrix_reference::operator=(const host_matrix_reference& o)`; the result
is `*this` and memory. -/
def host_matrix_handle.assign (A o : host_matrix_handle) (heap : Heap T) :
    Except MatErr (host_matrix_handle × Heap T) :=
  if o.size1 = A.size1 ∧ o.size2 = A.size2 then
    if !(A.same true false o) then
      if A.lead = A.size1 ∧ o.lead = o.size1 then
        .ok (A, memcpy heap A.buf o.buf (A.size1 * A.size2))
      else .ok (A, assignColumns heap A o)
    else .ok (A, heap)
  else .error .assertion

/-- The copy loop of `resize`:
`for (j = 0; j < min(this->cols, cols); ++j) for (i = 0; i < min(this->rows, rows); ++i)
ptr[j*rows + i] = (*this)(i,j);`. -/
def preserveLoop (A : host_matrix_handle) (ptr rows cols : Int) (heap : Heap T) :
    Except MatErr (Heap T) :=
  (List.range (min A.cols cols).toNat).foldlM
    (fun (h : Heap T) (j : Nat) => (List.range (min A.rows rows).toNat).foldlM
      (fun (h : Heap T) (i : Nat) =>
        match A.get h (i : Int) (j : Int) with
        | .ok v => .ok (Function.update h (ptr + ((j : Int) * rows + (i : Int))) v)
        | .error e => .error e) h) heap

/-- `host_matrix::resize(rows, cols, preserve)`; `fresh` is what
`alloc.allocate(rows*cols)` returns.  Deallocation does not change the contents of
memory.  A failure carries the matrix as the failure leaves it: the members are
assigned only at the end. -/
def host_matrix.resize (A : host_matrix) (fresh rows cols : Int) (preserve : Bool)
    (heap : Heap T) : Except (MatErr × host_matrix) (host_matrix × Heap T) :=
  if rows ≠ A.size1 ∨ cols ≠ A.size2 then
    if A.own then
      match (if preserve then
          preserveLoop A.tohost_matrix_handle (if rows * cols > 0 then fresh else 0) rows cols
            heap
        else .ok heap) with
      | .ok heap1 =>
        .ok ({ A with ptr := if rows * cols > 0 then fresh else 0, rows := rows, cols := cols,
                      ld := rows }, heap1)
      | .error e => .error (e, A)
    else .error (.resizeForbidden, A)
  else .ok (A, heap)

/-- `host_matrix::swap(o)`: `std::swap` of `rows`, `cols`, `ptr`, `ld` and `own`, in
this order; memory is not written.  The result is `*this`, `o` and memory. -/
def host_matrix.swap (A o : host_matrix) (heap : Heap T) :
    host_matrix × host_matrix × Heap T :=
  let A1 : host_matrix := { A with rows := o.rows }
  let o1 : host_matrix := { o with rows := A.rows }
  let A2 : host_matrix := { A1 with cols := o1.cols }
  let o2 : host_matrix := { o1 with cols := A1.cols }
  let A3 : host_matrix := { A2 with ptr := o2.ptr }
  let o3 : host_matrix := { o2 with ptr := A2.ptr }
  let A4 : host_matrix := { A3 with ld := o3.ld }
  let o4 : host_matrix := { o3 with ld := A3.ld }
  ({ A4 with own := o4.own }, { o4 with own := A4.own }, heap)

/-- The element copies the column loop of `operator=` performs, in order. -/
def assignPairs (A o : host_matrix_handle) : List (Int × Int) :=
  (List.range A.size2.toNat).flatMap (columnPairs A o)

/-- The element copies the copy loop of `resize` performs, in order. -/
def preservePairs (A : host_matrix_handle) (ptr rows cols : Int) : List (Int × Int) :=
  (List.range (min A.cols cols).toNat).flatMap
    (fun (j : Nat) => (List.range (min A.rows rows).toNat).map
      (fun (i : Nat) => (ptr + ((j : Int) * rows + (i : Int)), A.addr (i : Int) (j : Int))))

/-- Memory in which address `a` holds the value `a`. -/
def heapW : Heap Int := fun a => a

/-- An owning `2 × 3` matrix at address `100`. -/
def matOwner : host_matrix :=
  { ptr := 100, rows := 2, cols := 3, ld := 2, own := true }

/-- A view of `matOwner`. -/
def matView : host_matrix :=
  { ptr := 100, rows := 2, cols := 3, ld := 2, own := false }

/-- A `2 × 3` reference at address `200` with leading dimension `4`. -/
def refWide : host_matrix_handle :=
  { ptr := 200, rows := 2, cols := 3, ld := 4 }

/-- A `2 × 3` reference at address `300` with leading dimension `2`. -/
def refTight : host_matrix_handle :=
  { ptr := 300, rows := 2, cols := 3, ld := 2 }

/-- A `5 × 3` owning matrix at address `400`. -/
def matTall : host_matrix :=
  { ptr := 400, rows := 5, cols := 3, ld := 5, own := true }

end Matrix

/-! ## Further integrator instances -/

section IntegratorInstances

/-- Tuning constants over the rationals with `logsafe = -1/10 < 0`, `facl = 1/5`,
`facr = 10`, `expo = 1/5`. -/
def constsSafe (h0 : ℚ) : IntegratorConstants ℚ where
  h0 := h0
  uround := 1 / 1000000
  atoler := 1
  rtoler := 1
  facl := 1 / 5
  facr := 10
  logsafe := -1 / 10
  expo := 1 / 5
  beta := 0
  nsteps := 10

/-- The constants derived from `h0`, tolerances `1`, at most ten attempts and machine
epsilon `1/1000000` over the rationals, with the stand-in `log` of `fnsW`. -/
def constsDerived (h0 : ℚ) : IntegratorConstants ℚ :=
  deriveConstants fnsW (1 / 1000000) 1 1 h0 10

/-- Stand-ins for `log` and `exp` over the rationals with `log x > 0` for `x > 1`
and `exp y < 1` for `y < 0`. -/
def fnsMono : MathFns ℚ where
  log := fun x => x - 1
  exp := fun y => if y < 0 then 1 / 2 else 1

end IntegratorInstances

/-! ## What is read off a run of `filter` -/

section DriverObservers

variable {τ α γ ε ω : Type} {P n m : Nat}

/-- The machine with the sink detached (`out == NULL`). -/
def detach (x : Mach τ α γ ε ω P n m) : Mach τ α γ ε ω P n m :=
  { x with out := none }

/-- The schedule elements `correct` was applied to, read off a trace, in order. -/
def corrected : List (Event τ α) → List (ScheduleElement τ)
  | [] => []
  | .correct e _ :: t => e :: corrected t
  | _ :: t => corrected t

/-- The elements of a stretch of the schedule that are its first element, a later
element with `hasOutput = true`, or its final element, in schedule order; `isFirst`
says whether the head of the list is the first element of the stretch. -/
def correctTargets : Bool → List (ScheduleElement τ) → List (ScheduleElement τ)
  | _, [] => []
  | _, [e] => [e]
  | isFirst, e :: e2 :: rest =>
    if isFirst || e.hasOutput then e :: correctTargets false (e2 :: rest)
    else correctTargets false (e2 :: rest)

/-- Four times, all with an observation; the second and third have no output. -/
def schedObsNoOutput : List (ScheduleElement Int) :=
  [elW 0 true true 0, elW 1 true false 1, elW 2 true false 1, elW 3 true true 1]

end DriverObservers

/-! ## Log-density functors

A shallow embedding of `gamma_log_density_functor` and
`inverse_gamma_log_density_functor` (`share/src/bi/pdf/functor.hpp`) over a linearly
ordered field, with `bi::log` and `bi::lgamma` as parameters. -/

section Functors

/-- The library functions `bi::log` and `bi::lgamma`. -/
structure PdfFns (α : Type) where
  log : α → α
  lgamma : α → α

/-- The members `alpha`, `beta`, `logZ` of a `gamma_log_density_functor<T>`. -/
structure gamma_log_density_functor (α : Type) where
  alpha : α
  beta : α
  logZ : α

/-- An `inverse_gamma_log_density_functor<T>`, which inherits privately from
`gamma_log_density_functor<T>`. -/
structure inverse_gamma_log_density_functor (α : Type) extends gamma_log_density_functor α

variable {α : Type} [LinearOrderedField α]

/-- The constructor `gamma_log_density_functor(alpha, beta)`:
`logZ(bi::lgamma(alpha) + alpha * bi::log(beta))`. -/
def gamma_log_density_functor.new (fns : PdfFns α) (alpha beta : α) :
    gamma_log_density_functor α :=
  { alpha := alpha, beta := beta, logZ := fns.lgamma alpha + alpha * fns.log beta }

/-- `gamma_log_density_functor::operator()(x)`:
`(alpha - 1.0) * bi::log(x) - x / beta - logZ`. -/
def gamma_log_density_functor.call (fns : PdfFns α) (f : gamma_log_density_functor α)
    (x : α) : α :=
  (f.alpha - 1) * fns.log x - x / f.beta - f.logZ

/-- The constructor `inverse_gamma_log_density_functor(alpha, beta)`:
`gamma_log_density_functor<T>(alpha, 1.0 / beta)`. -/
def inverse_gamma_log_density_functor.new (fns : PdfFns α) (alpha beta : α) :
    inverse_gamma_log_density_functor α :=
  { gamma_log_density_functor.new fns alpha (1 / beta) with }

/-- `inverse_gamma_log_density_functor::operator()(x)`:
`gamma_log_density_functor<T>::operator()(1.0 / x) - 2.0 * bi::log(x)`. -/
def inverse_gamma_log_density_functor.call (fns : PdfFns α)
    (f : inverse_gamma_log_density_functor α) (x : α) : α :=
  f.togamma_log_density_functor.call fns (1 / x) - 2 * fns.log x

/-- Stand-ins for `log` and `lgamma` over the rationals, with
`log (1 / y) = - log y`. -/
def pdfFnsW : PdfFns ℚ where
  log := fun y => y - 1 / y
  lgamma := fun a => a * a

end Functors

/-! ## The observation update `correct` -/

section Correct

variable {τ α γ ε ω μ ι θ : Type} {P m : Nat} [Zero α] [Add α] [Sub α] [NatCast α]

/-- C2: for a schedule element without an observation, every state and every
log-weight vector (one weight per particle), `correct` returns `0` and leaves the
log-weights, the particle state and the ancestry as they were. -/
theorem correct_without_obs (pf : ParticleFilter τ α γ ε ω μ ι θ P P m)
    (now : ScheduleElement τ) (x : Mach τ α γ ε ω P P m) (hobs : now.hasObs = false) :
    ∃ x', correct pf now x = .ok (0, x') ∧ x'.lws = x.lws ∧ x'.s = x.s ∧ x'.as = x.as := by
  refine ⟨emit (.correct now 0) x, ?_, rfl, rfl, rfl⟩
  simp [correct, hobs]

/-- Instance of C2 on the two-particle filter. -/
theorem correct_without_obs_witness :
    ∃ x', correct pfW (elW 1 false false 1) machW = .ok (0, x') ∧ x'.lws = machW.lws ∧
      x'.s = machW.s ∧ x'.as = machW.as :=
  correct_without_obs pfW (elW 1 false false 1) machW rfl

/-- C3: for a schedule element with an observation and `P` particles, `correct`
adds to each `lws[p]` the model's observation log-density of particle `p` (at the
mask of `now.indexObs`) and returns `logsumexp_reduce` of the updated vector minus
`log P`. -/
theorem correct_with_obs (pf : ParticleFilter τ α γ ε ω μ ι θ P P m)
    (now : ScheduleElement τ) (x : Mach τ α γ ε ω P P m) (hobs : now.hasObs = true) :
    ∃ x', correct pf now x = .ok (pf.logsumexp_reduce x'.lws - pf.log (P : α), x') ∧
      (∀ p : Fin P, x'.lws p =
        x.lws p + pf.observationLogDensity x.s (pf.getMask x.w now.indexObs) p) ∧
      x'.s = x.s ∧ x'.as = x.as := by
  refine ⟨emit (.correct now (pf.logsumexp_reduce (observationLogDensities pf x.s
      (pf.getMask x.w now.indexObs) x.lws) - pf.log (P : α)))
    { x with lws := observationLogDensities pf x.s (pf.getMask x.w now.indexObs) x.lws },
    ?_, ?_, rfl, rfl⟩
  · simp [correct, hobs, emit]
  · intro p
    simp [emit, observationLogDensities]

/-- Instance of C3 on the two-particle filter. -/
theorem correct_with_obs_witness :
    ∃ x', correct pfW (elW 0 true true 0) machW =
        .ok (pfW.logsumexp_reduce x'.lws - pfW.log ((2 : Nat) : Int), x') ∧
      (∀ p : Fin 2, x'.lws p = machW.lws p +
        pfW.observationLogDensity machW.s (pfW.getMask machW.w (elW 0 true true 0).indexObs) p) ∧
      x'.s = machW.s ∧ x'.as = machW.as :=
  correct_with_obs pfW (elW 0 true true 0) machW rfl

end Correct

/-! ## Resampling -/

section Resample

variable {τ α γ ε ω μ ι θ : Type} {P m : Nat}

/-- The unconditioned `resample` always returns, with the trigger flag. -/
theorem resample_ok (pf : ParticleFilter τ α γ ε ω μ ι θ P P m) (now : ScheduleElement τ)
    (x : Mach τ α γ ε ω P P m) :
    ∃ x', resample pf now x = .ok (triggered pf now x, x') := by
  unfold resample
  simp only [if_true]
  split <;> exact ⟨_, rfl⟩

/-- C4: `resample` returns, and it returns `true` exactly when `now.hasObs` holds, a
resampler is attached and that resampler reports `isTriggered(lws)`; in
particular it returns `false` when `resam == NULL`. -/
theorem resample_true_iff (pf : ParticleFilter τ α γ ε ω μ ι θ P P m)
    (now : ScheduleElement τ) (x : Mach τ α γ ε ω P P m) :
    ∃ r x', resample pf now x = .ok (r, x') ∧
      (r = true ↔ now.hasObs = true ∧
        ∃ R, pf.resam = some R ∧ R.isTriggered x.w x.lws = true) ∧
      (pf.resam = none → r = false) := by
  obtain ⟨x', hx⟩ := resample_ok pf now x
  refine ⟨triggered pf now x, x', hx, ?_, ?_⟩
  · unfold triggered
    cases hR : pf.resam <;> simp
  · intro hR
    simp [triggered, hR]

/-- C5: when `resample` returns `false`, the ancestry is the identity, the
log-weights are `normalise` of the old ones, the particle state and the
collaborators are untouched, and the only new trace entry is the call of
`resample` itself: no resampler operation was invoked. -/
theorem resample_false_effect (pf : ParticleFilter τ α γ ε ω μ ι θ P P m)
    (now : ScheduleElement τ) (x x' : Mach τ α γ ε ω P P m)
    (h : resample pf now x = .ok (false, x')) :
    (∀ i : Fin m, x'.as i = (i.val : Int)) ∧ x'.lws = pf.normalise x.lws ∧ x'.s = x.s ∧
      x'.w = x.w ∧ x'.out = x.out ∧ x'.trace = x.trace ++ [Event.resample now] := by
  unfold resample at h
  simp only [if_true] at h
  split at h
  · simp_all
  · simp only [Except.ok.injEq, Prod.mk.injEq] at h
    obtain ⟨-, rfl⟩ := h
    simp [noResample, emit, seq_elements]

/-- Instance of C5: an element without an observation on the two-particle filter. -/
theorem resample_false_effect_witness :
    (∀ i : Fin 2, (noResample pfW (emit (.resample (elW 1 false false 1)) machW)).as i
        = (i.val : Int)) ∧
      (noResample pfW (emit (.resample (elW 1 false false 1)) machW)).lws
        = pfW.normalise machW.lws ∧
      (noResample pfW (emit (.resample (elW 1 false false 1)) machW)).s = machW.s ∧
      (noResample pfW (emit (.resample (elW 1 false false 1)) machW)).w = machW.w ∧
      (noResample pfW (emit (.resample (elW 1 false false 1)) machW)).out = machW.out ∧
      (noResample pfW (emit (.resample (elW 1 false false 1)) machW)).trace
        = machW.trace ++ [Event.resample (elW 1 false false 1)] :=
  resample_false_effect pfW (elW 1 false false 1) machW _ rfl

end Resample

/-! ## One `step` -/

section Step

variable {τ α γ ε ω μ ι θ : Type} {P n m : Nat}

/-- The loop of `step` on a schedule remainder `rest` that reaches up to `last`:
it stops at the first position `k > iter` with `k + 1 = last` or with an output,
having called `predict` on the elements in between and on `k`, and touches neither
the weights, the ancestry nor the sink. -/
theorem predictLoop_run (pf : ParticleFilter τ α γ ε ω μ ι θ P n m) (last : Nat) :
    ∀ (rest : List (ScheduleElement τ)) (iter : Nat) (x : Mach τ α γ ε ω P n m),
      iter + 1 < last → last ≤ iter + 1 + rest.length →
      ∃ k x', predictLoop pf last rest iter x = .ok (k, x') ∧ iter < k ∧ k < last ∧
        (k + 1 = last ∨ ∃ e, rest[k - (iter + 1)]? = some e ∧ e.hasOutput = true) ∧
        (∀ j, j < k - (iter + 1) → ∃ e, rest[j]? = some e ∧ e.hasOutput = false) ∧
        x'.trace = x.trace ++ (rest.take (k - iter)).map Event.predict ∧
        x'.lws = x.lws ∧ x'.as = x.as ∧ x'.out = x.out := by
  intro rest
  induction rest with
  | nil => intro iter x h1 h2; simp at h2; omega
  | cons e rest ih =>
    intro iter x h1 h2
    unfold predictLoop
    by_cases hc : ((iter + 1 + 1 != last) && !e.hasOutput) = true
    · rw [if_pos hc]
      simp only [Bool.and_eq_true, bne_iff_ne, ne_eq, Bool.not_eq_true'] at hc
      have h2' : last ≤ iter + 1 + 1 + rest.length := by
        simp only [List.length_cons] at h2; omega
      obtain ⟨k, x', hk, hlt, hkl, hstop, hmin, htr, hl, ha, ho⟩ :=
        ih (iter + 1) (predict pf e x) (by omega) h2'
      refine ⟨k, x', hk, by omega, hkl, ?_, ?_, ?_, ?_, ?_, ?_⟩
      · rcases hstop with h | ⟨e', he', ho'⟩
        · exact Or.inl h
        · refine Or.inr ⟨e', ?_, ho'⟩
          have : k - (iter + 1) = (k - (iter + 1 + 1)) + 1 := by omega
          rw [this, List.getElem?_cons_succ]
          exact he'
      · intro j hj
        cases j with
        | zero => exact ⟨e, by simp, hc.2⟩
        | succ j =>
          rw [List.getElem?_cons_succ]
          exact hmin j (by omega)
      · have : k - iter = (k - (iter + 1)) + 1 := by omega
        rw [htr, this, List.take_succ_cons]
        simp [predict, emit]
      · rw [hl]; rfl
      · rw [ha]; rfl
      · rw [ho]; rfl
    · rw [if_neg hc]
      simp only [Bool.and_eq_true, bne_iff_ne, ne_eq, Bool.not_eq_true', not_and,
        Bool.not_eq_false] at hc
      refine ⟨iter + 1, predict pf e x, rfl, by omega, h1, ?_, ?_, ?_, rfl, rfl, rfl⟩
      · by_cases hl : iter + 1 + 1 = last
        · exact Or.inl hl
        · exact Or.inr ⟨e, by simp, hc hl⟩
      · intro j hj; omega
      · simp [predict, emit]

/-- The trace of `resample`: its own entry followed by the resampler operations it
invoked, which are none when the trigger flag is `false`. -/
theorem resample_run (pf : ParticleFilter τ α γ ε ω μ ι θ P P m) (now : ScheduleElement τ)
    (x : Mach τ α γ ε ω P P m) :
    ∃ x' ops, resample pf now x = .ok (triggered pf now x, x') ∧
      x'.trace = x.trace ++ Event.resample now :: ops ∧
      (∀ ev ∈ ops, ev = Event.resam_resample ∨ ∃ v, ev = Event.setMaxLogWeight v) ∧
      (triggered pf now x = true → Event.resam_resample ∈ ops) ∧
      (triggered pf now x = false →
        ops = [] ∧ x' = noResample pf (emit (.resample now) x)) ∧
      x'.out = x.out := by
  unfold resample
  simp only [if_true]
  split
  · next R hr hR =>
    by_cases hm : R.needsMax = true
    · refine ⟨_, [Event.setMaxLogWeight (pf.observationMaxLogDensity x.s
        (pf.getMask x.w now.indexObs)), Event.resam_resample], rfl, ?_, ?_, ?_, ?_, ?_⟩
      · simp [setMax, hm, emit]
      · intro ev hev
        simp only [List.mem_cons, List.mem_singleton, List.not_mem_nil, or_false] at hev
        rcases hev with h | h
        · exact Or.inr ⟨_, h⟩
        · exact Or.inl h
      · intro _; simp
      · intro h; rw [hr] at h; cases h
      · simp [setMax, hm, emit]
    · refine ⟨_, [Event.resam_resample], rfl, ?_, ?_, ?_, ?_, ?_⟩
      · simp [setMax, hm, emit]
      · intro ev hev
        simp only [List.mem_singleton] at hev
        exact Or.inl hev
      · intro _; simp
      · intro h; rw [hr] at h; cases h
      · simp [setMax, hm, emit]
  · next hne =>
    refine ⟨_, [], rfl, ?_, ?_, ?_, ?_, ?_⟩
    · simp [noResample, emit]
    · intro ev hev; cases hev
    · intro ht
      exfalso
      unfold triggered at ht hne
      cases hR : pf.resam with
      | none => simp [hR] at ht
      | some R => exact hne R ht hR
    · intro _; exact ⟨rfl, rfl⟩
    · simp [noResample, emit]

/-- The observation update always returns when there is one weight per particle; it
adds its own trace entry and leaves state, ancestry, collaborators and sink alone. -/
theorem correct_run [Zero α] [Add α] [Sub α] [NatCast α]
    (pf : ParticleFilter τ α γ ε ω μ ι θ P P m) (now : ScheduleElement τ)
    (x : Mach τ α γ ε ω P P m) :
    ∃ ll x', correct pf now x = .ok (ll, x') ∧ x'.trace = x.trace ++ [Event.correct now ll] ∧
      x'.as = x.as ∧ x'.out = x.out ∧ x'.s = x.s ∧ x'.w = x.w ∧
      (now.hasObs = false → ll = 0 ∧ x'.lws = x.lws) := by
  unfold correct
  simp only [if_true]
  by_cases hobs : now.hasObs = true
  · rw [if_pos hobs]
    exact ⟨_, _, rfl, rfl, rfl, rfl, rfl, rfl, fun h => by rw [h] at hobs; cases hobs⟩
  · rw [if_neg hobs]
    exact ⟨_, _, rfl, rfl, rfl, rfl, rfl, rfl, fun _ => ⟨rfl, rfl⟩⟩

/-- Anatomy of one `step` entered at position `i` with `i + 1 < last`: the calls it
makes with the machine states between them (`x1` after `resample`, `x2` after the
`predict`s, `x3` after `correct`), the position `k` it stops at, and the value it
returns. -/
theorem step_run [Zero α] [Add α] [Sub α] [NatCast α]
    (pf : ParticleFilter τ α γ ε ω μ ι θ P P m) (sched : List (ScheduleElement τ))
    (last i : Nat) (x : Mach τ α γ ε ω P P m) (hi : i + 1 < last)
    (hl : last ≤ sched.length) :
    ∃ (now : ScheduleElement τ) (x1 : Mach τ α γ ε ω P P m) (ops : List (Event τ α)) (k : Nat)
      (x2 : Mach τ α γ ε ω P P m) (e : ScheduleElement τ) (ll : α) (x3 : Mach τ α γ ε ω P P m),
      sched[i]? = some now ∧ sched[k]? = some e ∧
      step pf sched last i x =
        .ok (ll, k, emit (.stepReturn ll) (output e (triggered pf now x) x3)) ∧
      i < k ∧ k < last ∧ (k + 1 = last ∨ e.hasOutput = true) ∧
      (∀ j, i < j → j < k → ∃ e', sched[j]? = some e' ∧ e'.hasOutput = false) ∧
      (x1.trace = x.trace ++ Event.resample now :: ops ∧
        (∀ ev ∈ ops, ev = Event.resam_resample ∨ ∃ v, ev = Event.setMaxLogWeight v) ∧
        (triggered pf now x = false →
          ops = [] ∧ x1 = noResample pf (emit (.resample now) x)) ∧
        x1.out = x.out) ∧
      (x2.trace = x1.trace ++ ((sched.drop (i + 1)).take (k - i)).map Event.predict ∧
        x2.lws = x1.lws ∧ x2.as = x1.as ∧ x2.out = x1.out) ∧
      (x3.trace = x2.trace ++ [Event.correct e ll] ∧ x3.as = x2.as ∧ x3.out = x2.out ∧
        x3.s = x2.s ∧ (e.hasObs = false → ll = 0 ∧ x3.lws = x2.lws)) := by
  have hi' : i < sched.length := by omega
  obtain ⟨x1, ops, hres, htr1, hops, -, hnot, hout1⟩ := resample_run pf sched[i] x
  obtain ⟨k, x2, hpl, hik, hkl, hstop, hmin, htr, hlw, has, hout⟩ :=
    predictLoop_run pf last (sched.drop (i + 1)) i x1 hi (by simp; omega)
  have hk' : k < sched.length := by omega
  obtain ⟨ll, x3, hcor, htr3, has3, hout3, hs3, -, hno3⟩ := correct_run pf sched[k] x2
  have hidx : i + 1 + (k - (i + 1)) = k := by omega
  refine ⟨sched[i], x1, ops, k, x2, sched[k], ll, x3, List.getElem?_eq_getElem hi',
    List.getElem?_eq_getElem hk', ?_, hik, hkl, ?_, ?_, ⟨htr1, hops, hnot, hout1⟩,
    ⟨htr, hlw, has, hout⟩, ⟨htr3, has3, hout3, hs3, hno3⟩⟩
  · simp [step, deref, List.getElem?_eq_getElem hi', List.getElem?_eq_getElem hk', hres, hpl,
      hcor, bind, Except.bind, pure, Except.pure]
  · rcases hstop with h | ⟨e', he', ho'⟩
    · exact Or.inl h
    · right
      rw [List.getElem?_drop, hidx, List.getElem?_eq_getElem hk'] at he'
      cases he'
      exact ho'
  · intro j hij hjk
    obtain ⟨e', he', ho'⟩ := hmin (j - (i + 1)) (by omega)
    have : i + 1 + (j - (i + 1)) = j := by omega
    rw [List.getElem?_drop, this] at he'
    exact ⟨e', he', ho'⟩

theorem stepReturns_append (a b : List (Event τ α)) :
    stepReturns (a ++ b) = stepReturns a ++ stepReturns b := by
  induction a with
  | nil => rfl
  | cons e t ih => cases e <;> simp [stepReturns, ih]

theorem stepReturns_predicts (l : List (ScheduleElement τ)) :
    stepReturns (l.map (Event.predict : ScheduleElement τ → Event τ α)) = [] := by
  induction l with
  | nil => rfl
  | cons e t ih => simpa [stepReturns] using ih

theorem stepReturns_resamplerOps (ops : List (Event τ α))
    (h : ∀ ev ∈ ops, ev = Event.resam_resample ∨ ∃ v, ev = Event.setMaxLogWeight v) :
    stepReturns ops = [] := by
  induction ops with
  | nil => rfl
  | cons e t ih =>
    have ht := ih (fun ev hev => h ev (List.mem_cons_of_mem _ hev))
    rcases h e (List.mem_cons_self _ _) with rfl | ⟨v, rfl⟩ <;> simpa [stepReturns] using ht

/-- The trace after `output`: one more entry, whether or not a record is written. -/
theorem output_trace (now : ScheduleElement τ) (r : Bool) (x : Mach τ α γ ε ω P n m) :
    (output now r x).trace = x.trace ++ [Event.output now r] := by
  simp only [output]
  split <;> simp [sink, emit]

/-- C6: a `step` entered at a position `iter` of the schedule with
`iter + 1 != last` returns, and the operations it performs are, in this order: one
`resample` (inside which only resampler operations `ops` happen), then one or more
`predict`s, then one `correct`, then one `output`; after that it returns. -/
theorem step_order [Zero α] [Add α] [Sub α] [NatCast α]
    (pf : ParticleFilter τ α γ ε ω μ ι θ P P m) (sched : List (ScheduleElement τ))
    (last i : Nat) (x : Mach τ α γ ε ω P P m) (hlt : i < last) (hne : i + 1 ≠ last)
    (hl : last ≤ sched.length) :
    ∃ ll k x' now e r ops preds,
      step pf sched last i x = .ok (ll, k, x') ∧ preds ≠ [] ∧
      (∀ ev ∈ ops, ev = Event.resam_resample ∨ ∃ v, ev = Event.setMaxLogWeight v) ∧
      x'.trace = x.trace ++ (Event.resample now :: ops ++ preds.map Event.predict ++
        [Event.correct e ll, Event.output e r, Event.stepReturn ll]) := by
  obtain ⟨now, x1, ops, k, x2, e, ll, x3, -, -, hstep, hik, hkl, -, -, ⟨htr1, hops, -⟩,
    ⟨htr, -⟩, ⟨htr3, -⟩⟩ := step_run pf sched last i x (by omega) hl
  refine ⟨ll, k, _, now, e, triggered pf now x, ops,
    (sched.drop (i + 1)).take (k - i), hstep, ?_, hops, ?_⟩
  · intro h
    have hlen := congrArg List.length h
    simp only [List.length_take, List.length_drop, List.length_nil] at hlen
    omega
  · simp [emit, output_trace, htr3, htr, htr1]

/-- Instance of C6: the first step of the two-particle filter on three times. -/
theorem step_order_witness :
    ∃ ll k x' now e r ops preds,
      step pfW schedW 3 0 machW = .ok (ll, k, x') ∧ preds ≠ [] ∧
      (∀ ev ∈ ops, ev = Event.resam_resample ∨ ∃ v, ev = Event.setMaxLogWeight v) ∧
      x'.trace = machW.trace ++ (Event.resample now :: ops ++ preds.map Event.predict ++
        [Event.correct e ll, Event.output e r, Event.stepReturn ll]) :=
  step_order pfW schedW 3 0 machW (by decide) (by decide) (by decide)

/-- C7: a `step` entered at position `i` of the schedule with `i + 1 != last`
returns with `iter` at the smallest position `k > i` such that `k + 1 == last` or
element `k` has an output.  `resample` was applied to element `i`, `predict` was
called once for each of the elements `i+1, ..., k` in increasing order, and
`correct` and `output` were applied to element `k`. -/
theorem step_advance [Zero α] [Add α] [Sub α] [NatCast α]
    (pf : ParticleFilter τ α γ ε ω μ ι θ P P m) (sched : List (ScheduleElement τ))
    (last i : Nat) (x : Mach τ α γ ε ω P P m) (hlt : i < last) (hne : i + 1 ≠ last)
    (hl : last ≤ sched.length) :
    ∃ ll k x' now e r ops,
      step pf sched last i x = .ok (ll, k, x') ∧
      i < k ∧ sched[i]? = some now ∧ sched[k]? = some e ∧
      (k + 1 = last ∨ e.hasOutput = true) ∧
      (∀ j, i < j → j < k →
        j + 1 ≠ last ∧ ∃ e', sched[j]? = some e' ∧ e'.hasOutput = false) ∧
      (∀ ev ∈ ops, ev = Event.resam_resample ∨ ∃ v, ev = Event.setMaxLogWeight v) ∧
      x'.trace = x.trace ++ (Event.resample now :: ops ++
        ((sched.drop (i + 1)).take (k - i)).map Event.predict ++
        [Event.correct e ll, Event.output e r, Event.stepReturn ll]) := by
  obtain ⟨now, x1, ops, k, x2, e, ll, x3, hnow, he, hstep, hik, hkl, hstop, hmin,
    ⟨htr1, hops, -⟩, ⟨htr, -⟩, ⟨htr3, -⟩⟩ := step_run pf sched last i x (by omega) hl
  refine ⟨ll, k, _, now, e, triggered pf now x, ops, hstep, hik, hnow, he, hstop, ?_, hops, ?_⟩
  · intro j hij hjk
    exact ⟨by omega, hmin j hij hjk⟩
  · simp [emit, output_trace, htr3, htr, htr1]

/-- Instance of C7: the first step of the two-particle filter on three times. -/
theorem step_advance_witness :
    ∃ ll k x' now e r ops,
      step pfW schedW 3 0 machW = .ok (ll, k, x') ∧
      0 < k ∧ schedW[0]? = some now ∧ schedW[k]? = some e ∧
      (k + 1 = 3 ∨ e.hasOutput = true) ∧
      (∀ j, 0 < j → j < k →
        j + 1 ≠ 3 ∧ ∃ e', schedW[j]? = some e' ∧ e'.hasOutput = false) ∧
      (∀ ev ∈ ops, ev = Event.resam_resample ∨ ∃ v, ev = Event.setMaxLogWeight v) ∧
      x'.trace = machW.trace ++ (Event.resample now :: ops ++
        ((schedW.drop (0 + 1)).take (k - 0)).map Event.predict ++
        [Event.correct e ll, Event.output e r, Event.stepReturn ll]) :=
  step_advance pfW schedW 3 0 machW (by decide) (by decide) (by decide)

end Step

/-! ## The whole `filter` -/

section Filter

variable {τ α γ ε ω μ ι θ : Type} {P m : Nat} [Zero α] [Add α] [Sub α] [NatCast α]

/-- The loop of `filter` terminates with the given fuel, and any property of the
position, the accumulated log-likelihood and the machine that every `step`
preserves holds when it does. -/
theorem filterLoop_run (pf : ParticleFilter τ α γ ε ω μ ι θ P P m)
    (sched : List (ScheduleElement τ)) (last : Nat) (hl : last ≤ sched.length)
    (Inv : Nat → α → Mach τ α γ ε ω P P m → Prop)
    (hstep : ∀ i ll x inc k x', i + 1 < last → step pf sched last i x = .ok (inc, k, x') →
      Inv i ll x → Inv k (ll + inc) x') :
    ∀ (fuel iter : Nat) (ll : α) (x : Mach τ α γ ε ω P P m),
      iter < last → last ≤ iter + 1 + fuel → Inv iter ll x →
      ∃ ll' k x', filterLoop pf sched last fuel iter ll x = .ok (ll', k, x') ∧
        Inv k ll' x' := by
  intro fuel
  induction fuel with
  | zero =>
    intro iter ll x h1 h2 hinv
    have : iter + 1 = last := by omega
    exact ⟨ll, iter, x, by simp [filterLoop, this], hinv⟩
  | succ fuel ih =>
    intro iter ll x h1 h2 hinv
    by_cases hc : iter + 1 = last
    · exact ⟨ll, iter, x, by simp [filterLoop, hc], hinv⟩
    · obtain ⟨now, x1, ops, k, x2, e, inc, x3, -, -, hs, hik, hkl, -⟩ :=
        step_run pf sched last iter x (by omega) hl
      obtain ⟨ll', k', x', hrun, hinv'⟩ := ih k (ll + inc) _ hkl (by omega)
        (hstep iter ll x inc k _ (by omega) hs hinv)
      refine ⟨ll', k', x', ?_, hinv'⟩
      simp [filterLoop, hc, hs, bind, Except.bind, hrun]

omit [Add α] [Sub α] [NatCast α] in
theorem initTail_trace (now : ScheduleElement τ) (w : ω) (s : State γ ε P)
    (x : Mach τ α γ ε ω P P m) :
    (initTail now w s x).trace = x.trace ++ [Event.init now] := by
  simp only [initTail]
  split <;> simp [sink, emit]

omit [Zero α] [Add α] [Sub α] [NatCast α] in
theorem output0_trace (x : Mach τ α γ ε ω P P m) :
    (output0 x).trace = x.trace ++ [Event.output0] := by
  simp only [output0]
  split <;> simp [sink, emit]

omit [Zero α] [Add α] [Sub α] [NatCast α] in
theorem outputT_trace (ll : α) (x : Mach τ α γ ε ω P P m) :
    (outputT ll x).trace = x.trace ++ [Event.outputT ll] := by
  simp only [outputT]
  split <;> simp [sink, emit]

/-- The trace entries one `step` adds carry exactly one returned value, its own. -/
theorem step_stepReturns (pf : ParticleFilter τ α γ ε ω μ ι θ P P m)
    (sched : List (ScheduleElement τ)) (last i : Nat) (x : Mach τ α γ ε ω P P m)
    (hi : i + 1 < last) (hl : last ≤ sched.length) (inc : α) (k : Nat)
    (x' : Mach τ α γ ε ω P P m) (hs : step pf sched last i x = .ok (inc, k, x')) :
    ∃ evs, x'.trace = x.trace ++ evs ∧ stepReturns evs = [inc] := by
  obtain ⟨now, x1, ops, k', x2, e, ll, x3, -, -, hstep, -, -, -, -, ⟨htr1, hops, -⟩,
    ⟨htr, -⟩, ⟨htr3, -⟩⟩ := step_run pf sched last i x hi hl
  rw [hstep] at hs
  simp only [Except.ok.injEq, Prod.mk.injEq] at hs
  obtain ⟨rfl, rfl, rfl⟩ := hs
  refine ⟨Event.resample now :: ops ++ ((sched.drop (i + 1)).take (k' - i)).map Event.predict
    ++ [Event.correct e ll, Event.output e (triggered pf now x), Event.stepReturn ll], ?_, ?_⟩
  · simp [emit, output_trace, htr3, htr, htr1]
  · have h1 : stepReturns (Event.resample now :: ops) = [] := by
      simpa [stepReturns] using stepReturns_resamplerOps ops hops
    rw [stepReturns_append, stepReturns_append, h1, stepReturns_predicts]
    rfl

/-- C1: for every non-empty schedule `[first, last)`, `filter` returns, and the
value `ll` it returns is the value `c0` returned by `correct` at the first schedule
element plus, added on in order, the value returned by each `step` call it makes
(the `stepReturn` entries of the loop's trace `evs`); this same `ll` is the
argument of `outputT`. -/
theorem filter_ll (pf : ParticleFilter τ α γ ε ω μ ι θ P P P)
    (sched : List (ScheduleElement τ)) (first last : Nat) (inInit : ι)
    (x : Mach τ α γ ε ω P P P) (hne : first < last) (hl : last ≤ sched.length) :
    ∃ ll x' now c0 evs,
      filter pf sched first last inInit x = .ok (ll, x') ∧ sched[first]? = some now ∧
      x'.trace = x.trace ++ ([Event.init now, Event.output0, Event.correct now c0,
        Event.output now false] ++ evs ++ [Event.term, Event.outputT ll]) ∧
      ll = (stepReturns evs).foldl (· + ·) c0 := by
  have hf : first < sched.length := by omega
  obtain ⟨c0, x3, hcor, htr3, -⟩ := correct_run pf sched[first]
    (output0 (initTail sched[first] (pf.sim_init x.w sched[first] x.s inInit).1
      (pf.sim_init x.w sched[first] x.s inInit).2 x))
  obtain ⟨ll, k, x5, hloop, evs, htr5, hll⟩ := filterLoop_run pf sched last hl
    (fun _ ll y => ∃ evs, y.trace = (output sched[first] false x3).trace ++ evs ∧
      ll = (stepReturns evs).foldl (· + ·) c0)
    (by
      intro i ll y inc k y' hi hs ⟨evs, htr, hll⟩
      obtain ⟨new, hnew, hret⟩ := step_stepReturns pf sched last i y hi hl inc k y' hs
      refine ⟨evs ++ new, ?_, ?_⟩
      · rw [hnew, htr, List.append_assoc]
      · rw [stepReturns_append, hret, List.foldl_append, ← hll]
        rfl)
    sched.length first c0 (output sched[first] false x3) hne (by omega) ⟨[], by simp, rfl⟩
  refine ⟨ll, outputT ll (term pf x5), sched[first], c0, evs, ?_,
    List.getElem?_eq_getElem hf, ?_, hll⟩
  · simp [filter, deref, List.getElem?_eq_getElem hf, init, hcor, hloop, bind, Except.bind,
      pure, Except.pure]
  · simp [outputT_trace, term, emit, htr5, output_trace, htr3, output0_trace, initTail_trace]

/-- Instance of C1: the two-particle filter on three times. -/
theorem filter_ll_witness :
    ∃ ll x' now c0 evs,
      filter pfW schedW 0 3 () machW = .ok (ll, x') ∧ schedW[0]? = some now ∧
      x'.trace = machW.trace ++ ([Event.init now, Event.output0, Event.correct now c0,
        Event.output now false] ++ evs ++ [Event.term, Event.outputT ll]) ∧
      ll = (stepReturns evs).foldl (· + ·) c0 :=
  filter_ll pfW schedW 0 3 () machW (by decide) (by decide)

omit [Zero α] [Add α] [Sub α] [NatCast α] in
/-- What `output` leaves alone, and the records it appends to an attached sink:
any state record carries the flag `r` it was called with. -/
theorem output_frame (now : ScheduleElement τ) (r : Bool) (x : Mach τ α γ ε ω P P m) :
    (output now r x).as = x.as ∧ (output now r x).lws = x.lws ∧
      (output now r x).s = x.s ∧ (output now r x).w = x.w ∧
      ∃ recs, (output now r x).out = x.out.map (fun c => c ++ recs) ∧
        ∀ k d a r', SinkCall.writeState k d a r' ∈ recs → r' = r := by
  simp only [output]
  split
  · refine ⟨rfl, rfl, rfl, rfl, [SinkCall.writeTime now.indexOutput now.time,
      SinkCall.writeState now.indexOutput x.s.dyn x.as r,
      SinkCall.writeLogWeights now.indexOutput x.lws], ?_, ?_⟩
    · cases h : x.out <;> simp [sink, emit, h]
    · intro k d a r' hmem
      simp only [List.mem_cons, List.mem_singleton, List.not_mem_nil, or_false] at hmem
      rcases hmem with h | h | h
      · cases h
      · cases h; rfl
      · cases h
  · refine ⟨rfl, rfl, rfl, rfl, [], ?_, ?_⟩
    · cases h : x.out <;> simp [emit, h]
    · intro k d a r' hmem; cases hmem

/-- One `step` over elements without observations: it returns `0`, resets the
ancestry to the identity, invokes no resampler operation and records
`did_resample = false`. -/
theorem step_no_obs (pf : ParticleFilter τ α γ ε ω μ ι θ P P m)
    (sched : List (ScheduleElement τ)) (last i : Nat) (y : Mach τ α γ ε ω P P m)
    (hi : i + 1 < last) (hl : last ≤ sched.length)
    (hobs : ∀ j e, i ≤ j → j < last → sched[j]? = some e → e.hasObs = false)
    (inc : α) (k : Nat) (y' : Mach τ α γ ε ω P P m)
    (hs : step pf sched last i y = .ok (inc, k, y')) :
    inc = 0 ∧ i < k ∧ (∀ p : Fin m, y'.as p = (p.val : Int)) ∧
      (∃ evs, y'.trace = y.trace ++ evs ∧ (∀ ev ∈ evs, ev.isResampling = false) ∧
        (∀ now r, Event.output now r ∈ evs → r = false)) ∧
      (∃ recs, y'.out = y.out.map (fun c => c ++ recs) ∧
        ∀ k d a r, SinkCall.writeState k d a r ∈ recs → r = false) := by
  obtain ⟨now, x1, ops, k', x2, e, ll, x3, hnow, he, hstep, hik, hkl, -, -, ⟨htr1, -, hnot, hout1⟩,
    ⟨htr, -, has2, hout2⟩, ⟨htr3, has3, hout3, -, hno3⟩⟩ := step_run pf sched last i y hi hl
  rw [hstep] at hs
  simp only [Except.ok.injEq, Prod.mk.injEq] at hs
  obtain ⟨rfl, rfl, rfl⟩ := hs
  have hnowObs : now.hasObs = false := hobs i now (le_refl _) (by omega) hnow
  have heObs : e.hasObs = false := hobs k' e (by omega) hkl he
  have htrig : triggered pf now y = false := by simp [triggered, hnowObs]
  obtain ⟨hops, hx1⟩ := hnot htrig
  obtain ⟨hll, -⟩ := hno3 heObs
  obtain ⟨hoas, -, -, -, recs, hrecs, hflag⟩ := output_frame e (triggered pf now y) x3
  refine ⟨hll, hik, ?_, ⟨Event.resample now :: ops ++
    ((sched.drop (i + 1)).take (k' - i)).map Event.predict ++
    [Event.correct e ll, Event.output e (triggered pf now y), Event.stepReturn ll], ?_, ?_, ?_⟩,
    ⟨recs, ?_, ?_⟩⟩
  · intro p
    show (output e (triggered pf now y) x3).as p = _
    rw [hoas, has3, has2, hx1]
    simp [noResample, seq_elements]
  · simp [emit, output_trace, htr3, htr, htr1]
  · intro ev hev
    rw [hops] at hev
    simp only [List.mem_append, List.mem_cons, List.mem_singleton, List.not_mem_nil,
      or_false, List.mem_map] at hev
    rcases hev with (rfl | ⟨e', -, rfl⟩) | rfl | rfl | rfl <;> rfl
  · intro now' r hev
    rw [hops] at hev
    simp only [List.mem_append, List.mem_cons, List.mem_singleton, List.not_mem_nil,
      or_false, List.mem_map] at hev
    rcases hev with (h | ⟨e', -, h⟩) | h | h | h
    · cases h
    · cases h
    · cases h
    · cases h; exact htrig
    · cases h
  · show (output e (triggered pf now y) x3).out = _
    rw [hrecs, hout3, hout2, hout1]
  · intro k d a r hmem
    rw [hflag k d a r hmem, htrig]

omit [Zero α] [Add α] [Sub α] [NatCast α] in
/-- Two batches of calls appended to the sink are one batch. -/
theorem sink_append_append (o : Option (List (SinkCall τ α γ ε P P m)))
    (a b : List (SinkCall τ α γ ε P P m)) :
    (o.map (fun c => c ++ a)).map (fun c => c ++ b) = o.map (fun c => c ++ (a ++ b)) := by
  cases o <;> simp

omit [Add α] [Sub α] [NatCast α] in
theorem initTail_frame (now : ScheduleElement τ) (w : ω) (s : State γ ε P)
    (x : Mach τ α γ ε ω P P m) :
    (initTail now w s x).as = seq_elements 0 ∧
      (initTail now w s x).out = x.out.map (fun c => c ++ [SinkCall.clear]) := by
  simp only [initTail]
  split
  · exact ⟨rfl, rfl⟩
  · next h =>
    refine ⟨rfl, ?_⟩
    cases hx : x.out <;> simp_all [emit]

omit [Zero α] [Add α] [Sub α] [NatCast α] in
theorem output0_frame (x : Mach τ α γ ε ω P P m) :
    (output0 x).as = x.as ∧
      (output0 x).out = x.out.map (fun c => c ++ [SinkCall.writeParameters x.s.par]) := by
  simp only [output0]
  split
  · exact ⟨rfl, rfl⟩
  · next h =>
    refine ⟨rfl, ?_⟩
    cases hx : x.out <;> simp_all [emit]

omit [Zero α] [Add α] [Sub α] [NatCast α] in
theorem outputT_frame (ll : α) (x : Mach τ α γ ε ω P P m) :
    (outputT ll x).as = x.as ∧
      (outputT ll x).out = x.out.map (fun c => c ++ [SinkCall.writeLL ll]) := by
  simp only [outputT]
  split
  · exact ⟨rfl, rfl⟩
  · next h =>
    refine ⟨rfl, ?_⟩
    cases hx : x.out <;> simp_all [emit]

/-- C8: for every non-empty schedule `[first, last)` in which no element has an
observation, `filter` returns `ll = 0` (given `0 + 0 = 0` in `real`); among the
trace entries `evs` of the run there is no resampler draw, every `output` call and
every state record `calls` appended to the sink carries `did_resample = false`, and
on return `as[i] = i` for every `i`. -/
theorem filter_no_obs (pf : ParticleFilter τ α γ ε ω μ ι θ P P P)
    (sched : List (ScheduleElement τ)) (first last : Nat) (inInit : ι)
    (x : Mach τ α γ ε ω P P P) (hne : first < last) (hl : last ≤ sched.length)
    (hobs : ∀ j e, first ≤ j → j < last → sched[j]? = some e → e.hasObs = false)
    (h0 : (0 : α) + 0 = 0) :
    ∃ x' evs calls,
      filter pf sched first last inInit x = .ok (0, x') ∧
      x'.trace = x.trace ++ evs ∧ (∀ ev ∈ evs, ev.isResampling = false) ∧
      (∀ now r, Event.output now r ∈ evs → r = false) ∧
      x'.out = x.out.map (fun c => c ++ calls) ∧
      (∀ k dyn as r, SinkCall.writeState k dyn as r ∈ calls → r = false) ∧
      (∀ i : Fin P, x'.as i = (i.val : Int)) := by
  have hf : first < sched.length := by omega
  have hnow : sched[first].hasObs = false :=
    hobs first _ (le_refl _) hne (List.getElem?_eq_getElem hf)
  obtain ⟨has1, hout1⟩ := initTail_frame sched[first]
    (pf.sim_init x.w sched[first] x.s inInit).1 (pf.sim_init x.w sched[first] x.s inInit).2 x
  obtain ⟨has2, hout2⟩ := output0_frame (initTail sched[first]
    (pf.sim_init x.w sched[first] x.s inInit).1 (pf.sim_init x.w sched[first] x.s inInit).2 x)
  obtain ⟨c0, x3, hcor, htr3, has3, hout3, -, -, hno3⟩ := correct_run pf sched[first]
    (output0 (initTail sched[first] (pf.sim_init x.w sched[first] x.s inInit).1
      (pf.sim_init x.w sched[first] x.s inInit).2 x))
  obtain ⟨hc0, -⟩ := hno3 hnow
  obtain ⟨has4, -, -, -, recs4, hout4, hflag4⟩ := output_frame sched[first] false x3
  obtain ⟨ll, k, x5, hloop, -, hll, has5, ⟨evs, htr5, hev5, hevo5⟩, ⟨recs, hout5, hflag5⟩⟩ :=
    filterLoop_run pf sched last hl
    (fun i ll y => first ≤ i ∧ ll = 0 ∧ (∀ p : Fin P, y.as p = (p.val : Int)) ∧
      (∃ evs, y.trace = (output sched[first] false x3).trace ++ evs ∧
        (∀ ev ∈ evs, ev.isResampling = false) ∧
        (∀ now r, Event.output now r ∈ evs → r = false)) ∧
      (∃ recs, y.out = (output sched[first] false x3).out.map (fun c => c ++ recs) ∧
        ∀ k d a r, SinkCall.writeState k d a r ∈ recs → r = false))
    (by
      rintro i ll y inc k y' hi hs ⟨hfi, hll, -, ⟨evs, htr, hev, hevo⟩, ⟨recs, hout, hflag⟩⟩
      obtain ⟨hinc, hik, has', ⟨new, hnew, hevn, hevon⟩, ⟨recs', hout', hflag'⟩⟩ :=
        step_no_obs pf sched last i y hi hl
          (fun j e hj hjl he => hobs j e (by omega) hjl he) inc k y' hs
      refine ⟨by omega, by rw [hll, hinc, h0], has', ⟨evs ++ new, ?_, ?_, ?_⟩,
        ⟨recs ++ recs', ?_, ?_⟩⟩
      · rw [hnew, htr, List.append_assoc]
      · intro ev hmem
        rcases List.mem_append.1 hmem with h | h
        · exact hev ev h
        · exact hevn ev h
      · intro now r hmem
        rcases List.mem_append.1 hmem with h | h
        · exact hevo now r h
        · exact hevon now r h
      · rw [hout', hout, sink_append_append]
      · intro k d a r hmem
        rcases List.mem_append.1 hmem with h | h
        · exact hflag k d a r h
        · exact hflag' k d a r h)
    sched.length first c0 (output sched[first] false x3) hne (by omega)
    ⟨le_refl _, hc0, by
      intro p
      rw [has4, has3, has2, has1]
      simp [seq_elements], ⟨[], by simp, by simp, by simp⟩, ⟨[], by simp, by simp⟩⟩
  obtain ⟨hasT, houtT⟩ := outputT_frame ll (term pf x5)
  subst hll
  refine ⟨outputT 0 (term pf x5), [Event.init sched[first], Event.output0,
    Event.correct sched[first] c0, Event.output sched[first] false] ++ evs ++
    [Event.term, Event.outputT 0],
    [SinkCall.clear, SinkCall.writeParameters (initTail sched[first]
      (pf.sim_init x.w sched[first] x.s inInit).1
      (pf.sim_init x.w sched[first] x.s inInit).2 x).s.par] ++ recs4 ++ recs ++
    [SinkCall.writeLL 0], ?_, ?_, ?_, ?_, ?_, ?_, ?_⟩
  · simp [filter, deref, List.getElem?_eq_getElem hf, init, hcor, hloop, bind, Except.bind,
      pure, Except.pure]
  · simp [outputT_trace, term, emit, htr5, output_trace, htr3, output0_trace, initTail_trace]
  · intro ev hmem
    simp only [List.mem_append, List.mem_cons, List.mem_singleton, List.not_mem_nil,
      or_false] at hmem
    rcases hmem with ((rfl | rfl | rfl | rfl) | h) | rfl | rfl
    · rfl
    · rfl
    · rfl
    · rfl
    · exact hev5 ev h
    · rfl
    · rfl
  · intro now r hmem
    simp only [List.mem_append, List.mem_cons, List.mem_singleton, List.not_mem_nil,
      or_false] at hmem
    rcases hmem with ((h | h | h | h) | h) | h | h
    · cases h
    · cases h
    · cases h
    · cases h; rfl
    · exact hevo5 now r h
    · cases h
    · cases h
  · rw [houtT]
    show (x5.out).map _ = _
    rw [hout5, hout4, hout3, hout2, hout1, sink_append_append, sink_append_append,
      sink_append_append, sink_append_append]
    simp
  · intro k d a r hmem
    simp only [List.mem_append, List.mem_cons, List.mem_singleton, List.not_mem_nil,
      or_false] at hmem
    rcases hmem with (((h | h) | h) | h) | h
    · cases h
    · cases h
    · exact hflag4 k d a r h
    · exact hflag5 k d a r h
    · cases h
  · intro i
    rw [hasT]
    exact has5 i

/-- Instance of C8: the two-particle filter on three times without observations. -/
theorem filter_no_obs_witness :
    ∃ x' evs calls,
      filter pfW schedNoObs 0 3 () machW = .ok (0, x') ∧
      x'.trace = machW.trace ++ evs ∧ (∀ ev ∈ evs, ev.isResampling = false) ∧
      (∀ now r, Event.output now r ∈ evs → r = false) ∧
      x'.out = machW.out.map (fun c => c ++ calls) ∧
      (∀ k dyn as r, SinkCall.writeState k dyn as r ∈ calls → r = false) ∧
      (∀ i : Fin 2, x'.as i = (i.val : Int)) :=
  filter_no_obs pfW schedNoObs 0 3 () machW (by decide) (by decide)
    (by
      intro j e _ hj he
      have : j = 0 ∨ j = 1 ∨ j = 2 := by omega
      rcases this with rfl | rfl | rfl <;>
        (simp [schedNoObs] at he; subst he; rfl))
    (by decide)

end Filter

/-! ## The conditional step -/

section Conditional

variable {τ α γ ε ω μ ι θ : Type} {P m : Nat} [Zero α] [Add α] [Sub α] [NatCast α]

/-- Anatomy of one conditional step entered at position `i` with `i + 1 < last` on
at least one particle: as `step`, except that between the last `predict` and
`correct` row 0 is overwritten with column `e.indexOutput` of `X` (`x3` is the
machine after `correct`). -/
theorem stepCond_run (pf : ParticleFilter τ α γ ε ω μ ι θ P P m)
    (sched : List (ScheduleElement τ)) (last i : Nat) (X : Nat → γ)
    (x : Mach τ α γ ε ω P P m) (hi : i + 1 < last) (hl : last ≤ sched.length)
    (hP : 0 < P) :
    ∃ (now : ScheduleElement τ) (x1 : Mach τ α γ ε ω P P m) (ops : List (Event τ α)) (k : Nat)
      (x2 : Mach τ α γ ε ω P P m) (e : ScheduleElement τ) (ll : α) (x3 : Mach τ α γ ε ω P P m),
      sched[i]? = some now ∧ sched[k]? = some e ∧
      stepCond pf sched last i X x =
        .ok (ll, k, emit (.stepReturn ll) (output e (triggered pf now x) x3)) ∧
      i < k ∧ k < last ∧ (k + 1 = last ∨ e.hasOutput = true) ∧
      (∀ j, i < j → j < k → ∃ e', sched[j]? = some e' ∧ e'.hasOutput = false) ∧
      (x1.trace = x.trace ++ Event.resample now :: ops ∧
        (∀ ev ∈ ops, ev = Event.resam_resample ∨ ∃ v, ev = Event.setMaxLogWeight v) ∧
        x1.out = x.out) ∧
      (x2.trace = x1.trace ++ ((sched.drop (i + 1)).take (k - i)).map Event.predict ∧
        x2.lws = x1.lws ∧ x2.as = x1.as ∧ x2.out = x1.out) ∧
      (x3.trace = x2.trace ++ [Event.pin e.indexOutput, Event.correct e ll] ∧
        x3.as = x2.as ∧ x3.out = x2.out ∧ x3.s.par = x2.s.par ∧
        x3.s.dyn = fun p => if p.val = 0 then X e.indexOutput else x2.s.dyn p) := by
  have hi' : i < sched.length := by omega
  obtain ⟨x1, ops, hres, htr1, hops, -, -, hout1⟩ := resample_run pf sched[i] x
  obtain ⟨k, x2, hpl, hik, hkl, hstop, hmin, htr, hlw, has, hout⟩ :=
    predictLoop_run pf last (sched.drop (i + 1)) i x1 hi (by simp; omega)
  have hk' : k < sched.length := by omega
  have hpin : pinRow0 X sched[k].indexOutput x2 = .ok (emit (.pin sched[k].indexOutput)
      { x2 with s := { x2.s with
        dyn := fun p => if p.val = 0 then X sched[k].indexOutput else x2.s.dyn p } }) := by
    simp [pinRow0, hP]
  obtain ⟨ll, x3, hcor, htr3, has3, hout3, hs3, -⟩ := correct_run pf sched[k]
    (emit (.pin sched[k].indexOutput) { x2 with s := { x2.s with
      dyn := fun p => if p.val = 0 then X sched[k].indexOutput else x2.s.dyn p } })
  have hidx : i + 1 + (k - (i + 1)) = k := by omega
  refine ⟨sched[i], x1, ops, k, x2, sched[k], ll, x3, List.getElem?_eq_getElem hi',
    List.getElem?_eq_getElem hk', ?_, hik, hkl, ?_, ?_, ⟨htr1, hops, hout1⟩,
    ⟨htr, hlw, has, hout⟩, ⟨?_, ?_, ?_, ?_, ?_⟩⟩
  · simp [stepCond, deref, List.getElem?_eq_getElem hi', List.getElem?_eq_getElem hk', hres,
      hpl, hpin, hcor, bind, Except.bind, pure, Except.pure]
  · rcases hstop with h | ⟨e', he', ho'⟩
    · exact Or.inl h
    · right
      rw [List.getElem?_drop, hidx, List.getElem?_eq_getElem hk'] at he'
      cases he'
      exact ho'
  · intro j hij hjk
    obtain ⟨e', he', ho'⟩ := hmin (j - (i + 1)) (by omega)
    have : i + 1 + (j - (i + 1)) = j := by omega
    rw [List.getElem?_drop, this] at he'
    exact ⟨e', he', ho'⟩
  · rw [htr3]; simp [emit]
  · rw [has3]; rfl
  · rw [hout3]; rfl
  · rw [hs3]; rfl
  · rw [hs3]; rfl

/-- The overload of `resample` with a conditioned ancestor, at the same input: it
draws through `cond_resample` with `a_in = a_out = 0`. -/
theorem resampleCond_draws_conditioned :
    (resampleCond pfW (elW 0 true true 0) 0 machW).toOption.map (fun r => (r.1, r.2.trace)) =
      some (true, [Event.resampleCond (elW 0 true true 0) 0, Event.setMaxLogWeight 5,
        Event.resam_cond_resample 0 0]) := by
  decide

/-- C9, the code at a failing input: on the two-particle filter, whose resampler
is triggered at the first time, the conditional step draws the ancestors with the
resampler's unconditioned `resample`; `cond_resample` does not occur in its trace. -/
theorem stepCond_resamples_unconditioned :
    (stepCond pfW schedW 3 0 refW machW).toOption.map (fun r => r.2.2.trace) =
      some [Event.resample (elW 0 true true 0), Event.setMaxLogWeight 5, Event.resam_resample,
        Event.predict (elW 1 false false 1), Event.predict (elW 2 true true 1), Event.pin 1,
        Event.correct (elW 2 true true 1) 69, Event.output (elW 2 true true 1) true,
        Event.stepReturn 69] := by
  decide

/-- C10 fails as stated: in the conditional step of the two-particle filter over
three times, the `predict` on the middle element is followed directly by the next
`predict`, with no overwrite of row 0 in between. -/
theorem stepCond_not_pinned_after_every_predict :
    (stepCond pfW schedW 3 0 refW machW).toOption.map
      (fun r => pinnedAfterEveryPredict r.2.2.trace) = some false := by
  decide

/-- C10 as amended: a conditional step entered at position `i` of the schedule
with `i + 1 != last`, on at least one particle, overwrites row 0 of the dynamic
state with column `e.indexOutput` of `X` once, after its last `predict` (on the
element `e` at which it stops) and before `correct`; the `predict`s on the elements
it passes through follow each other directly.  On return row 0 is that column. -/
theorem stepCond_pins_after_last_predict (pf : ParticleFilter τ α γ ε ω μ ι θ P P m)
    (sched : List (ScheduleElement τ)) (last i : Nat) (X : Nat → γ)
    (x : Mach τ α γ ε ω P P m) (hlt : i < last) (hne : i + 1 ≠ last)
    (hl : last ≤ sched.length) (hP : 0 < P) :
    ∃ ll k x' now e r ops,
      stepCond pf sched last i X x = .ok (ll, k, x') ∧
      i < k ∧ sched[i]? = some now ∧ sched[k]? = some e ∧
      (∀ ev ∈ ops, ev = Event.resam_resample ∨ ∃ v, ev = Event.setMaxLogWeight v) ∧
      x'.trace = x.trace ++ (Event.resample now :: ops ++
        ((sched.drop (i + 1)).take (k - i)).map Event.predict ++
        [Event.pin e.indexOutput, Event.correct e ll, Event.output e r,
          Event.stepReturn ll]) ∧
      x'.s.dyn ⟨0, hP⟩ = X e.indexOutput := by
  obtain ⟨now, x1, ops, k, x2, e, ll, x3, hnow, he, hstep, hik, -, -, -, ⟨htr1, hops, -⟩,
    ⟨htr, -⟩, ⟨htr3, -, -, -, hdyn⟩⟩ := stepCond_run pf sched last i X x (by omega) hl hP
  obtain ⟨-, -, hso, -⟩ := output_frame e (triggered pf now x) x3
  refine ⟨ll, k, _, now, e, triggered pf now x, ops, hstep, hik, hnow, he, hops, ?_, ?_⟩
  · simp [emit, output_trace, htr3, htr, htr1]
  · show (output e (triggered pf now x) x3).s.dyn ⟨0, hP⟩ = _
    rw [hso, hdyn]
    simp

/-- Instance of the amended C10 on the two-particle filter. -/
theorem stepCond_pins_after_last_predict_witness :
    ∃ ll k x' now e r ops,
      stepCond pfW schedW 3 0 refW machW = .ok (ll, k, x') ∧
      0 < k ∧ schedW[0]? = some now ∧ schedW[k]? = some e ∧
      (∀ ev ∈ ops, ev = Event.resam_resample ∨ ∃ v, ev = Event.setMaxLogWeight v) ∧
      x'.trace = machW.trace ++ (Event.resample now :: ops ++
        ((schedW.drop (0 + 1)).take (k - 0)).map Event.predict ++
        [Event.pin e.indexOutput, Event.correct e ll, Event.output e r,
          Event.stepReturn ll]) ∧
      x'.s.dyn ⟨0, by decide⟩ = refW e.indexOutput :=
  stepCond_pins_after_last_predict pfW schedW 3 0 refW machW (by decide) (by decide)
    (by decide) (by decide)

end Conditional

/-! ## Initialisation -/

section Init

variable {τ α γ ε ω μ ι θ : Type} {P n m : Nat} [Zero α]

/-- What both `init` overloads leave behind once `sim->init` has run. -/
theorem initTail_effect (now : ScheduleElement τ) (w : ω) (s : State γ ε P)
    (x : Mach τ α γ ε ω P n m) :
    (∀ i, (initTail now w s x).lws i = 0) ∧
      (∀ i : Fin m, (initTail now w s x).as i = (i.val : Int)) ∧
      (initTail now w s x).out = x.out.map (fun c => c ++ [SinkCall.clear]) ∧
      (initTail now w s x).s = s ∧ (initTail now w s x).w = w := by
  simp only [initTail]
  split
  · refine ⟨fun _ => rfl, fun i => by simp [sink, emit, seq_elements], rfl, rfl, rfl⟩
  · next h =>
    refine ⟨fun _ => rfl, fun i => by simp [emit, seq_elements], ?_, rfl, rfl⟩
    cases hx : x.out <;> simp_all [emit]

/-- C15: for every number of particles `P`, both `init` overloads return when `lws`
and `as` have length `P`, and then every log-weight is `0`, `as[i] = i` for every
`i`, and the last call on an attached sink is `clear`; when `lws` or `as` has
another length both overloads fail their pre-condition. -/
theorem init_effect (pf : ParticleFilter τ α γ ε ω μ ι θ P n m) (now : ScheduleElement τ)
    (inInit : ι) (theta : θ) (x : Mach τ α γ ε ω P n m) :
    ((P = m ∧ P = n) →
      ∃ x1 x2, init pf now inInit x = .ok x1 ∧ initTheta pf theta now x = .ok x2 ∧
        ((∀ i, x1.lws i = 0) ∧ (∀ i : Fin m, x1.as i = (i.val : Int)) ∧
          x1.out = x.out.map (fun c => c ++ [SinkCall.clear])) ∧
        ((∀ i, x2.lws i = 0) ∧ (∀ i : Fin m, x2.as i = (i.val : Int)) ∧
          x2.out = x.out.map (fun c => c ++ [SinkCall.clear]))) ∧
    (¬ (P = m ∧ P = n) →
      init pf now inInit x = .error .assertion ∧
        initTheta pf theta now x = .error .assertion) := by
  constructor
  · intro h
    obtain ⟨h1, h2, h3, -⟩ := initTail_effect now (pf.sim_init x.w now x.s inInit).1
      (pf.sim_init x.w now x.s inInit).2 x
    obtain ⟨g1, g2, g3, -⟩ := initTail_effect now (pf.sim_init_theta x.w theta now x.s).1
      (pf.sim_init_theta x.w theta now x.s).2 x
    exact ⟨_, _, by unfold init; rw [if_pos h], by unfold initTheta; rw [if_pos h],
      ⟨h1, h2, h3⟩, ⟨g1, g2, g3⟩⟩
  · intro h
    exact ⟨by simp only [init, if_neg h], by simp only [initTheta, if_neg h]⟩

/-- Instance of C15: two particles with matching vectors, and two particles with
three log-weights. -/
theorem init_effect_witness :
    (∃ x1 x2, init (pfSized 2 2 2) (elW 0 true true 0) () (machSized 2 2 2) = .ok x1 ∧
        initTheta (pfSized 2 2 2) () (elW 0 true true 0) (machSized 2 2 2) = .ok x2 ∧
        ((∀ i, x1.lws i = 0) ∧ (∀ i : Fin 2, x1.as i = (i.val : Int)) ∧
          x1.out = (machSized 2 2 2).out.map (fun c => c ++ [SinkCall.clear])) ∧
        ((∀ i, x2.lws i = 0) ∧ (∀ i : Fin 2, x2.as i = (i.val : Int)) ∧
          x2.out = (machSized 2 2 2).out.map (fun c => c ++ [SinkCall.clear]))) ∧
      (init (pfSized 2 3 2) (elW 0 true true 0) () (machSized 2 3 2) = .error .assertion ∧
        initTheta (pfSized 2 3 2) () (elW 0 true true 0) (machSized 2 3 2) =
          .error .assertion) :=
  ⟨(init_effect (pfSized 2 2 2) (elW 0 true true 0) () () (machSized 2 2 2)).1 ⟨rfl, rfl⟩,
    (init_effect (pfSized 2 3 2) (elW 0 true true 0) () () (machSized 2 3 2)).2 (by decide)⟩

end Init

/-! ## Degenerate weights -/

section Degenerate

variable {τ α γ ε ω μ ι θ : Type} {P m : Nat} [Zero α] [Add α] [Sub α] [NatCast α]

/-- C12 fails as stated: with an observation log-density of `-inf` for both
particles, `filter` on a single observation time returns normally; the value it
returns and both log-weights are `-inf`. -/
theorem filter_degenerate_returns :
    (filter pfDegenerate [elW 0 true true 0] 0 1 () machDegenerate).toOption.map
      (fun r => (r.1, r.2.lws 0, r.2.lws 1)) =
      some (LogVal.negInf, LogVal.negInf, LogVal.negInf) := by
  decide

/-- The observation update when the observation log-density is `ninf` for every
particle and adding `ninf` to each log-weight gives `ninf`: every log-weight becomes
`ninf`, and the value returned is `logsumexp_reduce(lws) - log(P)` of these. -/
theorem correct_degenerate (pf : ParticleFilter τ α γ ε ω μ ι θ P P m) (ninf : α)
    (hdens : ∀ s mask p, pf.observationLogDensity s mask p = ninf)
    (now : ScheduleElement τ) (y : Mach τ α γ ε ω P P m) (hobs : now.hasObs = true)
    (hlws : ∀ i, y.lws i + ninf = ninf) :
    correct pf now y =
      .ok (pf.logsumexp_reduce (fun _ => ninf) - pf.log (P : α),
        emit (.correct now (pf.logsumexp_reduce (fun _ => ninf) - pf.log (P : α)))
          { y with lws := fun _ => ninf }) := by
  have hl : observationLogDensities pf y.s (pf.getMask y.w now.indexObs) y.lws =
      fun _ => ninf := by
    funext i
    unfold observationLogDensities
    rw [dif_pos i.isLt, hdens]
    exact hlws i
  unfold correct
  rw [if_pos rfl, if_pos hobs]
  simp only [hl]

/-- C12 as amended: when the observation log-density is `ninf` for every particle
and adding `ninf` to a log-weight gives `ninf` (as for `-inf`), `correct` at an
element with an observation makes no check of the log-weights: it leaves every
log-weight at `ninf` and returns `logsumexp_reduce(lws) - log(P)` of them; and
`filter` on a non-empty schedule whose first element has an observation returns,
as far as the driver goes (its collaborators are functions that return), the value
`ll` that is this value for the first element plus, added on in order, the value
returned by each `step`: no degeneracy error is raised. -/
theorem filter_returns_without_degeneracy_check (pf : ParticleFilter τ α γ ε ω μ ι θ P P P)
    (sched : List (ScheduleElement τ)) (first last : Nat) (inInit : ι)
    (x : Mach τ α γ ε ω P P P) (ninf : α) (now : ScheduleElement τ) (hne : first < last)
    (hl : last ≤ sched.length) (hnow : sched[first]? = some now) (hobs : now.hasObs = true)
    (hdens : ∀ s mask p, pf.observationLogDensity s mask p = ninf)
    (hzero : (0 : α) + ninf = ninf) :
    (∀ (e : ScheduleElement τ) (y : Mach τ α γ ε ω P P P), e.hasObs = true →
      (∀ i, y.lws i + ninf = ninf) →
      ∃ y1, correct pf e y = .ok (pf.logsumexp_reduce (fun _ => ninf) - pf.log (P : α), y1) ∧
        y1.lws = fun _ => ninf) ∧
    ∃ ll x1 evs, filter pf sched first last inInit x = .ok (ll, x1) ∧
      x1.trace = x.trace ++ ([Event.init now, Event.output0,
        Event.correct now (pf.logsumexp_reduce (fun _ => ninf) - pf.log (P : α)),
        Event.output now false] ++ evs ++ [Event.term, Event.outputT ll]) ∧
      ll = (stepReturns evs).foldl (· + ·)
        (pf.logsumexp_reduce (fun _ => ninf) - pf.log (P : α)) := by
  constructor
  · intro e y he hy
    exact ⟨_, correct_degenerate pf ninf hdens e y he hy, rfl⟩
  · have hf : first < sched.length := by omega
    have hnow1 : sched[first] = now := by
      rw [List.getElem?_eq_getElem hf] at hnow
      exact Option.some.inj hnow
    have hlws0 : ∀ i, (output0 (initTail now (pf.sim_init x.w now x.s inInit).1
        (pf.sim_init x.w now x.s inInit).2 x)).lws i + ninf = ninf := by
      intro i
      have h0 : (output0 (initTail now (pf.sim_init x.w now x.s inInit).1
          (pf.sim_init x.w now x.s inInit).2 x)).lws i = 0 := by
        have h1 := (initTail_effect now (pf.sim_init x.w now x.s inInit).1
          (pf.sim_init x.w now x.s inInit).2 x).1 i
        rw [← h1]
        simp only [output0]
        split <;> rfl
      rw [h0, hzero]
    have hcor := correct_degenerate pf ninf hdens now _ hobs hlws0
    obtain ⟨ll, k, x5, hloop, evs, htr5, hll⟩ := filterLoop_run pf sched last hl
      (fun _ ll y => ∃ evs, y.trace = x.trace ++ ([Event.init now, Event.output0,
          Event.correct now (pf.logsumexp_reduce (fun _ => ninf) - pf.log (P : α)),
          Event.output now false] ++ evs) ∧
        ll = (stepReturns evs).foldl (· + ·)
          (pf.logsumexp_reduce (fun _ => ninf) - pf.log (P : α)))
      (by
        intro i ll y inc k y1 hi hs ⟨evs, htr, hll⟩
        obtain ⟨new, hnew, hret⟩ := step_stepReturns pf sched last i y hi hl inc k y1 hs
        refine ⟨evs ++ new, ?_, ?_⟩
        · rw [hnew, htr]
          simp
        · rw [stepReturns_append, hret, List.foldl_append, ← hll]
          rfl)
      sched.length first (pf.logsumexp_reduce (fun _ => ninf) - pf.log (P : α))
      (output now false (emit (.correct now
        (pf.logsumexp_reduce (fun _ => ninf) - pf.log (P : α)))
        { output0 (initTail now (pf.sim_init x.w now x.s inInit).1
            (pf.sim_init x.w now x.s inInit).2 x) with lws := fun _ => ninf }))
      hne (by omega)
      ⟨[], by simp [output_trace, emit, output0_trace, initTail_trace], rfl⟩
    refine ⟨ll, outputT ll (term pf x5), evs, ?_, ?_, hll⟩
    · simp [filter, deref, List.getElem?_eq_getElem hf, hnow1, init, hcor, hloop, bind,
        Except.bind, pure, Except.pure]
    · simp [outputT_trace, term, emit, htr5]

/-- Instance of the amended C12 on the two-particle filter with `-inf` log-densities
and a single observation time. -/
theorem filter_returns_without_degeneracy_check_witness :
    (∀ (e : ScheduleElement Int) (y : Mach Int LogVal Int Unit Nat 2 2 2), e.hasObs = true →
      (∀ i, y.lws i + LogVal.negInf = LogVal.negInf) →
      ∃ y1, correct pfDegenerate e y =
          .ok (pfDegenerate.logsumexp_reduce (fun _ => LogVal.negInf) -
            pfDegenerate.log ((2 : Nat) : LogVal), y1) ∧
        y1.lws = fun _ => LogVal.negInf) ∧
    ∃ ll x1 evs, filter pfDegenerate [elW 0 true true 0] 0 1 () machDegenerate = .ok (ll, x1) ∧
      x1.trace = machDegenerate.trace ++ ([Event.init (elW 0 true true 0), Event.output0,
        Event.correct (elW 0 true true 0)
          (pfDegenerate.logsumexp_reduce (fun _ => LogVal.negInf) -
            pfDegenerate.log ((2 : Nat) : LogVal)),
        Event.output (elW 0 true true 0) false] ++ evs ++ [Event.term, Event.outputT ll]) ∧
      ll = (stepReturns evs).foldl (· + ·)
        (pfDegenerate.logsumexp_reduce (fun _ => LogVal.negInf) -
          pfDegenerate.log ((2 : Nat) : LogVal)) :=
  filter_returns_without_degeneracy_check pfDegenerate [elW 0 true true 0] 0 1 ()
    machDegenerate LogVal.negInf (elW 0 true true 0) (by decide) (by decide) rfl rfl
    (fun _ _ _ => rfl) (by decide)

end Degenerate

/-! ## The records `filter` writes -/

section Records

variable {τ α γ ε ω μ ι θ : Type} {P n m : Nat}

/-- Positions `a, ..., c - 1` of a list split at any `b` in between. -/
theorem seg_split {β : Type} (l : List β) (a b c : Nat) (hab : a ≤ b) (hbc : b ≤ c)
    (hc : c ≤ l.length) :
    (l.take c).drop a = (l.take b).drop a ++ (l.take c).drop b := by
  have h1 : l.take c = l.take b ++ (l.take c).drop b := by
    conv_lhs => rw [← List.take_append_drop b (l.take c)]
    rw [List.take_take, Nat.min_eq_left hbc]
  conv_lhs => rw [h1]
  rw [List.drop_append_of_le_length]
  simp; omega

/-- Position `k` of a list, as a segment. -/
theorem seg_singleton {β : Type} (l : List β) (k : Nat) (hk : k < l.length) :
    (l.take (k + 1)).drop k = [l[k]] := by
  rw [List.take_succ, List.getElem?_eq_getElem hk]
  have : (l.take k).length = k := by simp; omega
  rw [List.drop_append_of_le_length (by omega), List.drop_eq_nil_of_le (by omega)]
  simp

theorem recordParts_append (a b : List (SinkCall τ α γ ε P n m)) :
    recordParts (a ++ b) = recordParts a ++ recordParts b := by
  induction a with
  | nil => rfl
  | cons c t ih => cases c <;> simp [recordParts, ih]

theorem expectedParts_append (a b : List (ScheduleElement τ)) :
    (expectedParts a ++ expectedParts b : List (Nat × RecordPart τ)) =
      expectedParts (a ++ b) := by
  induction a with
  | nil => rfl
  | cons e t ih =>
    by_cases h : e.hasOutput = true <;> simp [expectedParts, h, ih]

/-- The record `output` writes has the parts expected for its schedule element, and
consists of nothing else. -/
theorem recordParts_outputRecords (now : ScheduleElement τ) (r : Bool)
    (x : Mach τ α γ ε ω P n m) :
    recordParts (outputRecords now r x) = expectedParts [now] ∧
      (recordParts (outputRecords now r x)).length = (outputRecords now r x).length := by
  by_cases h : now.hasOutput = true <;> simp [outputRecords, expectedParts, recordParts, h]

/-- The sink after `output`: the record of `outputRecords` has been appended. -/
theorem output_out (now : ScheduleElement τ) (r : Bool) (x : Mach τ α γ ε ω P n m) :
    (output now r x).out = x.out.map (fun c => c ++ outputRecords now r x) := by
  simp only [output, outputRecords]
  cases hx : x.out with
  | none => simp [emit, hx, sink]
  | some c =>
    by_cases h : now.hasOutput = true
    · simp [emit, hx, sink, h]
    · simp [emit, hx, h]

/-- The elements a `step` passes over have no output, so the stretch from `i + 1`
to its stopping position `k` expects the record of element `k` alone. -/
theorem expectedParts_stretch (sched : List (ScheduleElement τ)) :
    ∀ (d i k : Nat), k = i + 1 + d → ∀ (hk : k < sched.length),
      (∀ j, i < j → j < k → ∃ e', sched[j]? = some e' ∧ e'.hasOutput = false) →
      (expectedParts ((sched.take (k + 1)).drop (i + 1)) : List (Nat × RecordPart τ)) =
        expectedParts [sched[k]] := by
  intro d
  induction d with
  | zero =>
    intro i k hk hlen _
    subst hk
    rw [seg_singleton sched (i + 1) hlen]
  | succ d ih =>
    intro i k hk hlen hmin
    have hi1 : i + 1 < sched.length := by omega
    rw [seg_split sched (i + 1) (i + 1 + 1) (k + 1) (by omega) (by omega) (by omega),
      seg_singleton sched (i + 1) hi1, ← expectedParts_append,
      ih (i + 1) k (by omega) hlen (fun j h1 h2 => hmin j (by omega) h2)]
    obtain ⟨e', he', ho'⟩ := hmin (i + 1) (by omega) (by omega)
    rw [List.getElem?_eq_getElem hi1] at he'
    cases he'
    simp [expectedParts, ho']

/-- The loop of `filter` terminates with the given fuel at the position before
`last`, and any property of the position, the accumulated log-likelihood and the
machine that every `step` preserves holds there. -/
theorem filterLoop_exit [Zero α] [Add α] [Sub α] [NatCast α]
    (pf : ParticleFilter τ α γ ε ω μ ι θ P P m)
    (sched : List (ScheduleElement τ)) (last : Nat) (hl : last ≤ sched.length)
    (Inv : Nat → α → Mach τ α γ ε ω P P m → Prop)
    (hstep : ∀ i ll x inc k x', i + 1 < last → step pf sched last i x = .ok (inc, k, x') →
      Inv i ll x → Inv k (ll + inc) x') :
    ∀ (fuel iter : Nat) (ll : α) (x : Mach τ α γ ε ω P P m),
      iter < last → last ≤ iter + 1 + fuel → Inv iter ll x →
      ∃ ll' k x', filterLoop pf sched last fuel iter ll x = .ok (ll', k, x') ∧
        k + 1 = last ∧ Inv k ll' x' := by
  intro fuel
  induction fuel with
  | zero =>
    intro iter ll x h1 h2 hinv
    have : iter + 1 = last := by omega
    exact ⟨ll, iter, x, by simp [filterLoop, this], this, hinv⟩
  | succ fuel ih =>
    intro iter ll x h1 h2 hinv
    by_cases hc : iter + 1 = last
    · exact ⟨ll, iter, x, by simp [filterLoop, hc], hc, hinv⟩
    · obtain ⟨now, x1, ops, k, x2, e, inc, x3, -, -, hs, hik, hkl, -⟩ :=
        step_run pf sched last iter x (by omega) hl
      obtain ⟨ll', k', x', hrun, hk', hinv'⟩ := ih k (ll + inc) _ hkl (by omega)
        (hstep iter ll x inc k _ (by omega) hs hinv)
      refine ⟨ll', k', x', ?_, hk', hinv'⟩
      simp [filterLoop, hc, hs, bind, Except.bind, hrun]

/-- C14: with an output sink attached (holding the calls `c0`), `filter` on a
non-empty schedule `[first, last)` appends `clear`, the parameters, the records
`recs` and the marginal log-likelihood.  The records consist of exactly one record
(time, state with ancestry and flag, log-weights) at index `indexOutput` for each
element of `[first, last)` with an output, in schedule order, and of nothing for
the elements without. -/
theorem filter_records [Zero α] [Add α] [Sub α] [NatCast α]
    (pf : ParticleFilter τ α γ ε ω μ ι θ P P P) (sched : List (ScheduleElement τ))
    (first last : Nat) (inInit : ι) (x : Mach τ α γ ε ω P P P)
    (c0 : List (SinkCall τ α γ ε P P P)) (hne : first < last) (hl : last ≤ sched.length)
    (hout : x.out = some c0) :
    ∃ ll x' par recs,
      filter pf sched first last inInit x = .ok (ll, x') ∧
      x'.out = some (c0 ++ (SinkCall.clear :: SinkCall.writeParameters par :: recs ++
        [SinkCall.writeLL ll])) ∧
      recordParts recs = expectedParts ((sched.take last).drop first) ∧
      (recordParts recs).length = recs.length := by
  have hf : first < sched.length := by omega
  obtain ⟨-, -, hout1, -, -⟩ := initTail_effect sched[first]
    (pf.sim_init x.w sched[first] x.s inInit).1 (pf.sim_init x.w sched[first] x.s inInit).2 x
  obtain ⟨-, hout2⟩ := output0_frame (initTail sched[first]
    (pf.sim_init x.w sched[first] x.s inInit).1 (pf.sim_init x.w sched[first] x.s inInit).2 x)
  obtain ⟨c1, x3, hcor, -, -, hout3, -⟩ := correct_run pf sched[first]
    (output0 (initTail sched[first] (pf.sim_init x.w sched[first] x.s inInit).1
      (pf.sim_init x.w sched[first] x.s inInit).2 x))
  obtain ⟨hp0, hlen0⟩ := recordParts_outputRecords sched[first] false x3
  obtain ⟨ll, k, x5, hloop, hk, -, -, recs, hout5, hparts, hlen⟩ :=
    filterLoop_exit pf sched last hl
    (fun i _ y => first ≤ i ∧ i < last ∧ ∃ recs, y.out = x3.out.map (fun c => c ++ recs) ∧
      recordParts recs = expectedParts ((sched.take (i + 1)).drop first) ∧
      (recordParts recs).length = recs.length)
    (by
      rintro i ll y inc k y' hi hs ⟨hfi, -, recs, hout, hparts, hlen⟩
      obtain ⟨now, x1, ops, k', x2, e, ll', x3', -, he, hstep, hik, hkl, -, hmin,
        ⟨-, -, -, ho1⟩, ⟨-, -, -, ho2⟩, ⟨-, -, ho3, -⟩⟩ := step_run pf sched last i y hi hl
      rw [hstep] at hs
      simp only [Except.ok.injEq, Prod.mk.injEq] at hs
      obtain ⟨rfl, rfl, rfl⟩ := hs
      have hk' : k' < sched.length := by omega
      rw [List.getElem?_eq_getElem hk'] at he
      cases he
      obtain ⟨hp, hl'⟩ := recordParts_outputRecords sched[k'] (triggered pf now y) x3'
      refine ⟨by omega, hkl, recs ++ outputRecords sched[k'] (triggered pf now y) x3',
        ?_, ?_, ?_⟩
      · show (output sched[k'] (triggered pf now y) x3').out = _
        rw [output_out, ho3, ho2, ho1, hout, sink_append_append]
      · rw [recordParts_append, hparts, hp,
          seg_split sched first (i + 1) (k' + 1) (by omega) (by omega) (by omega),
          ← expectedParts_append (List.drop first (List.take (i + 1) sched)),
          expectedParts_stretch sched (k' - (i + 1)) i k' (by omega) hk' hmin]
      · rw [recordParts_append, List.length_append, List.length_append, hlen, hl'])
    sched.length first c1 (output sched[first] false x3) hne (by omega)
    ⟨le_refl _, hne, outputRecords sched[first] false x3, output_out _ _ _,
      by rw [hp0, seg_singleton sched first hf], hlen0⟩
  obtain ⟨-, houtT⟩ := outputT_frame ll (term pf x5)
  refine ⟨ll, outputT ll (term pf x5), (initTail sched[first]
    (pf.sim_init x.w sched[first] x.s inInit).1
    (pf.sim_init x.w sched[first] x.s inInit).2 x).s.par, recs, ?_, ?_, ?_, hlen⟩
  · simp [filter, deref, List.getElem?_eq_getElem hf, init, hcor, hloop, bind, Except.bind,
      pure, Except.pure]
  · rw [houtT]
    show (x5.out).map _ = _
    rw [hout5, hout3, hout2, hout1, hout]
    simp
  · rw [hparts, hk]

/-- Instance of C14: the two-particle filter on three times, the middle one without
output. -/
theorem filter_records_witness :
    ∃ ll x' par recs,
      filter pfW schedW 0 3 () machW = .ok (ll, x') ∧
      x'.out = some ([] ++ (SinkCall.clear :: SinkCall.writeParameters par :: recs ++
        [SinkCall.writeLL ll])) ∧
      recordParts recs = expectedParts ((schedW.take 3).drop 0) ∧
      (recordParts recs).length = recs.length :=
  filter_records pfW schedW 0 3 () machW [] (by decide) (by decide) rfl

end Records

/-! ## The conditional `filter` -/

section ConditionalFilter

variable {τ α γ ε ω μ ι θ : Type} {P m : Nat} [Zero α] [Add α] [Sub α] [NatCast α]

omit [Zero α] [Add α] [Sub α] [NatCast α] in
/-- A state record written by `output` carries the output index of its schedule
element and the dynamic state, ancestry and flag `output` was called with. -/
theorem mem_outputRecords (now : ScheduleElement τ) (r : Bool) (x : Mach τ α γ ε ω P P m)
    (k : Nat) (d : Fin P → γ) (a : Fin m → Int) (r' : Bool)
    (h : SinkCall.writeState k d a r' ∈ outputRecords now r x) :
    k = now.indexOutput ∧ d = x.s.dyn ∧ a = x.as ∧ r' = r := by
  unfold outputRecords at h
  split at h
  · simp only [List.mem_cons, List.mem_singleton, List.not_mem_nil, or_false] at h
    rcases h with h | h | h
    · cases h
    · cases h; exact ⟨rfl, rfl, rfl, rfl⟩
    · cases h
  · cases h

omit [Zero α] [Add α] [Sub α] [NatCast α] in
theorem output0_s (x : Mach τ α γ ε ω P P m) : (output0 x).s = x.s := by
  simp only [output0]
  split <;> rfl

/-- The loop of the conditional `filter` terminates with the given fuel, and any
property of the position, the accumulated log-likelihood and the machine that
every conditional `step` preserves holds when it does. -/
theorem filterCondLoop_run (pf : ParticleFilter τ α γ ε ω μ ι θ P P m)
    (sched : List (ScheduleElement τ)) (last : Nat) (X : Nat → γ) (hl : last ≤ sched.length)
    (hP : 0 < P) (Inv : Nat → α → Mach τ α γ ε ω P P m → Prop)
    (hstep : ∀ i ll x inc k x', i + 1 < last →
      stepCond pf sched last i X x = .ok (inc, k, x') → Inv i ll x → Inv k (ll + inc) x') :
    ∀ (fuel iter : Nat) (ll : α) (x : Mach τ α γ ε ω P P m),
      iter < last → last ≤ iter + 1 + fuel → Inv iter ll x →
      ∃ ll' k x', filterCondLoop pf sched last X fuel iter ll x = .ok (ll', k, x') ∧
        k + 1 = last ∧ Inv k ll' x' := by
  intro fuel
  induction fuel with
  | zero =>
    intro iter ll x h1 h2 hinv
    have : iter + 1 = last := by omega
    exact ⟨ll, iter, x, by simp [filterCondLoop, this], this, hinv⟩
  | succ fuel ih =>
    intro iter ll x h1 h2 hinv
    by_cases hc : iter + 1 = last
    · exact ⟨ll, iter, x, by simp [filterCondLoop, hc], hc, hinv⟩
    · obtain ⟨now, x1, ops, k, x2, e, inc, x3, -, -, hs, hik, hkl, -⟩ :=
        stepCond_run pf sched last iter X x (by omega) hl hP
      obtain ⟨ll', k', x', hrun, hk', hinv'⟩ := ih k (ll + inc) _ hkl (by omega)
        (hstep iter ll x inc k _ (by omega) hs hinv)
      refine ⟨ll', k', x', ?_, hk', hinv'⟩
      simp [filterCondLoop, hc, hs, bind, Except.bind, hrun]

/-- C11, the code at a failing input: on a schedule whose first element has output
index `1`, the conditional filter records at index `1` a state whose row 0 is column
`0` of `X` (`50`), not column `1` (`51`); the record its step writes at index `2` has
row 0 equal to column `2` (`52`).  Each entry lists the output index, the recorded
row 0 and the column of `X` at that index. -/
theorem filterCond_first_record_pins_column_zero :
    (filterCond pfW schedLate 0 2 () refW machW).toOption.map
      (fun r => r.2.out.map
        (fun calls => (pinnedRows calls).map (fun kr => (kr.1, kr.2, refW kr.1)))) =
      some (some [(1, 50, 51), (2, 52, 52)]) := by
  decide

/-- The state records of the conditional filter: on every non-empty schedule and at
least one particle it returns, and of the state records it appends to the sink every
record written by a step (`recs`) at output index `k` has row 0 equal to column `k`
of `X`, while the one written for the first schedule element (`recs0`, at that
element's output index) has row 0 equal to what `filter` assigns there,
`column(X, 0)`. -/
theorem filterCond_records_pinned (pf : ParticleFilter τ α γ ε ω μ ι θ P P P)
    (sched : List (ScheduleElement τ)) (first last : Nat) (theta : θ) (X : Nat → γ)
    (x : Mach τ α γ ε ω P P P) (hne : first < last) (hl : last ≤ sched.length)
    (hP : 0 < P) :
    ∃ ll x' now par recs0 recs,
      filterCond pf sched first last theta X x = .ok (ll, x') ∧
      sched[first]? = some now ∧
      x'.out = x.out.map (fun c => c ++ (SinkCall.clear :: SinkCall.writeParameters par ::
        recs0 ++ recs ++ [SinkCall.writeLL ll])) ∧
      (∀ k d a r, SinkCall.writeState k d a r ∈ recs0 →
        k = now.indexOutput ∧ d ⟨0, hP⟩ = X 0) ∧
      (∀ k d a r, SinkCall.writeState k d a r ∈ recs → d ⟨0, hP⟩ = X k) := by
  have hf : first < sched.length := by omega
  obtain ⟨-, -, hout1, hs1, -⟩ := initTail_effect sched[first]
    (pf.sim_init_theta x.w theta sched[first] x.s).1
    (pf.sim_init_theta x.w theta sched[first] x.s).2 x
  have hpin : pinRow0 X 0 (initTail sched[first]
      (pf.sim_init_theta x.w theta sched[first] x.s).1
      (pf.sim_init_theta x.w theta sched[first] x.s).2 x) = .ok (emit (.pin 0)
      { (initTail sched[first] (pf.sim_init_theta x.w theta sched[first] x.s).1
          (pf.sim_init_theta x.w theta sched[first] x.s).2 x) with
        s := { (initTail sched[first] (pf.sim_init_theta x.w theta sched[first] x.s).1
          (pf.sim_init_theta x.w theta sched[first] x.s).2 x).s with
          dyn := fun p => if p.val = 0 then X 0 else
            (initTail sched[first] (pf.sim_init_theta x.w theta sched[first] x.s).1
              (pf.sim_init_theta x.w theta sched[first] x.s).2 x).s.dyn p } }) := by
    simp [pinRow0, hP]
  generalize hxp : (emit (.pin 0)
      { (initTail sched[first] (pf.sim_init_theta x.w theta sched[first] x.s).1
          (pf.sim_init_theta x.w theta sched[first] x.s).2 x) with
        s := { (initTail sched[first] (pf.sim_init_theta x.w theta sched[first] x.s).1
          (pf.sim_init_theta x.w theta sched[first] x.s).2 x).s with
          dyn := fun p => if p.val = 0 then X 0 else
            (initTail sched[first] (pf.sim_init_theta x.w theta sched[first] x.s).1
              (pf.sim_init_theta x.w theta sched[first] x.s).2 x).s.dyn p } } :
      Mach τ α γ ε ω P P P) = xp at hpin
  have hxpout : xp.out = x.out.map (fun c => c ++ [SinkCall.clear]) := by
    rw [← hxp]; exact hout1
  have hxpdyn : xp.s.dyn ⟨0, hP⟩ = X 0 := by
    rw [← hxp]; simp [emit]
  obtain ⟨-, hout2⟩ := output0_frame xp
  obtain ⟨c1, x3, hcor, -, -, hout3, hs3, -⟩ := correct_run pf sched[first] (output0 xp)
  obtain ⟨ll, k, x5, hloop, -, recs, hout5, hrecs⟩ :=
    filterCondLoop_run pf sched last X hl hP
    (fun _ _ y => ∃ recs, y.out = (output sched[first] false x3).out.map (fun c => c ++ recs) ∧
      ∀ k d a r, SinkCall.writeState k d a r ∈ recs → d ⟨0, hP⟩ = X k)
    (by
      rintro i ll y inc k y' hi hs ⟨recs, hout, hrecs⟩
      obtain ⟨now, x1, ops, k', x2, e, ll', x3', -, -, hstep, -, -, -, -, ⟨-, -, ho1⟩,
        ⟨-, -, -, ho2⟩, ⟨-, -, ho3, -, hdyn⟩⟩ := stepCond_run pf sched last i X y hi hl hP
      rw [hstep] at hs
      simp only [Except.ok.injEq, Prod.mk.injEq] at hs
      obtain ⟨rfl, rfl, rfl⟩ := hs
      refine ⟨recs ++ outputRecords e (triggered pf now y) x3', ?_, ?_⟩
      · show (output e (triggered pf now y) x3').out = _
        rw [output_out, ho3, ho2, ho1, hout, sink_append_append]
      · intro k d a r hmem
        rcases List.mem_append.1 hmem with h | h
        · exact hrecs k d a r h
        · obtain ⟨rfl, rfl, -, -⟩ := mem_outputRecords e _ x3' k d a r h
          rw [hdyn]
          simp)
    sched.length first c1 (output sched[first] false x3) hne (by omega)
    ⟨[], by simp, by simp⟩
  obtain ⟨-, houtT⟩ := outputT_frame ll (term pf x5)
  refine ⟨ll, outputT ll (term pf x5), sched[first], xp.s.par,
    outputRecords sched[first] false x3, recs, ?_, List.getElem?_eq_getElem hf, ?_, ?_, hrecs⟩
  · simp [filterCond, deref, List.getElem?_eq_getElem hf, initTheta, hpin, hcor, hloop, bind,
      Except.bind, pure, Except.pure]
  · rw [houtT]
    show (x5.out).map _ = _
    rw [hout5, output_out, hout3, hout2, hxpout, sink_append_append, sink_append_append,
      sink_append_append, sink_append_append]
    simp
  · intro k d a r hmem
    obtain ⟨rfl, rfl, -, -⟩ := mem_outputRecords sched[first] false x3 k d a r hmem
    refine ⟨rfl, ?_⟩
    rw [hs3, output0_s]
    exact hxpdyn

/-- The state records of the conditional two-particle filter on the schedule whose
output indices start at `1`. -/
theorem filterCond_records_pinned_witness :
    ∃ ll x' now par recs0 recs,
      filterCond pfW schedLate 0 2 () refW machW = .ok (ll, x') ∧
      schedLate[0]? = some now ∧
      x'.out = machW.out.map (fun c => c ++ (SinkCall.clear ::
        SinkCall.writeParameters par :: recs0 ++ recs ++ [SinkCall.writeLL ll])) ∧
      (∀ k d a r, SinkCall.writeState k d a r ∈ recs0 →
        k = now.indexOutput ∧ d ⟨0, by decide⟩ = refW 0) ∧
      (∀ k d a r, SinkCall.writeState k d a r ∈ recs → d ⟨0, by decide⟩ = refW k) :=
  filterCond_records_pinned pfW schedLate 0 2 () refW machW (by decide) (by decide)
    (by decide)

end ConditionalFilter

/-! ## The conditional `filter` on a schedule whose output indices start at `0` -/

section ConditionalFilterFromZero

variable {τ α γ ε ω μ ι θ : Type} {P : Nat} [Zero α] [Add α] [Sub α] [NatCast α]

/-- When the first schedule element has output index `0`, every state record the
conditional filter appends to the sink at output index `k` has row 0 equal to column
`k` of `X`, the record written for the first element included. -/
theorem filterCond_records_pinned_from_zero (pf : ParticleFilter τ α γ ε ω μ ι θ P P P)
    (sched : List (ScheduleElement τ)) (first last : Nat) (theta : θ) (X : Nat → γ)
    (x : Mach τ α γ ε ω P P P) (hne : first < last) (hl : last ≤ sched.length)
    (hP : 0 < P) (hidx : ∀ e, sched[first]? = some e → e.indexOutput = 0) :
    ∃ ll x1 par recs,
      filterCond pf sched first last theta X x = .ok (ll, x1) ∧
      x1.out = x.out.map (fun c => c ++ (SinkCall.clear :: SinkCall.writeParameters par ::
        recs ++ [SinkCall.writeLL ll])) ∧
      (∀ k d a r, SinkCall.writeState k d a r ∈ recs → d ⟨0, hP⟩ = X k) := by
  obtain ⟨ll, x1, now, par, recs0, recs, hrun, hnow, hout, h0, h1⟩ :=
    filterCond_records_pinned pf sched first last theta X x hne hl hP
  refine ⟨ll, x1, par, recs0 ++ recs, hrun, ?_, ?_⟩
  · rw [hout]
    simp
  · intro k d a r hmem
    rcases List.mem_append.1 hmem with h | h
    · obtain ⟨hk, hd⟩ := h0 k d a r h
      rw [hd, hk, hidx now hnow]
    · exact h1 k d a r h

/-- The state records of the conditional two-particle filter on the three times
whose output indices start at `0`. -/
theorem filterCond_records_pinned_from_zero_witness :
    ∃ ll x1 par recs,
      filterCond pfW schedW 0 3 () refW machW = .ok (ll, x1) ∧
      x1.out = machW.out.map (fun c => c ++ (SinkCall.clear :: SinkCall.writeParameters par ::
        recs ++ [SinkCall.writeLL ll])) ∧
      (∀ k d a r, SinkCall.writeState k d a r ∈ recs → d ⟨0, by decide⟩ = refW k) :=
  filterCond_records_pinned_from_zero pfW schedW 0 3 () refW machW (by decide) (by decide)
    (by decide) (by decide)

end ConditionalFilterFromZero

/-! ## A single particle -/

section SingleParticle

variable {τ α γ ε ω μ ι θ : Type} {P m : Nat} [Zero α] [Add α] [Sub α] [NatCast α]

/-- The calls of one `step` entered at position `i` with `i + 1 < last`, as
equations between the machine states `x1` (after `resample`), `x2` (after the
`predict`s) and `x3` (after `correct`). -/
theorem step_eqs (pf : ParticleFilter τ α γ ε ω μ ι θ P P m)
    (sched : List (ScheduleElement τ)) (last i : Nat) (x : Mach τ α γ ε ω P P m)
    (hi : i + 1 < last) (hl : last ≤ sched.length) :
    ∃ (now : ScheduleElement τ) (x1 : Mach τ α γ ε ω P P m) (k : Nat)
      (x2 : Mach τ α γ ε ω P P m) (e : ScheduleElement τ) (ll : α) (x3 : Mach τ α γ ε ω P P m),
      sched[i]? = some now ∧ resample pf now x = .ok (triggered pf now x, x1) ∧
      predictLoop pf last (sched.drop (i + 1)) i x1 = .ok (k, x2) ∧ x2.lws = x1.lws ∧
      sched[k]? = some e ∧ correct pf e x2 = .ok (ll, x3) ∧
      step pf sched last i x =
        .ok (ll, k, emit (.stepReturn ll) (output e (triggered pf now x) x3)) := by
  have hi' : i < sched.length := by omega
  obtain ⟨x1, ops, hres, -⟩ := resample_run pf sched[i] x
  obtain ⟨k, x2, hpl, hik, hkl, -, -, -, hlw, -⟩ :=
    predictLoop_run pf last (sched.drop (i + 1)) i x1 hi (by simp; omega)
  have hk' : k < sched.length := by omega
  obtain ⟨ll, x3, hcor, -⟩ := correct_run pf sched[k] x2
  refine ⟨sched[i], x1, k, x2, sched[k], ll, x3, List.getElem?_eq_getElem hi', hres, hpl, hlw,
    List.getElem?_eq_getElem hk', hcor, ?_⟩
  simp [step, deref, List.getElem?_eq_getElem hi', List.getElem?_eq_getElem hk', hres, hpl,
    hcor, bind, Except.bind, pure, Except.pure]

omit [Zero α] [Add α] [Sub α] [NatCast α] in
/-- A triggered `resample` leaves the log-weights the resampler's `resample`
produced from the old ones. -/
theorem resample_triggered_lws (pf : ParticleFilter τ α γ ε ω μ ι θ P P m)
    (R : Resampler α γ ε ω P P m) (now : ScheduleElement τ) (x x1 : Mach τ α γ ε ω P P m)
    (hR : pf.resam = some R) (ht : triggered pf now x = true)
    (h : resample pf now x = .ok (true, x1)) :
    ∃ w, x1.lws = (R.resample w x.lws x.as x.s).2.1 := by
  unfold resample at h
  simp only [if_true, ht] at h
  split at h
  · next R' _ hR' =>
    rw [hR] at hR'
    cases hR'
    simp only [Except.ok.injEq, Prod.mk.injEq, true_and] at h
    subst h
    by_cases hm : R.needsMax = true
    · exact ⟨_, by simp [setMax, hm, emit]; rfl⟩
    · exact ⟨_, by simp [setMax, hm, emit]; rfl⟩
  · next hne =>
    exact absurd hR (fun h' => hne R rfl h')

/-- With an output time without observation between the two observation times, the
same filter returns `8 = 3 + 5`, the sum of the two log-densities: `resample` at the
element without observation takes the branch that normalises the log-weight. -/
theorem filter_single_particle_plain_sum :
    (filter pfOne schedTwoObsApart 0 3 () machOne).toOption.map
      (fun r => (r.1, stepReturns r.2.trace, r.2.out.map pinnedRows)) =
        some (8, [0, 5], some [(0, 3), (1, 4), (2, 5)]) := by
  decide

/-- One `step` of the filter with one particle (`logsumexp` of one weight being that
weight and `log 1 = 0`) and a resampler that triggers at every observation and sets
the log-weight to the log of the mean weight: entered at an observation time with
log-weight `w`, it returns `w + log p(y | x)` of the particle at the element it
corrects, when that has an observation, and leaves the log-weight at this value. -/
theorem step_single_particle_carries_weight (pf : ParticleFilter τ α γ ε ω μ ι θ 1 1 m)
    (R : Resampler α γ ε ω 1 1 m) (hR : pf.resam = some R)
    (htrig : ∀ w lws, R.isTriggered w lws = true)
    (hres : ∀ w lws as s, (R.resample w lws as s).2.1 =
      fun _ => pf.logsumexp_reduce lws - pf.log ((1 : Nat) : α))
    (hlse : ∀ v, pf.logsumexp_reduce v = v 0) (hlog : pf.log ((1 : Nat) : α) = 0)
    (hsub : ∀ a : α, a - 0 = a)
    (sched : List (ScheduleElement τ)) (last i : Nat) (x : Mach τ α γ ε ω 1 1 m)
    (now : ScheduleElement τ) (hlt : i < last) (hne : i + 1 ≠ last)
    (hl : last ≤ sched.length) (hnow : sched[i]? = some now) (hobs : now.hasObs = true) :
    ∃ ll k x' e,
      step pf sched last i x = .ok (ll, k, x') ∧ sched[k]? = some e ∧
      (e.hasObs = true →
        ll = x.lws 0 + pf.observationLogDensity x'.s (pf.getMask x'.w e.indexObs) 0 ∧
          x'.lws 0 = ll) ∧
      (e.hasObs = false → ll = 0 ∧ x'.lws 0 = x.lws 0) := by
  obtain ⟨now', x1, k, x2, e, ll, x3, hnow', hres1, hpl, hlw2, he, hcor, hstep⟩ :=
    step_eqs pf sched last i x (by omega) hl
  rw [hnow] at hnow'
  cases hnow'
  have ht : triggered pf now x = true := by simp [triggered, hobs, hR, htrig]
  rw [ht] at hres1
  obtain ⟨w, hx1⟩ := resample_triggered_lws pf R now x x1 hR ht hres1
  have hw1 : x1.lws 0 = x.lws 0 := by
    rw [hx1, hres, hlse, hlog, hsub]
  obtain ⟨-, holws, hos, how, -⟩ := output_frame e (triggered pf now x) x3
  refine ⟨ll, k, _, e, hstep, he, ?_, ?_⟩
  · intro heo
    unfold correct at hcor
    simp only [if_true, heo] at hcor
    simp only [Except.ok.injEq, Prod.mk.injEq] at hcor
    obtain ⟨hll, hx3⟩ := hcor
    have hx3s : x3.s = x2.s := by rw [← hx3]; rfl
    have hx3w : x3.w = x2.w := by rw [← hx3]; rfl
    have hx3l : x3.lws = observationLogDensities pf x2.s (pf.getMask x2.w e.indexObs) x2.lws := by
      rw [← hx3]; rfl
    have hval : observationLogDensities pf x2.s (pf.getMask x2.w e.indexObs) x2.lws 0 =
        x.lws 0 + pf.observationLogDensity x2.s (pf.getMask x2.w e.indexObs) 0 := by
      simp [observationLogDensities, hlw2, hw1]
    have hllv : ll = x.lws 0 + pf.observationLogDensity x2.s (pf.getMask x2.w e.indexObs) 0 := by
      rw [← hll, hlse, hlog, hsub, hval]
    constructor
    · show ll = x.lws 0 + pf.observationLogDensity (output e (triggered pf now x) x3).s
        (pf.getMask (output e (triggered pf now x) x3).w e.indexObs) 0
      rw [hos, how, hx3s, hx3w]
      exact hllv
    · show (output e (triggered pf now x) x3).lws 0 = ll
      rw [holws, hx3l, hval, hllv]
  · intro heo
    unfold correct at hcor
    simp only [if_true, heo, Bool.false_eq_true, if_false, Except.ok.injEq,
      Prod.mk.injEq] at hcor
    obtain ⟨hll, hx3⟩ := hcor
    have hx3l : x3.lws = x2.lws := by rw [← hx3]; rfl
    refine ⟨hll.symm, ?_⟩
    show (output e (triggered pf now x) x3).lws 0 = x.lws 0
    rw [holws, hx3l, hlw2, hw1]

/-- The first step of the one-particle filter on two observation times. -/
theorem step_single_particle_carries_weight_witness :
    ∃ ll k x' e,
      step pfOne schedTwoObs 2 0 machOne = .ok (ll, k, x') ∧ schedTwoObs[k]? = some e ∧
      (e.hasObs = true →
        ll = machOne.lws 0 +
          pfOne.observationLogDensity x'.s (pfOne.getMask x'.w e.indexObs) 0 ∧
          x'.lws 0 = ll) ∧
      (e.hasObs = false → ll = 0 ∧ x'.lws 0 = machOne.lws 0) :=
  step_single_particle_carries_weight pfOne resamOne rfl (fun _ _ => rfl)
    (fun _ lws _ _ => by funext _; simp [resamOne, pfOne]) (fun _ => rfl) (by decide)
    (fun a => by simp) schedTwoObs 2 0 machOne (elW 0 true true 0) (by decide) (by decide)
    (by decide) rfl rfl

end SingleParticle

/-! ## The integrator loop -/

section IntegratorLoop

variable {α : Type} [LinearOrderedField α] {N : Nat}

/-- What the clamp leaves alone when the iteration goes on: only `h` may change, and
if it does it is `t2 - t` and positive. -/
theorem clamp_next (t2 : α) (s s1 : Loop α N) (h : clamp t2 s = .next s1) :
    s1.t = s.t ∧ s1.old = s.old ∧ s1.shared = s.shared ∧ s1.r1 = s.r1 ∧
      s1.accepted = s.accepted ∧ s1.accepts = s.accepts ∧ s1.n = s.n ∧ s1.iters = s.iters ∧
      (s1.h = s.h ∨ (s1.h = t2 - s.t ∧ 0 < s1.h)) := by
  unfold clamp at h
  split_ifs at h with h1 h2
  · cases h
    exact ⟨rfl, rfl, rfl, rfl, rfl, rfl, rfl, rfl, Or.inr ⟨rfl, not_le.1 h2⟩⟩
  · cases h
    exact ⟨rfl, rfl, rfl, rfl, rfl, rfl, rfl, rfl, Or.inl rfl⟩

/-- When the clamp leaves the loop, `t` is `t2` and the vectors are untouched. -/
theorem clamp_exit (t2 : α) (s s1 : Loop α N) (h : clamp t2 s = .exit s1) :
    s1.t = t2 ∧ s1.old = s.old ∧ s1.shared = s.shared ∧ s1.r1 = s.r1 ∧
      s1.accepted = s.accepted ∧ s1.accepts = s.accepts ∧ s1.n = s.n ∧
      s1.iters = s.iters := by
  unfold clamp at h
  split_ifs at h with h1 h2
  cases h
  exact ⟨rfl, rfl, rfl, rfl, rfl, rfl, rfl, rfl⟩

omit [LinearOrderedField α] in
/-- A stage followed by the commit of `r1` changes the registers and the shared
state only, and leaves `r1` in the shared state. -/
theorem stage_commit1_frame (f : α → α → Nat → (Fin N → α) → Registers α N → Registers α N)
    (p : Nat) (s : Loop α N) :
    (commit1 (applyStage f p s)).t = s.t ∧ (commit1 (applyStage f p s)).h = s.h ∧
      (commit1 (applyStage f p s)).old = s.old ∧
      (commit1 (applyStage f p s)).accepted = s.accepted ∧
      (commit1 (applyStage f p s)).accepts = s.accepts ∧
      (commit1 (applyStage f p s)).n = s.n ∧ (commit1 (applyStage f p s)).iters = s.iters ∧
      (commit1 (applyStage f p s)).shared = (commit1 (applyStage f p s)).r1 :=
  ⟨rfl, rfl, rfl, rfl, rfl, rfl, rfl, rfl⟩

omit [LinearOrderedField α] in
/-- A stage followed by the commit of `r2` changes the registers and the shared
state only. -/
theorem stage_commit2_frame (f : α → α → Nat → (Fin N → α) → Registers α N → Registers α N)
    (p : Nat) (s : Loop α N) :
    (commit2 (applyStage f p s)).t = s.t ∧ (commit2 (applyStage f p s)).h = s.h ∧
      (commit2 (applyStage f p s)).old = s.old ∧
      (commit2 (applyStage f p s)).accepted = s.accepted ∧
      (commit2 (applyStage f p s)).accepts = s.accepts ∧
      (commit2 (applyStage f p s)).n = s.n ∧ (commit2 (applyStage f p s)).iters = s.iters :=
  ⟨rfl, rfl, rfl, rfl, rfl, rfl, rfl⟩

omit [LinearOrderedField α] in
/-- The stages change the registers and the shared state only, and end with `r1`
committed to the shared state. -/
theorem stages_frame (v : Visitor α N) (p : Nat) (s : Loop α N) :
    (stages v p s).t = s.t ∧ (stages v p s).h = s.h ∧ (stages v p s).old = s.old ∧
      (stages v p s).accepted = s.accepted ∧ (stages v p s).accepts = s.accepts ∧
      (stages v p s).n = s.n ∧ (stages v p s).iters = s.iters ∧
      (stages v p s).shared = (stages v p s).r1 := by
  unfold stages
  have h1 := stage_commit1_frame v.stage1 p s
  generalize commit1 (applyStage v.stage1 p s) = s1 at h1 ⊢
  have h2 := stage_commit2_frame v.stage2 p s1
  generalize commit2 (applyStage v.stage2 p s1) = s2 at h2 ⊢
  have h3 := stage_commit1_frame v.stage3 p s2
  generalize commit1 (applyStage v.stage3 p s2) = s3 at h3 ⊢
  have h4 := stage_commit2_frame v.stage4 p s3
  generalize commit2 (applyStage v.stage4 p s3) = s4 at h4 ⊢
  have h5 := stage_commit1_frame v.stage5 p s4
  generalize commit1 (applyStage v.stage5 p s4) = s5 at h5 ⊢
  obtain ⟨a1, b1, c1, d1, e1, f1, g1, -⟩ := h1
  obtain ⟨a2, b2, c2, d2, e2, f2, g2⟩ := h2
  obtain ⟨a3, b3, c3, d3, e3, f3, g3, -⟩ := h3
  obtain ⟨a4, b4, c4, d4, e4, f4, g4⟩ := h4
  obtain ⟨a5, b5, c5, d5, e5, f5, g5, k5⟩ := h5
  exact ⟨by rw [a5, a4, a3, a2, a1], by rw [b5, b4, b3, b2, b1], by rw [c5, c4, c3, c2, c1],
    by rw [d5, d4, d3, d2, d1], by rw [e5, e4, e3, e2, e1], by rw [f5, f4, f3, f2, f1],
    by rw [g5, g4, g3, g2, g1], k5⟩

/-- The two ways the body of the loop can end: by `break` in the clamp, or after the
stages (giving `st`), the error norm `e2`, the acceptance test and the step-size
update. -/
theorem body_cases (c : IntegratorConstants α) (fns : MathFns α) (v : Visitor α N) (t2 : α)
    (p : Nat) (s : Loop α N) :
    (∃ s1, clamp t2 { s with iters := s.iters + 1 } = .exit s1 ∧
      body c fns v t2 p s = .exit s1) ∨
    (∃ s1 st e2, clamp t2 { s with iters := s.iters + 1 } = .next s1 ∧
      st = stages v p s1 ∧ e2 = errorNorm c st ∧
      body c fns v t2 p s =
        .next { nextStepSize c fns t2 e2 (acceptReject t2 e2 st) with n := s.n + 1 }) := by
  unfold body
  cases hcl : clamp t2 { s with iters := s.iters + 1 } with
  | exit s1 => exact Or.inl ⟨s1, rfl, rfl⟩
  | next s1 => exact Or.inr ⟨s1, _, _, rfl, rfl, rfl, rfl⟩

/-- The acceptance test followed by the step-size update, from the state `st` after
the stages.  An accepted step (`e2 ≤ 1`) advances `t` by `h`, records `r1` as the
accepted state and copies it to `old` if `t < t2`; a rejected step resets `r1` and
the shared state to `old` and leaves `t`.  In both cases `h` changes only if
`t < t2` afterwards, by a factor that is positive when `facl` and `facr` are. -/
theorem attempt_cases (c : IntegratorConstants α) (fns : MathFns α) (t2 e2 : α)
    (st : Loop α N) :
    (e2 ≤ 1 ∧
      (nextStepSize c fns t2 e2 (acceptReject t2 e2 st)).t = st.t + st.h ∧
      (nextStepSize c fns t2 e2 (acceptReject t2 e2 st)).r1 = st.r1 ∧
      (nextStepSize c fns t2 e2 (acceptReject t2 e2 st)).shared = st.shared ∧
      (nextStepSize c fns t2 e2 (acceptReject t2 e2 st)).accepted = st.r1 ∧
      (nextStepSize c fns t2 e2 (acceptReject t2 e2 st)).accepts = st.accepts + 1 ∧
      (nextStepSize c fns t2 e2 (acceptReject t2 e2 st)).iters = st.iters ∧
      (st.t + st.h < t2 →
        (nextStepSize c fns t2 e2 (acceptReject t2 e2 st)).old = st.r1 ∧
        ∃ fac, (nextStepSize c fns t2 e2 (acceptReject t2 e2 st)).h = st.h * fac ∧
          (0 < c.facl → 0 < c.facr → 0 < fac)) ∧
      (¬ st.t + st.h < t2 →
        (nextStepSize c fns t2 e2 (acceptReject t2 e2 st)).old = st.old ∧
        (nextStepSize c fns t2 e2 (acceptReject t2 e2 st)).h = st.h)) ∨
    (1 < e2 ∧
      (nextStepSize c fns t2 e2 (acceptReject t2 e2 st)).t = st.t ∧
      (nextStepSize c fns t2 e2 (acceptReject t2 e2 st)).r1 = st.old ∧
      (nextStepSize c fns t2 e2 (acceptReject t2 e2 st)).shared = st.old ∧
      (nextStepSize c fns t2 e2 (acceptReject t2 e2 st)).old = st.old ∧
      (nextStepSize c fns t2 e2 (acceptReject t2 e2 st)).accepted = st.accepted ∧
      (nextStepSize c fns t2 e2 (acceptReject t2 e2 st)).accepts = st.accepts ∧
      (nextStepSize c fns t2 e2 (acceptReject t2 e2 st)).iters = st.iters ∧
      (st.t < t2 →
        ∃ fac, (nextStepSize c fns t2 e2 (acceptReject t2 e2 st)).h = st.h * fac ∧
          (0 < c.facl → 0 < fac)) ∧
      (¬ st.t < t2 → (nextStepSize c fns t2 e2 (acceptReject t2 e2 st)).h = st.h)) := by
  by_cases he : e2 ≤ 1
  · left
    have hng : ¬ e2 > 1 := not_lt.2 he
    by_cases ht : st.t + st.h < t2
    · refine ⟨he, ?_, ?_, ?_, ?_, ?_, ?_, fun _ => ⟨?_, min c.facr (max c.facl
        (fns.exp (c.beta * st.logfacold + c.logsafe - c.expo * fns.log e2))), ?_,
        fun hl hr => lt_min hr (lt_max_of_lt_left hl)⟩, fun h => absurd ht h⟩
      all_goals simp [nextStepSize, acceptReject, he, ht, hng]
    · refine ⟨he, ?_, ?_, ?_, ?_, ?_, ?_, fun h => absurd h ht, fun _ => ⟨?_, ?_⟩⟩
      all_goals simp [nextStepSize, acceptReject, he, ht]
  · right
    have hgt : 1 < e2 := not_le.1 he
    by_cases ht : st.t < t2
    · refine ⟨hgt, ?_, ?_, ?_, ?_, ?_, ?_, ?_, fun _ => ⟨max c.facl
        (fns.exp (c.logsafe - c.expo * fns.log e2)), ?_, fun hl => lt_max_of_lt_left hl⟩,
        fun h => absurd ht h⟩
      all_goals simp [nextStepSize, acceptReject, he, ht, hgt]
    · refine ⟨hgt, ?_, ?_, ?_, ?_, ?_, ?_, ?_, fun h => absurd h ht, fun _ => ?_⟩
      all_goals simp [nextStepSize, acceptReject, he, ht]

/-- Any property that the body of the loop preserves, whichever way it ends, holds
after any number of iterations of the loop. -/
theorem loop_inv (c : IntegratorConstants α) (fns : MathFns α) (v : Visitor α N) (t2 : α)
    (p : Nat) (Inv : Loop α N → Prop)
    (hnext : ∀ s s', s.t < t2 → (s.n : Int) < c.nsteps → Inv s →
      body c fns v t2 p s = .next s' → Inv s')
    (hexit : ∀ s s', s.t < t2 → (s.n : Int) < c.nsteps → Inv s →
      body c fns v t2 p s = .exit s' → Inv s') :
    ∀ (fuel : Nat) (s : Loop α N), Inv s → Inv (loop c fns v t2 p fuel s) := by
  intro fuel
  induction fuel with
  | zero => intro s hs; exact hs
  | succ fuel ih =>
    intro s hs
    unfold loop
    split_ifs with hc
    · cases hb : body c fns v t2 p s with
      | exit s1 => exact hexit s s1 hc.1 hc.2 hs hb
      | next s1 => exact ih s1 (hnext s s1 hc.1 hc.2 hs hb)
    · exact hs

/-- The counters after an iteration: one more iteration begun, and one more attempt
counted unless the iteration left the loop, which it does with `t = t2`. -/
theorem body_n (c : IntegratorConstants α) (fns : MathFns α) (v : Visitor α N) (t2 : α)
    (p : Nat) (s s' : Loop α N) :
    (body c fns v t2 p s = .next s' → s'.n = s.n + 1 ∧ s'.iters = s.iters + 1) ∧
    (body c fns v t2 p s = .exit s' → s'.n = s.n ∧ s'.iters = s.iters + 1 ∧ s'.t = t2) := by
  rcases body_cases c fns v t2 p s with ⟨s1, hcl, hb⟩ | ⟨s1, st, e2, hcl, hst, -, hb⟩
  · refine ⟨fun h => ?_, fun h => ?_⟩
    · rw [hb] at h; cases h
    · rw [hb] at h
      cases h
      obtain ⟨ht, -, -, -, -, -, hn, hi⟩ := clamp_exit t2 _ _ hcl
      exact ⟨hn, hi, ht⟩
  · refine ⟨fun h => ?_, fun h => ?_⟩
    · rw [hb] at h
      cases h
      obtain ⟨-, -, -, -, -, -, -, hi, -⟩ := clamp_next t2 _ _ hcl
      have hfr := stages_frame v p s1
      rw [← hst] at hfr
      refine ⟨rfl, ?_⟩
      show (nextStepSize c fns t2 e2 (acceptReject t2 e2 st)).iters = _
      rcases attempt_cases c fns t2 e2 st with h | h
      · rw [h.2.2.2.2.2.2.1, hfr.2.2.2.2.2.2.1, hi]
      · rw [h.2.2.2.2.2.2.2.1, hfr.2.2.2.2.2.2.1, hi]
    · rw [hb] at h; cases h

/-- With fuel for the attempts that remain, the loop ends with `t ≥ t2` or with the
attempt counter at `h_nsteps`. -/
theorem loop_done (c : IntegratorConstants α) (fns : MathFns α) (v : Visitor α N) (t2 : α)
    (p : Nat) :
    ∀ (fuel : Nat) (s : Loop α N), (s.n : Int) ≤ c.nsteps → c.nsteps ≤ (s.n : Int) + fuel →
      t2 ≤ (loop c fns v t2 p fuel s).t ∨ ((loop c fns v t2 p fuel s).n : Int) = c.nsteps := by
  intro fuel
  induction fuel with
  | zero =>
    intro s h1 h2
    right
    show (s.n : Int) = c.nsteps
    simp only [Nat.cast_zero, add_zero] at h2
    omega
  | succ fuel ih =>
    intro s h1 h2
    unfold loop
    split_ifs with hc
    · cases hb : body c fns v t2 p s with
      | exit s1 =>
        left
        exact le_of_eq ((body_n c fns v t2 p s s1).2 hb).2.2.symm
      | next s1 =>
        have hn := ((body_n c fns v t2 p s s1).1 hb).1
        have hlt := hc.2
        exact ih s1 (by rw [hn]; push_cast; omega) (by rw [hn]; push_cast at h2 ⊢; omega)
    · rcases not_and_or.1 hc with h | h
      · exact Or.inl (not_lt.1 h)
      · right
        show (s.n : Int) = c.nsteps
        omega

/-- C16: for `t1 < t2` and `h_nsteps ≥ 0`, `update` returns normally, and for every
particle the loop begins at most `h_nsteps` iterations and ends with `t ≥ t2` or
with the attempt counter `n` equal to `h_nsteps`. -/
theorem update_bounded {P : Nat} (c : IntegratorConstants α) (fns : MathFns α)
    (v : Visitor α N) (t1 t2 : α) (dstate r2 err : Fin P → Fin N → α) (ht : t1 < t2)
    (hn : 0 ≤ c.nsteps) :
    (∃ out, update c fns v t1 t2 dstate r2 err = .ok out) ∧
    ∀ p : Fin P,
      ((integrate c fns v t1 t2 p.val (dstate p) (r2 p) (err p)).iters : Int) ≤ c.nsteps ∧
      (t2 ≤ (integrate c fns v t1 t2 p.val (dstate p) (r2 p) (err p)).t ∨
        ((integrate c fns v t1 t2 p.val (dstate p) (r2 p) (err p)).n : Int) = c.nsteps) := by
  refine ⟨⟨_, by unfold update; rw [if_pos ht]⟩, fun p => ⟨?_, ?_⟩⟩
  · have hinv := loop_inv c fns v t2 p.val
      (fun s => (s.iters : Int) ≤ c.nsteps ∧ (s.iters = s.n ∨ t2 ≤ s.t))
      (by
        rintro s s' hlt hnl ⟨-, hin⟩ hb
        obtain ⟨h1, h2⟩ := (body_n c fns v t2 p.val s s').1 hb
        have hi : s.iters = s.n := hin.resolve_right (not_le.2 hlt)
        exact ⟨by rw [h2, hi]; push_cast; omega, Or.inl (by rw [h1, h2, hi])⟩)
      (by
        rintro s s' hlt hnl ⟨-, hin⟩ hb
        obtain ⟨h1, h2, h3⟩ := (body_n c fns v t2 p.val s s').2 hb
        have hi : s.iters = s.n := hin.resolve_right (not_le.2 hlt)
        exact ⟨by rw [h2, hi]; push_cast; omega, Or.inr (le_of_eq h3.symm)⟩)
      c.nsteps.toNat (start c fns t1 (dstate p) (r2 p) (err p))
      ⟨by simpa [start] using hn, Or.inl rfl⟩
    exact hinv.1
  · exact loop_done c fns v t2 p.val c.nsteps.toNat _ (by simpa [start] using hn)
      (by simp only [start, Nat.cast_zero, zero_add]; omega)

/-- Instance of C16: two particles, `dx/dt = 1`, from `0` to `1`. -/
theorem update_bounded_witness :
    (∃ out, update (constsW 1 10) fnsW visitorW 0 1 (fun (_ : Fin 2) _ => 0) (fun _ _ => 0)
        (fun _ _ => 0) = .ok out) ∧
    ∀ p : Fin 2,
      ((integrate (constsW 1 10) fnsW visitorW 0 1 p.val (fun _ => 0) (fun _ => 0)
        (fun _ => 0)).iters : Int) ≤ (constsW 1 10).nsteps ∧
      (1 ≤ (integrate (constsW 1 10) fnsW visitorW 0 1 p.val (fun _ => 0) (fun _ => 0)
          (fun _ => 0)).t ∨
        ((integrate (constsW 1 10) fnsW visitorW 0 1 p.val (fun _ => 0) (fun _ => 0)
          (fun _ => 0)).n : Int) = (constsW 1 10).nsteps) :=
  update_bounded (constsW 1 10) fnsW visitorW 0 1 (fun (_ : Fin 2) _ => 0) (fun _ _ => 0)
    (fun _ _ => 0) (by norm_num) (by decide)

/-- C17: for every particle, the state `update` commits is the state produced by
the particle's last accepted step (the ghost field `accepted`, which is the initial
state until a step is accepted); if no step was accepted, as when all `h_nsteps`
attempts are rejected, the particle's state is left as it was. -/
theorem update_commits_last_accepted {P : Nat} (c : IntegratorConstants α) (fns : MathFns α)
    (v : Visitor α N) (t1 t2 : α) (dstate r2 err : Fin P → Fin N → α) (ht : t1 < t2) :
    ∃ out, update c fns v t1 t2 dstate r2 err = .ok out ∧
      ∀ p : Fin P,
        out p = (integrate c fns v t1 t2 p.val (dstate p) (r2 p) (err p)).accepted ∧
        ((integrate c fns v t1 t2 p.val (dstate p) (r2 p) (err p)).accepts = 0 →
          out p = dstate p) := by
  refine ⟨_, by unfold update; rw [if_pos ht], fun p => ?_⟩
  have hinv := loop_inv c fns v t2 p.val
    (fun s => s.shared = s.accepted ∧ (s.t < t2 → s.old = s.accepted) ∧
      (s.accepts = 0 → s.accepted = dstate p))
    (by
      rintro s s' hlt - ⟨hsh, hold, hacc⟩ hb
      rcases body_cases c fns v t2 p.val s with ⟨s1, -, hb'⟩ | ⟨s1, st, e2, hcl, hst, -, hb'⟩
      · rw [hb'] at hb; cases hb
      · rw [hb'] at hb
        cases hb
        obtain ⟨c1, c2, -, -, c5, c6, -, -, -⟩ := clamp_next t2 _ _ hcl
        have hfr := stages_frame v p.val s1
        rw [← hst] at hfr
        obtain ⟨f1, -, f3, f4, f5, -, -, f8⟩ := hfr
        rcases attempt_cases c fns t2 e2 st with
          ⟨-, a1, -, a3, a4, a5, -, a7, a8⟩ | ⟨-, b1, -, b3, b4, b5, b6, -, -, -⟩
        · refine ⟨?_, ?_, ?_⟩
          · show (nextStepSize c fns t2 e2 (acceptReject t2 e2 st)).shared =
              (nextStepSize c fns t2 e2 (acceptReject t2 e2 st)).accepted
            rw [a3, a4, f8]
          · intro hlt'
            show (nextStepSize c fns t2 e2 (acceptReject t2 e2 st)).old =
              (nextStepSize c fns t2 e2 (acceptReject t2 e2 st)).accepted
            have hlt'' : (nextStepSize c fns t2 e2 (acceptReject t2 e2 st)).t < t2 := hlt'
            rw [a1] at hlt''
            rw [(a7 hlt'').1, a4]
          · intro h0
            have h0' : (nextStepSize c fns t2 e2 (acceptReject t2 e2 st)).accepts = 0 := h0
            rw [a5] at h0'
            omega
        · have hso : st.old = s.accepted := by
            rw [f3, c2]
            exact hold hlt
          refine ⟨?_, ?_, ?_⟩
          · show (nextStepSize c fns t2 e2 (acceptReject t2 e2 st)).shared =
              (nextStepSize c fns t2 e2 (acceptReject t2 e2 st)).accepted
            rw [b3, b5, f4, c5, hso]
          · intro _
            show (nextStepSize c fns t2 e2 (acceptReject t2 e2 st)).old =
              (nextStepSize c fns t2 e2 (acceptReject t2 e2 st)).accepted
            rw [b4, b5, f4, c5, hso]
          · intro h0
            have h0' : (nextStepSize c fns t2 e2 (acceptReject t2 e2 st)).accepts = 0 := h0
            rw [b6, f5, c6] at h0'
            show (nextStepSize c fns t2 e2 (acceptReject t2 e2 st)).accepted = dstate p
            rw [b5, f4, c5]
            exact hacc h0')
    (by
      rintro s s' hlt - ⟨hsh, hold, hacc⟩ hb
      rcases body_cases c fns v t2 p.val s with ⟨s1, hcl, hb'⟩ | ⟨s1, st, e2, -, -, -, hb'⟩
      · rw [hb'] at hb
        cases hb
        obtain ⟨e1, -, e3, -, e5, e6, -, -⟩ := clamp_exit t2 _ _ hcl
        refine ⟨by rw [e3, e5]; exact hsh, fun h => ?_, fun h => ?_⟩
        · rw [e1] at h
          exact absurd h (lt_irrefl _)
        · rw [e5]
          rw [e6] at h
          exact hacc h
      · rw [hb'] at hb; cases hb)
    c.nsteps.toNat (start c fns t1 (dstate p) (r2 p) (err p))
    ⟨rfl, fun _ => rfl, fun _ => rfl⟩
  obtain ⟨h1, -, h3⟩ := hinv
  exact ⟨h1, fun h0 => by
    show (integrate c fns v t1 t2 p.val (dstate p) (r2 p) (err p)).shared = dstate p
    unfold integrate
    rw [h1]
    exact h3 h0⟩

/-- Instance of C17: two particles whose every step is rejected. -/
theorem update_commits_last_accepted_witness :
    ∃ out, update (constsW 1 10) fnsW visitorReject 0 1 (fun (_ : Fin 2) _ => 7)
        (fun _ _ => 0) (fun _ _ => 0) = .ok out ∧
      ∀ p : Fin 2,
        out p = (integrate (constsW 1 10) fnsW visitorReject 0 1 p.val (fun _ => 7)
          (fun _ => 0) (fun _ => 0)).accepted ∧
        ((integrate (constsW 1 10) fnsW visitorReject 0 1 p.val (fun _ => 7)
          (fun _ => 0) (fun _ => 0)).accepts = 0 → out p = fun _ => 7) :=
  update_commits_last_accepted (constsW 1 10) fnsW visitorReject 0 1 (fun (_ : Fin 2) _ => 7)
    (fun _ _ => 0) (fun _ _ => 0) (by norm_num)

/-- C18: in an iteration of the loop that gets to the acceptance test with
`e2 > 1`, so that the step is rejected, `t` is afterwards what it was before, and
`r1` and the shared particle state are `old`, which is unchanged. -/
theorem rejected_iteration (c : IntegratorConstants α) (fns : MathFns α) (v : Visitor α N)
    (t2 : α) (p : Nat) (s : Loop α N) (e2 : α) (he : iterationE2 c v t2 p s = some e2)
    (hrej : 1 < e2) :
    ∃ s', body c fns v t2 p s = .next s' ∧ s'.t = s.t ∧ s'.r1 = s.old ∧
      s'.shared = s.old ∧ s'.old = s.old := by
  rcases body_cases c fns v t2 p s with ⟨s1, hcl, -⟩ | ⟨s1, st, e2', hcl, hst, he2, hb⟩
  · simp [iterationE2, hcl] at he
  · have hee : e2' = e2 := by
      simp only [iterationE2, hcl, Option.some.injEq] at he
      rw [he2, hst]
      exact he
    subst hee
    obtain ⟨c1, c2, -⟩ := clamp_next t2 _ _ hcl
    have hfr := stages_frame v p s1
    rw [← hst] at hfr
    obtain ⟨f1, -, f3, -⟩ := hfr
    rcases attempt_cases c fns t2 e2' st with ⟨ha, -⟩ | ⟨-, b1, b2, b3, b4, -⟩
    · exact absurd hrej (not_lt.2 ha)
    · refine ⟨_, hb, ?_, ?_, ?_, ?_⟩
      · show (nextStepSize c fns t2 e2' (acceptReject t2 e2' st)).t = s.t
        rw [b1, f1, c1]
      · show (nextStepSize c fns t2 e2' (acceptReject t2 e2' st)).r1 = s.old
        rw [b2, f3, c2]
      · show (nextStepSize c fns t2 e2' (acceptReject t2 e2' st)).shared = s.old
        rw [b3, f3, c2]
      · show (nextStepSize c fns t2 e2' (acceptReject t2 e2' st)).old = s.old
        rw [b4, f3, c2]

/-- Instance of C18: the first iteration of a particle whose steps are rejected. -/
theorem rejected_iteration_witness :
    ∃ s', body (constsW 1 10) fnsW visitorReject 1 0
        (start (constsW 1 10) fnsW 0 (fun (_ : Fin 1) => 7) (fun _ => 0) (fun _ => 0))
          = .next s' ∧
      s'.t = (start (constsW 1 10) fnsW 0 (fun (_ : Fin 1) => 7) (fun _ => 0)
        (fun _ => 0)).t ∧
      s'.r1 = (start (constsW 1 10) fnsW 0 (fun (_ : Fin 1) => 7) (fun _ => 0)
        (fun _ => 0)).old ∧
      s'.shared = (start (constsW 1 10) fnsW 0 (fun (_ : Fin 1) => 7) (fun _ => 0)
        (fun _ => 0)).old ∧
      s'.old = (start (constsW 1 10) fnsW 0 (fun (_ : Fin 1) => 7) (fun _ => 0)
        (fun _ => 0)).old :=
  rejected_iteration (constsW 1 10) fnsW visitorReject 1 0
    (start (constsW 1 10) fnsW 0 (fun (_ : Fin 1) => 7) (fun _ => 0) (fun _ => 0))
    (1000000 / 81)
    (by norm_num [iterationE2, clamp, start, constsW, errorNorm, stages, applyStage,
      setRegisters, commit1, commit2, visitorReject, List.finRange_succ_eq_map])
    (by norm_num)

/-- C19 fails as stated: integrating `dx/dt = 1` from `0` to `1` with `h0 = 1`, the
single step is accepted and reaches `t2`, and at loop exit `old` is still the
initial state `0` while the state the accepted step produced is `1`. -/
theorem old_stale_at_exit :
    (integrate (constsW 1 10) fnsW visitorW 0 1 0 (fun _ => 0) (fun _ => 0) (fun _ => 0)).old 0
        = 0 ∧
      (integrate (constsW 1 10) fnsW visitorW 0 1 0 (fun _ => 0) (fun _ => 0)
        (fun _ => 0)).accepted 0 = 1 ∧
      (integrate (constsW 1 10) fnsW visitorW 0 1 0 (fun _ => 0) (fun _ => 0)
        (fun _ => 0)).accepts = 1 := by
  norm_num [integrate, start, loop, body, clamp, stages, applyStage, setRegisters, commit1,
    commit2, errorNorm, acceptReject, nextStepSize, constsW, fnsW, visitorW]

/-- C19 as amended: after any number of iterations of the loop, and so also at loop
exit, `old` equals the state produced by the last accepted step (the initial state
if none was accepted) whenever `t < t2`; the step that reaches `t2` is not copied
to `old`. -/
theorem old_is_last_accepted_before_t2 (c : IntegratorConstants α) (fns : MathFns α)
    (v : Visitor α N) (t1 t2 : α) (p : Nat) (x0 r2 err : Fin N → α) (fuel : Nat)
    (hlt : (loop c fns v t2 p fuel (start c fns t1 x0 r2 err)).t < t2) :
    (loop c fns v t2 p fuel (start c fns t1 x0 r2 err)).old =
      (loop c fns v t2 p fuel (start c fns t1 x0 r2 err)).accepted := by
  have hinv := loop_inv c fns v t2 p (fun s => s.t < t2 → s.old = s.accepted)
    (by
      rintro s s' hlt' - hold hb
      rcases body_cases c fns v t2 p s with ⟨s1, -, hb'⟩ | ⟨s1, st, e2, hcl, hst, -, hb'⟩
      · rw [hb'] at hb; cases hb
      · rw [hb'] at hb
        cases hb
        obtain ⟨c1, c2, -, -, c5, -⟩ := clamp_next t2 _ _ hcl
        have hfr := stages_frame v p s1
        rw [← hst] at hfr
        obtain ⟨f1, -, f3, f4, -⟩ := hfr
        intro hlt2
        show (nextStepSize c fns t2 e2 (acceptReject t2 e2 st)).old =
          (nextStepSize c fns t2 e2 (acceptReject t2 e2 st)).accepted
        have hlt3 : (nextStepSize c fns t2 e2 (acceptReject t2 e2 st)).t < t2 := hlt2
        rcases attempt_cases c fns t2 e2 st with
          ⟨-, a1, -, -, a4, -, -, a7, -⟩ | ⟨-, -, -, -, b4, b5, -⟩
        · rw [a1] at hlt3
          rw [(a7 hlt3).1, a4]
        · rw [b4, b5, f3, f4, c2, c5]
          exact hold hlt')
    (by
      rintro s s' hlt' - hold hb
      obtain ⟨-, -, h3⟩ := (body_n c fns v t2 p s s').2 hb
      intro h
      rw [h3] at h
      exact absurd h (lt_irrefl _))
    fuel (start c fns t1 x0 r2 err) (fun _ => rfl)
  exact hinv hlt

/-- Instance of the amended C19: after one accepted step of size `1/4` towards
`t2 = 1`. -/
theorem old_is_last_accepted_before_t2_witness :
    (loop (constsW (1 / 4) 10) fnsW visitorW 1 0 1
        (start (constsW (1 / 4) 10) fnsW 0 (fun _ => 0) (fun _ => 0) (fun _ => 0))).old =
      (loop (constsW (1 / 4) 10) fnsW visitorW 1 0 1
        (start (constsW (1 / 4) 10) fnsW 0 (fun _ => 0) (fun _ => 0) (fun _ => 0))).accepted :=
  old_is_last_accepted_before_t2 (constsW (1 / 4) 10) fnsW visitorW 0 1 0 (fun _ => 0)
    (fun _ => 0) (fun _ => 0) 1
    (by norm_num [start, loop, body, clamp, stages, applyStage, setRegisters, commit1,
      commit2, errorNorm, acceptReject, nextStepSize, constsW, fnsW, visitorW])

/-- C20: given `h0 > 0`, `facl > 0` and `t1 < t2`, with `facr` the constant `10` it
is derived as, after any number of iterations of the loop (at the start of every
iteration, after every step-size update, and at loop exit) the step size `h` is
strictly positive whenever `t < t2`. -/
theorem step_size_positive (c : IntegratorConstants α) (fns : MathFns α) (v : Visitor α N)
    (t1 t2 : α) (p : Nat) (x0 r2 err : Fin N → α) (fuel : Nat) (h0 : 0 < c.h0)
    (hl : 0 < c.facl) (hfacr : c.facr = 10) (_ht : t1 < t2)
    (hlt : (loop c fns v t2 p fuel (start c fns t1 x0 r2 err)).t < t2) :
    0 < (loop c fns v t2 p fuel (start c fns t1 x0 r2 err)).h := by
  have hr : 0 < c.facr := by rw [hfacr]; norm_num
  have hinv := loop_inv c fns v t2 p (fun s => s.t < t2 → 0 < s.h)
    (by
      rintro s s' hlt' - hpos hb
      rcases body_cases c fns v t2 p s with ⟨s1, -, hb'⟩ | ⟨s1, st, e2, hcl, hst, -, hb'⟩
      · rw [hb'] at hb; cases hb
      · rw [hb'] at hb
        cases hb
        obtain ⟨c1, -, -, -, -, -, -, -, c9⟩ := clamp_next t2 _ _ hcl
        have hfr := stages_frame v p s1
        rw [← hst] at hfr
        obtain ⟨f1, f2, -⟩ := hfr
        have hs1 : 0 < st.h := by
          rw [f2]
          rcases c9 with h | ⟨-, h⟩
          · rw [h]; exact hpos hlt'
          · exact h
        intro hlt2
        show 0 < (nextStepSize c fns t2 e2 (acceptReject t2 e2 st)).h
        have hlt3 : (nextStepSize c fns t2 e2 (acceptReject t2 e2 st)).t < t2 := hlt2
        rcases attempt_cases c fns t2 e2 st with
          ⟨-, a1, -, -, -, -, -, a7, -⟩ | ⟨-, b1, -, -, -, -, -, -, b8, -⟩
        · rw [a1] at hlt3
          obtain ⟨-, fac, hh, hfac⟩ := a7 hlt3
          rw [hh]
          exact mul_pos hs1 (hfac hl hr)
        · rw [b1] at hlt3
          obtain ⟨fac, hh, hfac⟩ := b8 hlt3
          rw [hh]
          exact mul_pos hs1 (hfac hl))
    (by
      rintro s s' hlt' - hpos hb
      obtain ⟨-, -, h3⟩ := (body_n c fns v t2 p s s').2 hb
      intro h
      rw [h3] at h
      exact absurd h (lt_irrefl _))
    fuel (start c fns t1 x0 r2 err) (fun _ => h0)
  exact hinv hlt

/-- Instance of C20: `dx/dt = 1` from `0` towards `t2 = 1`, with the constants
derived from `h0 = 1/4`, after one accepted step. -/
theorem step_size_positive_witness :
    0 < (loop (constsDerived (1 / 4)) fnsW visitorW 1 0 1
      (start (constsDerived (1 / 4)) fnsW 0 (fun _ => 0) (fun _ => 0) (fun _ => 0))).h :=
  step_size_positive (constsDerived (1 / 4)) fnsW visitorW 0 1 0 (fun _ => 0)
    (fun _ => 0) (fun _ => 0) 1 (by norm_num [constsDerived, deriveConstants])
    (by norm_num [constsDerived, deriveConstants]) rfl (by norm_num)
    (by norm_num [start, loop, body, clamp, stages, applyStage, setRegisters, commit1,
      commit2, errorNorm, acceptReject, nextStepSize, constsDerived, deriveConstants, fnsW,
      visitorW])

end IntegratorLoop

/-! ## The integrator: the acceptance test and the step size -/

section IntegratorSteps

variable {α : Type} [LinearOrderedField α] {N : Nat}

/-- A running sum of non-negative terms is at least the initial value plus any one
of the terms. -/
theorem foldl_add_le {β : Type} (f : β → α) (hf : ∀ x, 0 ≤ f x) :
    ∀ (l : List β) (a : α),
      a ≤ l.foldl (fun e x => e + f x) a ∧
      ∀ x ∈ l, a + f x ≤ l.foldl (fun e x => e + f x) a := by
  intro l
  induction l with
  | nil => intro a; exact ⟨le_rfl, fun x hx => absurd hx (List.not_mem_nil x)⟩
  | cons y l ih =>
    intro a
    obtain ⟨h1, h2⟩ := ih (a + f y)
    refine ⟨le_trans (le_add_of_nonneg_right (hf y)) h1, fun x hx => ?_⟩
    rcases List.mem_cons.1 hx with rfl | hx1
    · exact h1
    · exact le_trans (by linarith [hf y]) (h2 x hx1)

/-- If the error norm is at most `1` then the square of every `err_i*h` is at most
`N` times the square of its tolerance `atoler + rtoler*max(|old_i|, |r1_i|)`. -/
theorem errorNorm_le_one_sq (c : IntegratorConstants α) (st : Loop α N) (hat : 0 < c.atoler)
    (hrt : 0 ≤ c.rtoler) (he : errorNorm c st ≤ 1) (i : Fin N) :
    (st.err i * st.h) ^ 2 ≤
      (c.atoler + c.rtoler * max |st.old i| |st.r1 i|) ^ 2 * (N : α) := by
  have hN : (0 : α) < (N : α) := by
    have : 0 < N := Fin.pos i
    exact_mod_cast this
  have hd : 0 < c.atoler + c.rtoler * max |st.old i| |st.r1 i| :=
    add_pos_of_pos_of_nonneg hat (mul_nonneg hrt (le_max_of_le_left (abs_nonneg _)))
  unfold errorNorm at he
  rw [div_le_one hN] at he
  have hterm := (foldl_add_le
    (fun id : Fin N => (st.err id * st.h / (c.atoler + c.rtoler * max |st.old id| |st.r1 id|)) *
      (st.err id * st.h / (c.atoler + c.rtoler * max |st.old id| |st.r1 id|)))
    (fun id => mul_self_nonneg _) (List.finRange N) 0).2 i (List.mem_finRange i)
  have h1 : (st.err i * st.h / (c.atoler + c.rtoler * max |st.old i| |st.r1 i|)) *
      (st.err i * st.h / (c.atoler + c.rtoler * max |st.old i| |st.r1 i|)) ≤ (N : α) := by
    have := le_trans hterm he
    simpa using this
  rw [div_mul_div_comm, div_le_iff₀ (mul_pos hd hd)] at h1
  calc (st.err i * st.h) ^ 2 = st.err i * st.h * (st.err i * st.h) := by ring
    _ ≤ (N : α) * ((c.atoler + c.rtoler * max |st.old i| |st.r1 i|) *
          (c.atoler + c.rtoler * max |st.old i| |st.r1 i|)) := h1
    _ = (c.atoler + c.rtoler * max |st.old i| |st.r1 i|) ^ 2 * (N : α) := by ring

/-- If the error norm is at most `1` then every `|err_i*h|` is at most its tolerance
times any non-negative `sN` whose square is at least `N`, such as the square root of
`N`. -/
theorem errorNorm_le_one_abs (c : IntegratorConstants α) (st : Loop α N) (hat : 0 < c.atoler)
    (hrt : 0 ≤ c.rtoler) (he : errorNorm c st ≤ 1) (i : Fin N) (sN : α) (hs : 0 ≤ sN)
    (hsN : (N : α) ≤ sN * sN) :
    |st.err i * st.h| ≤ (c.atoler + c.rtoler * max |st.old i| |st.r1 i|) * sN := by
  have hd : 0 < c.atoler + c.rtoler * max |st.old i| |st.r1 i| :=
    add_pos_of_pos_of_nonneg hat (mul_nonneg hrt (le_max_of_le_left (abs_nonneg _)))
  have hsq := errorNorm_le_one_sq c st hat hrt he i
  refine abs_le_of_sq_le_sq ?_ (mul_nonneg hd.le hs)
  calc (st.err i * st.h) ^ 2
      ≤ (c.atoler + c.rtoler * max |st.old i| |st.r1 i|) ^ 2 * (N : α) := hsq
    _ ≤ (c.atoler + c.rtoler * max |st.old i| |st.r1 i|) ^ 2 * (sN * sN) :=
        mul_le_mul_of_nonneg_left hsN (sq_nonneg _)
    _ = ((c.atoler + c.rtoler * max |st.old i| |st.r1 i|) * sN) ^ 2 := by ring

/-- The acceptance test counts a step as accepted exactly when `e2 ≤ 1`. -/
theorem acceptReject_accepts (t2 e2 : α) (st : Loop α N) :
    (acceptReject t2 e2 st).accepts = st.accepts + 1 ↔ e2 ≤ 1 := by
  unfold acceptReject
  split_ifs with h1 h2
  · exact ⟨fun _ => h1, fun _ => rfl⟩
  · exact ⟨fun _ => h1, fun _ => rfl⟩
  · exact ⟨fun h => absurd h (by simp), fun h => absurd h h1⟩

/-- Neither the acceptance test nor the step-size update touches `err`. -/
theorem attempt_err (c : IntegratorConstants α) (fns : MathFns α) (t2 e2 : α)
    (st : Loop α N) : (nextStepSize c fns t2 e2 (acceptReject t2 e2 st)).err = st.err := by
  unfold nextStepSize acceptReject
  split_ifs <;> rfl

/-- The step size after the acceptance test and the step-size update: an accepted
step that stays below `t2` multiplies `h` by `min(facr, max(facl, fac))`, a rejected
one below `t2` by `max(facl, exp(logsafe - expo*log(e2)))`. -/
theorem attempt_h (c : IntegratorConstants α) (fns : MathFns α) (t2 e2 : α) (st : Loop α N) :
    (e2 ≤ 1 → st.t + st.h < t2 →
      (nextStepSize c fns t2 e2 (acceptReject t2 e2 st)).h =
        st.h * min c.facr (max c.facl
          (fns.exp (c.beta * st.logfacold + c.logsafe - c.expo * fns.log e2)))) ∧
    (1 < e2 → st.t < t2 →
      (nextStepSize c fns t2 e2 (acceptReject t2 e2 st)).h =
        st.h * max c.facl (fns.exp (c.logsafe - c.expo * fns.log e2))) := by
  refine ⟨fun he ht => ?_, fun he ht => ?_⟩
  · have hng : ¬ e2 > 1 := not_lt.2 he
    simp [nextStepSize, acceptReject, he, ht, hng]
  · have hng : ¬ e2 ≤ 1 := not_le.2 he
    simp [nextStepSize, acceptReject, he, ht, hng]

/-- Once `t` is not below `t2` the loop does nothing more. -/
theorem loop_stop (c : IntegratorConstants α) (fns : MathFns α) (v : Visitor α N) (t2 : α)
    (p : Nat) (fuel : Nat) (s : Loop α N) (h : ¬ s.t < t2) : loop c fns v t2 p fuel s = s := by
  cases fuel with
  | zero => rfl
  | succ k =>
    unfold loop
    rw [if_neg (fun hc => h hc.1)]

/-- With `h0 > 0`, `facl > 0` and `facr > 0` the step size is positive after any
number of iterations of the loop, as long as `t < t2`. -/
theorem loop_h_pos (c : IntegratorConstants α) (fns : MathFns α) (v : Visitor α N)
    (t1 t2 : α) (p : Nat) (x0 r2 err : Fin N → α) (fuel : Nat) (h0 : 0 < c.h0)
    (hl : 0 < c.facl) (hr : 0 < c.facr)
    (hlt : (loop c fns v t2 p fuel (start c fns t1 x0 r2 err)).t < t2) :
    0 < (loop c fns v t2 p fuel (start c fns t1 x0 r2 err)).h := by
  have hinv := loop_inv c fns v t2 p (fun s => s.t < t2 → 0 < s.h)
    (by
      rintro s s1 hlt1 - hpos hb
      rcases body_cases c fns v t2 p s with ⟨s2, -, hb1⟩ | ⟨s2, st, e2, hcl, hst, -, hb1⟩
      · rw [hb1] at hb; cases hb
      · rw [hb1] at hb
        cases hb
        obtain ⟨c1, -, -, -, -, -, -, -, c9⟩ := clamp_next t2 _ _ hcl
        have hfr := stages_frame v p s2
        rw [← hst] at hfr
        obtain ⟨f1, f2, -⟩ := hfr
        have hs1 : 0 < st.h := by
          rw [f2]
          rcases c9 with h | ⟨-, h⟩
          · rw [h]; exact hpos hlt1
          · exact h
        intro hlt2
        show 0 < (nextStepSize c fns t2 e2 (acceptReject t2 e2 st)).h
        have hlt3 : (nextStepSize c fns t2 e2 (acceptReject t2 e2 st)).t < t2 := hlt2
        rcases attempt_cases c fns t2 e2 st with
          ⟨-, a1, -, -, -, -, -, a7, -⟩ | ⟨-, b1, -, -, -, -, -, -, b8, -⟩
        · rw [a1] at hlt3
          obtain ⟨-, fac, hh, hfac⟩ := a7 hlt3
          rw [hh]
          exact mul_pos hs1 (hfac hl hr)
        · rw [b1] at hlt3
          obtain ⟨fac, hh, hfac⟩ := b8 hlt3
          rw [hh]
          exact mul_pos hs1 (hfac hl))
    (by
      rintro s s1 hlt1 - hpos hb
      obtain ⟨-, -, h3⟩ := (body_n c fns v t2 p s s1).2 hb
      intro h
      rw [h3] at h
      exact absurd h (lt_irrefl _))
    fuel (start c fns t1 x0 r2 err) (fun _ => h0)
  exact hinv hlt

/-- C30: with `atoler > 0` and `rtoler ≥ 0`, the acceptance test counts the step as
accepted exactly when the weighted mean square `e2` is at most `1`, and then every
component satisfies `(err_i*h)^2 ≤ (atoler + rtoler*max(|old_i|, |r1_i|))^2 * N`, so
that `|err_i*h| ≤ (atoler + rtoler*max(|old_i|, |r1_i|)) * sN` for every `sN ≥ 0`
whose square is at least `N`, the square root of `N` among them. -/
theorem accepted_error_bound (c : IntegratorConstants α) (t2 : α) (st : Loop α N)
    (hat : 0 < c.atoler) (hrt : 0 ≤ c.rtoler) :
    ((acceptReject t2 (errorNorm c st) st).accepts = st.accepts + 1 ↔ errorNorm c st ≤ 1) ∧
    ((acceptReject t2 (errorNorm c st) st).accepts = st.accepts + 1 → ∀ i : Fin N,
      (st.err i * st.h) ^ 2 ≤
        (c.atoler + c.rtoler * max |st.old i| |st.r1 i|) ^ 2 * (N : α) ∧
      ∀ sN : α, 0 ≤ sN → (N : α) ≤ sN * sN →
        |st.err i * st.h| ≤ (c.atoler + c.rtoler * max |st.old i| |st.r1 i|) * sN) := by
  have hiff := acceptReject_accepts t2 (errorNorm c st) st
  exact ⟨hiff, fun hacc i => ⟨errorNorm_le_one_sq c st hat hrt (hiff.1 hacc) i,
    fun sN hs hsN => errorNorm_le_one_abs c st hat hrt (hiff.1 hacc) i sN hs hsN⟩⟩

/-- Instance of C30: one variable with `err = 1/2`, `h = 1` and `old = r1 = 0`, for
which `e2 = 1/4`. -/
theorem accepted_error_bound_witness :
    (1 / 2 * 1 : ℚ) ^ 2 ≤ (1 + 1 * max |(0 : ℚ)| |(0 : ℚ)|) ^ 2 * ((1 : Nat) : ℚ) ∧
      |(1 / 2 * 1 : ℚ)| ≤ (1 + 1 * max |(0 : ℚ)| |(0 : ℚ)|) * 1 :=
  ⟨((accepted_error_bound (constsW 1 10) 1
      (start (constsW 1 10) fnsW 0 (fun (_ : Fin 1) => 0) (fun _ => 0) (fun _ => 1 / 2))
      (by norm_num [constsW]) (by norm_num [constsW])).2
      (by norm_num [acceptReject, errorNorm, start, constsW, List.finRange_succ_eq_map]) 0).1,
   ((accepted_error_bound (constsW 1 10) 1
      (start (constsW 1 10) fnsW 0 (fun (_ : Fin 1) => 0) (fun _ => 0) (fun _ => 1 / 2))
      (by norm_num [constsW]) (by norm_num [constsW])).2
      (by norm_num [acceptReject, errorNorm, start, constsW, List.finRange_succ_eq_map]) 0).2
      1 (by norm_num) (by norm_num)⟩

/-- The bound of C30 over the real numbers, with the square root of `N`. -/
theorem real_error_bound_sqrt {M : Nat} (c : IntegratorConstants ℝ) (st : Loop ℝ M)
    (hat : 0 < c.atoler) (hrt : 0 ≤ c.rtoler) (he : errorNorm c st ≤ 1) (i : Fin M) :
    |st.err i * st.h| ≤
      (c.atoler + c.rtoler * max |st.old i| |st.r1 i|) * Real.sqrt (M : ℝ) :=
  errorNorm_le_one_abs c st hat hrt he i (Real.sqrt (M : ℝ)) (Real.sqrt_nonneg _)
    (le_of_eq (Real.mul_self_sqrt (Nat.cast_nonneg M)).symm)

/-- C21 fails as stated: integrating `dx/dt = 1` from `t1 = 0` to `t2 = 10` with
`h0 = 10` and tolerances `1`, starting at `-5`, the single step is accepted
(`e2 = 0`); `old` is `-5`, `r1` is `5`, so `|r1 - old| = 10`, and the bound
`(atoler + rtoler*max(|old|, |r1|)) * √1` is `6`. -/
theorem accepted_step_exceeds_tolerance :
    (integrate (constsW 10 10) fnsW visitorW 0 10 0 (fun _ => -5) (fun _ => 0)
        (fun _ => 0)).accepts = 1 ∧
      (integrate (constsW 10 10) fnsW visitorW 0 10 0 (fun _ => -5) (fun _ => 0)
        (fun _ => 0)).iters = 1 ∧
      (integrate (constsW 10 10) fnsW visitorW 0 10 0 (fun _ => -5) (fun _ => 0)
        (fun _ => 0)).old 0 = -5 ∧
      (integrate (constsW 10 10) fnsW visitorW 0 10 0 (fun _ => -5) (fun _ => 0)
        (fun _ => 0)).r1 0 = 5 ∧
      ¬ (|(integrate (constsW 10 10) fnsW visitorW 0 10 0 (fun _ => -5) (fun _ => 0)
            (fun _ => 0)).r1 0 -
          (integrate (constsW 10 10) fnsW visitorW 0 10 0 (fun _ => -5) (fun _ => 0)
            (fun _ => 0)).old 0| ≤
        ((constsW 10 10).atoler + (constsW 10 10).rtoler *
          max |(integrate (constsW 10 10) fnsW visitorW 0 10 0 (fun _ => -5) (fun _ => 0)
            (fun _ => 0)).old 0|
            |(integrate (constsW 10 10) fnsW visitorW 0 10 0 (fun _ => -5) (fun _ => 0)
            (fun _ => 0)).r1 0|) * 1) := by
  norm_num [integrate, start, loop, body, clamp, stages, applyStage, setRegisters, commit1,
    commit2, errorNorm, acceptReject, nextStepSize, constsW, fnsW, visitorW]

/-- C21 as amended: with `atoler > 0` and `rtoler ≥ 0`, in an iteration of the loop
whose step is accepted (`e2 ≤ 1`), every component satisfies
`|err_i*h| ≤ (atoler + rtoler*max(|old_i|, |r1_i|)) * sN` for every `sN ≥ 0` whose
square is at least `N`, where `old` is the state before the step, `r1` the state
after it, `err` the error estimate of the step and `h` the step size it used. -/
theorem accepted_step_error_within_tolerance (c : IntegratorConstants α) (fns : MathFns α)
    (v : Visitor α N) (t2 : α) (p : Nat) (s : Loop α N) (e2 : α) (hat : 0 < c.atoler)
    (hrt : 0 ≤ c.rtoler) (he : iterationE2 c v t2 p s = some e2) (hacc : e2 ≤ 1) :
    ∃ s1 s2, clamp t2 { s with iters := s.iters + 1 } = .next s1 ∧
      body c fns v t2 p s = .next s2 ∧ s2.accepts = s.accepts + 1 ∧
      ∀ i : Fin N, ∀ sN : α, 0 ≤ sN → (N : α) ≤ sN * sN →
        |s2.err i * s1.h| ≤ (c.atoler + c.rtoler * max |s.old i| |s2.r1 i|) * sN := by
  rcases body_cases c fns v t2 p s with ⟨s1, hcl, -⟩ | ⟨s1, st, e3, hcl, hst, he3, hb⟩
  · simp [iterationE2, hcl] at he
  · have hee : e3 = e2 := by
      simp only [iterationE2, hcl, Option.some.injEq] at he
      rw [he3, hst]
      exact he
    subst hee
    obtain ⟨-, c2, -, -, -, c6, -⟩ := clamp_next t2 _ _ hcl
    have hfr := stages_frame v p s1
    rw [← hst] at hfr
    obtain ⟨-, f2, f3, -, f5, -⟩ := hfr
    have herr := attempt_err c fns t2 e3 st
    rcases attempt_cases c fns t2 e3 st with ⟨-, -, a2, -, -, a5, -⟩ | ⟨hb1, -⟩
    · refine ⟨s1, _, hcl, hb, ?_, fun i sN hs hsN => ?_⟩
      · show (nextStepSize c fns t2 e3 (acceptReject t2 e3 st)).accepts = s.accepts + 1
        rw [a5, f5, c6]
      · show |(nextStepSize c fns t2 e3 (acceptReject t2 e3 st)).err i * s1.h| ≤
          (c.atoler + c.rtoler *
            max |s.old i| |(nextStepSize c fns t2 e3 (acceptReject t2 e3 st)).r1 i|) * sN
        rw [herr, a2, ← f2, ← c2, ← f3]
        exact errorNorm_le_one_abs c st hat hrt (by rw [← he3]; exact hacc) i sN hs hsN
    · exact absurd hb1 (not_lt.2 hacc)

/-- Instance of the amended C21: the first iteration of `dx/dt = 1` from `0` towards
`t2 = 1` with `h0 = 1/4`. -/
theorem accepted_step_error_within_tolerance_witness :
    ∃ s1 s2, clamp 1 { start (constsW (1 / 4) 10) fnsW 0 (fun (_ : Fin 1) => 0) (fun _ => 0)
          (fun _ => 0) with iters := 0 + 1 } = .next s1 ∧
      body (constsW (1 / 4) 10) fnsW visitorW 1 0
        (start (constsW (1 / 4) 10) fnsW 0 (fun (_ : Fin 1) => 0) (fun _ => 0) (fun _ => 0))
          = .next s2 ∧
      s2.accepts = 0 + 1 ∧
      ∀ i : Fin 1, ∀ sN : ℚ, 0 ≤ sN → ((1 : Nat) : ℚ) ≤ sN * sN →
        |s2.err i * s1.h| ≤ ((constsW (1 / 4) 10).atoler + (constsW (1 / 4) 10).rtoler *
          max |(0 : ℚ)| |s2.r1 i|) * sN :=
  accepted_step_error_within_tolerance (constsW (1 / 4) 10) fnsW visitorW 1 0
    (start (constsW (1 / 4) 10) fnsW 0 (fun (_ : Fin 1) => 0) (fun _ => 0) (fun _ => 0)) 0
    (by norm_num [constsW]) (by norm_num [constsW])
    (by norm_num [iterationE2, clamp, start, constsW, errorNorm, stages, applyStage,
      setRegisters, commit1, commit2, visitorW, List.finRange_succ_eq_map])
    (by norm_num)

/-- When `t < t2` and `t + 1.01*h > t2`, the clamp sets `h` to `t2 - t` and the
iteration goes on. -/
theorem clamp_sets (t2 : α) (s : Loop α N) (hgap : s.t + 101 / 100 * s.h - t2 > 0)
    (ht : s.t < t2) : clamp t2 s = .next { s with h := t2 - s.t } := by
  unfold clamp
  rw [if_pos hgap, if_neg (not_le.2 (sub_pos.2 ht))]

/-- C22 fails as stated: with `t1 = 0 < t2 = 1` and `h0 = 1`, so that
`t1 + 1.01*h0 > t2`, and a step that is rejected, the first iteration ends with
`t = 0` and one attempt of ten counted, and after all ten attempts `t` is still
`0`. -/
theorem clamped_first_step_rejected :
    (0 : ℚ) + 101 / 100 * (constsW 1 10).h0 - 1 > 0 ∧
      (loop (constsW 1 10) fnsW visitorReject 1 0 1
        (start (constsW 1 10) fnsW 0 (fun _ => 7) (fun _ => 0) (fun _ => 0))).t = 0 ∧
      (loop (constsW 1 10) fnsW visitorReject 1 0 1
        (start (constsW 1 10) fnsW 0 (fun _ => 7) (fun _ => 0) (fun _ => 0))).n = 1 ∧
      (integrate (constsW 1 10) fnsW visitorReject 0 1 0 (fun _ => 7) (fun _ => 0)
        (fun _ => 0)).t = 0 := by
  norm_num [integrate, start, loop, body, clamp, stages, applyStage, setRegisters, commit1,
    commit2, errorNorm, acceptReject, nextStepSize, constsW, fnsW, visitorReject,
    List.finRange_succ_eq_map]

/-- C22 as amended: for `t1 < t2` with `t1 + 1.01*h0 > t2` and `h_nsteps ≥ 1`, the
clamp of the first iteration sets `h` to `t2 - t1` and does not leave the loop; if
the step is accepted (`e2 ≤ 1`) the loop ends after this one iteration with
`t = t2`; if it is rejected, the iteration ends with `t = t1`. -/
theorem first_step_clamped (c : IntegratorConstants α) (fns : MathFns α) (v : Visitor α N)
    (t1 t2 : α) (p : Nat) (x0 r2 err : Fin N → α) (ht : t1 < t2)
    (hgap : t1 + 101 / 100 * c.h0 - t2 > 0) (hn : 0 < c.nsteps) :
    ∃ s1, clamp t2 { start c fns t1 x0 r2 err with
          iters := (start c fns t1 x0 r2 err).iters + 1 } = .next s1 ∧
      s1.t = t1 ∧ s1.h = t2 - t1 ∧
      (errorNorm c (stages v p s1) ≤ 1 →
        (integrate c fns v t1 t2 p x0 r2 err).t = t2 ∧
        (integrate c fns v t1 t2 p x0 r2 err).iters = 1 ∧
        (integrate c fns v t1 t2 p x0 r2 err).accepts = 1) ∧
      (1 < errorNorm c (stages v p s1) →
        ∃ s2, body c fns v t2 p (start c fns t1 x0 r2 err) = .next s2 ∧ s2.t = t1 ∧
          s2.n = 1) := by
  have hcl := clamp_sets t2 { start c fns t1 x0 r2 err with
    iters := (start c fns t1 x0 r2 err).iters + 1 } hgap ht
  rcases body_cases c fns v t2 p (start c fns t1 x0 r2 err) with
    ⟨s1, hcl1, -⟩ | ⟨s1, st, e2, hcl1, hst, he2, hb⟩
  · rw [hcl] at hcl1; cases hcl1
  · have hs1 : s1 = { start c fns t1 x0 r2 err with
        iters := (start c fns t1 x0 r2 err).iters + 1, h := t2 - t1 } := by
      rw [hcl] at hcl1
      exact (Flow.next.inj hcl1).symm
    have g1 : s1.t = t1 := by subst hs1; rfl
    have g2 : s1.h = t2 - t1 := by subst hs1; rfl
    have g5 : s1.accepts = 0 := by subst hs1; rfl
    have g7 : s1.iters = 1 := by subst hs1; rfl
    have hfr := stages_frame v p s1
    rw [← hst] at hfr
    obtain ⟨f1, f2, -, -, f5, -, f7, -⟩ := hfr
    have f1a : st.t = t1 := by rw [f1, g1]
    have f2a : st.h = t2 - t1 := by rw [f2, g2]
    have f5a : st.accepts = 0 := by rw [f5, g5]
    have f7a : st.iters = 1 := by rw [f7, g7]
    refine ⟨s1, hcl1, g1, g2, fun hacc => ?_, fun hrej => ?_⟩
    · rw [← hst, ← he2] at hacc
      obtain ⟨k, hk⟩ : ∃ k, c.nsteps.toNat = k + 1 := ⟨c.nsteps.toNat - 1, by omega⟩
      have hint : integrate c fns v t1 t2 p x0 r2 err =
          { nextStepSize c fns t2 e2 (acceptReject t2 e2 st) with
            n := (start c fns t1 x0 r2 err).n + 1 } := by
        unfold integrate
        rw [hk]
        unfold loop
        rw [if_pos ⟨ht, by simpa [start] using hn⟩, hb]
        simp only []
        apply loop_stop
        show ¬ (nextStepSize c fns t2 e2 (acceptReject t2 e2 st)).t < t2
        rcases attempt_cases c fns t2 e2 st with ⟨-, a1, -⟩ | ⟨b0, -⟩
        · rw [a1, f1a, f2a]
          simp
        · exact absurd b0 (not_lt.2 hacc)
      rw [hint]
      rcases attempt_cases c fns t2 e2 st with ⟨-, a1, -, -, -, a5, a6, -⟩ | ⟨b0, -⟩
      · refine ⟨?_, ?_, ?_⟩
        · show (nextStepSize c fns t2 e2 (acceptReject t2 e2 st)).t = t2
          rw [a1, f1a, f2a]
          ring
        · show (nextStepSize c fns t2 e2 (acceptReject t2 e2 st)).iters = 1
          rw [a6, f7a]
        · show (nextStepSize c fns t2 e2 (acceptReject t2 e2 st)).accepts = 1
          rw [a5, f5a]
      · exact absurd b0 (not_lt.2 hacc)
    · rw [← hst, ← he2] at hrej
      refine ⟨_, hb, ?_, rfl⟩
      show (nextStepSize c fns t2 e2 (acceptReject t2 e2 st)).t = t1
      rcases attempt_cases c fns t2 e2 st with ⟨a0, -⟩ | ⟨-, b1, -⟩
      · exact absurd hrej (not_lt.2 a0)
      · rw [b1, f1a]

/-- Instance of the amended C22: `dx/dt = 1` from `t1 = 0` to `t2 = 1/2` with
`h0 = 1`. -/
theorem first_step_clamped_witness :
    ∃ s1, clamp (1 / 2) { start (constsW 1 10) fnsW 0 (fun (_ : Fin 1) => 0) (fun _ => 0)
          (fun _ => 0) with
          iters := (start (constsW 1 10) fnsW 0 (fun (_ : Fin 1) => 0) (fun _ => 0)
            (fun _ => 0)).iters + 1 } = .next s1 ∧
      s1.t = 0 ∧ s1.h = 1 / 2 - 0 ∧
      (errorNorm (constsW 1 10) (stages visitorW 0 s1) ≤ 1 →
        (integrate (constsW 1 10) fnsW visitorW 0 (1 / 2) 0 (fun _ => 0) (fun _ => 0)
          (fun _ => 0)).t = 1 / 2 ∧
        (integrate (constsW 1 10) fnsW visitorW 0 (1 / 2) 0 (fun _ => 0) (fun _ => 0)
          (fun _ => 0)).iters = 1 ∧
        (integrate (constsW 1 10) fnsW visitorW 0 (1 / 2) 0 (fun _ => 0) (fun _ => 0)
          (fun _ => 0)).accepts = 1) ∧
      (1 < errorNorm (constsW 1 10) (stages visitorW 0 s1) →
        ∃ s2, body (constsW 1 10) fnsW visitorW (1 / 2) 0
            (start (constsW 1 10) fnsW 0 (fun _ => 0) (fun _ => 0) (fun _ => 0)) = .next s2 ∧
          s2.t = 0 ∧ s2.n = 1) :=
  first_step_clamped (constsW 1 10) fnsW visitorW 0 (1 / 2) 0 (fun _ => 0) (fun _ => 0)
    (fun _ => 0) (by norm_num) (by norm_num [constsW]) (by norm_num [constsW])

/-- C23: given `0 < facl < 1 ≤ facr`, `expo > 0`, `logsafe < 0` and `h0 > 0`, with
`log` positive above `1` and `exp` below `1` on negative arguments, every iteration
of the loop begun with `t < t2` attempts a step of size `h > 0` and updates the step
size within bounds: after an accepted step with `t < t2` the new step size `h1`
satisfies `facl*h ≤ h1 ≤ facr*h`, and after a rejected step it satisfies
`facl*h ≤ h1 < h`. -/
theorem step_size_update_bounded (c : IntegratorConstants α) (fns : MathFns α)
    (v : Visitor α N) (t1 t2 : α) (p : Nat) (x0 r2 err : Fin N → α) (fuel : Nat)
    (h0 : 0 < c.h0) (hl : 0 < c.facl) (hl1 : c.facl < 1) (hr : 1 ≤ c.facr)
    (hexpo : 0 < c.expo) (hsafe : c.logsafe < 0) (hlog : ∀ x, 1 < x → 0 < fns.log x)
    (hexp : ∀ y, y < 0 → fns.exp y < 1)
    (hlt : (loop c fns v t2 p fuel (start c fns t1 x0 r2 err)).t < t2) :
    ∃ s1 s2,
      clamp t2 { loop c fns v t2 p fuel (start c fns t1 x0 r2 err) with
        iters := (loop c fns v t2 p fuel (start c fns t1 x0 r2 err)).iters + 1 } = .next s1 ∧
      body c fns v t2 p (loop c fns v t2 p fuel (start c fns t1 x0 r2 err)) = .next s2 ∧
      0 < s1.h ∧
      (errorNorm c (stages v p s1) ≤ 1 → s2.t < t2 →
        c.facl * s1.h ≤ s2.h ∧ s2.h ≤ c.facr * s1.h) ∧
      (1 < errorNorm c (stages v p s1) → c.facl * s1.h ≤ s2.h ∧ s2.h < s1.h) := by
  have hpos := loop_h_pos c fns v t1 t2 p x0 r2 err fuel h0 hl (lt_of_lt_of_le one_pos hr) hlt
  generalize loop c fns v t2 p fuel (start c fns t1 x0 r2 err) = s at hlt hpos ⊢
  rcases body_cases c fns v t2 p s with ⟨s1, hcl, -⟩ | ⟨s1, st, e2, hcl, hst, he2, hb⟩
  · obtain ⟨ht, -⟩ := clamp_exit t2 _ _ hcl
    exfalso
    unfold clamp at hcl
    split_ifs at hcl with h1 h2
    exact absurd (sub_pos.2 hlt) (not_lt.2 h2)
  · obtain ⟨c1, -, -, -, -, -, -, -, c9⟩ := clamp_next t2 _ _ hcl
    have hfr := stages_frame v p s1
    rw [← hst] at hfr
    obtain ⟨f1, f2, -⟩ := hfr
    have hs1 : 0 < s1.h := by
      rcases c9 with h | ⟨-, h⟩
      · rw [h]; exact hpos
      · exact h
    have hst1 : 0 < st.h := by rw [f2]; exact hs1
    obtain ⟨hacc, hrej⟩ := attempt_h c fns t2 e2 st
    refine ⟨s1, _, hcl, hb, hs1, fun he hlt2 => ?_, fun he => ?_⟩
    · rw [← hst, ← he2] at he
      have hlt3 : (nextStepSize c fns t2 e2 (acceptReject t2 e2 st)).t < t2 := hlt2
      have hadv : st.t + st.h < t2 := by
        rcases attempt_cases c fns t2 e2 st with ⟨-, a1, -⟩ | ⟨b0, -⟩
        · rw [a1] at hlt3; exact hlt3
        · exact absurd b0 (not_lt.2 he)
      show c.facl * s1.h ≤ (nextStepSize c fns t2 e2 (acceptReject t2 e2 st)).h ∧
        (nextStepSize c fns t2 e2 (acceptReject t2 e2 st)).h ≤ c.facr * s1.h
      rw [hacc he hadv, f2]
      constructor
      · rw [mul_comm]
        exact mul_le_mul_of_nonneg_left
          (le_min (le_trans hl1.le hr) (le_max_left _ _)) hs1.le
      · rw [mul_comm c.facr]
        exact mul_le_mul_of_nonneg_left (min_le_left _ _) hs1.le
    · rw [← hst, ← he2] at he
      have hlt3 : st.t < t2 := by
        rw [f1, c1]
        exact hlt
      show c.facl * s1.h ≤ (nextStepSize c fns t2 e2 (acceptReject t2 e2 st)).h ∧
        (nextStepSize c fns t2 e2 (acceptReject t2 e2 st)).h < s1.h
      rw [hrej he hlt3, f2]
      constructor
      · rw [mul_comm]
        exact mul_le_mul_of_nonneg_left (le_max_left _ _) hs1.le
      · have harg : c.logsafe - c.expo * fns.log e2 < 0 := by
          have := mul_pos hexpo (hlog e2 he)
          linarith
        have hm : max c.facl (fns.exp (c.logsafe - c.expo * fns.log e2)) < 1 :=
          max_lt hl1 (hexp _ harg)
        calc s1.h * max c.facl (fns.exp (c.logsafe - c.expo * fns.log e2))
            < s1.h * 1 := mul_lt_mul_of_pos_left hm hs1
          _ = s1.h := mul_one _

/-- Instance of C23: the first iteration of `dx/dt = 1` from `0` towards `t2 = 1`
with `h0 = 1/4`, `facl = 1/5`, `facr = 10`, `expo = 1/5` and `logsafe = -1/10`. -/
theorem step_size_update_bounded_witness :
    ∃ s1 s2,
      clamp 1 { loop (constsSafe (1 / 4)) fnsMono visitorW 1 0 0
          (start (constsSafe (1 / 4)) fnsMono 0 (fun _ => 0) (fun _ => 0) (fun _ => 0)) with
        iters := (loop (constsSafe (1 / 4)) fnsMono visitorW 1 0 0
          (start (constsSafe (1 / 4)) fnsMono 0 (fun _ => 0) (fun _ => 0)
            (fun _ => 0))).iters + 1 } = .next s1 ∧
      body (constsSafe (1 / 4)) fnsMono visitorW 1 0
        (loop (constsSafe (1 / 4)) fnsMono visitorW 1 0 0
          (start (constsSafe (1 / 4)) fnsMono 0 (fun _ => 0) (fun _ => 0) (fun _ => 0)))
        = .next s2 ∧
      0 < s1.h ∧
      (errorNorm (constsSafe (1 / 4)) (stages visitorW 0 s1) ≤ 1 → s2.t < 1 →
        (constsSafe (1 / 4)).facl * s1.h ≤ s2.h ∧ s2.h ≤ (constsSafe (1 / 4)).facr * s1.h) ∧
      (1 < errorNorm (constsSafe (1 / 4)) (stages visitorW 0 s1) →
        (constsSafe (1 / 4)).facl * s1.h ≤ s2.h ∧ s2.h < s1.h) :=
  step_size_update_bounded (constsSafe (1 / 4)) fnsMono visitorW 0 1 0 (fun _ => 0)
    (fun _ => 0) (fun _ => 0) 0 (by norm_num [constsSafe]) (by norm_num [constsSafe])
    (by norm_num [constsSafe]) (by norm_num [constsSafe]) (by norm_num [constsSafe])
    (by norm_num [constsSafe])
    (by intro x hx; simp only [fnsMono]; linarith)
    (by intro y hy; simp only [fnsMono, if_pos hy]; norm_num)
    (by norm_num [loop, start])

end IntegratorSteps

/-! ## Host matrices: `same`, `swap`, `resize` on a view, the leading dimension -/

section MatrixBasics

variable {T : Type}

/-- C27: for host matrix handles `A` and `B` of the same value type, `A.same(B)` is
true if and only if they have the same buffer pointer, the same number of rows, the
same number of columns and the same leading dimension; `same` is reflexive and
symmetric. -/
theorem same_iff (A B : host_matrix_handle) :
    (A.same true false B = true ↔
      A.ptr = B.ptr ∧ A.rows = B.rows ∧ A.cols = B.cols ∧ A.ld = B.ld) ∧
    A.same true false A = true ∧
    A.same true false B = B.same true false A := by
  refine ⟨?_, ?_, ?_⟩
  · simp [host_matrix_handle.same, host_matrix_handle.buf, host_matrix_handle.size1,
      host_matrix_handle.size2, host_matrix_handle.lead, and_assoc]
  · simp [host_matrix_handle.same]
  · simp only [host_matrix_handle.same, host_matrix_handle.buf, host_matrix_handle.size1,
      host_matrix_handle.size2, host_matrix_handle.lead]
    rw [Bool.eq_iff_iff]
    simp only [Bool.and_eq_true, beq_iff_eq]
    constructor <;> rintro ⟨⟨⟨⟨h0, h1⟩, h2⟩, h3⟩, h4⟩ <;>
      exact ⟨⟨⟨⟨h0, h1.symm⟩, h2.symm⟩, h3.symm⟩, h4.symm⟩

/-- C29: `A.swap(B)` exchanges the pointer, rows, cols, leading dimension and
ownership flag of `A` and `B` and leaves memory as it is, so that each matrix
afterwards reads what the other read before; swapping twice restores both. -/
theorem swap_exchanges (A B : host_matrix) (heap : Heap T) :
    A.swap B heap = (B, A, heap) ∧
    (∀ i j, (A.swap B heap).1.get (A.swap B heap).2.2 i j = B.get heap i j) ∧
    (∀ i j, (A.swap B heap).2.1.get (A.swap B heap).2.2 i j = A.get heap i j) ∧
    (A.swap B heap).1.swap (A.swap B heap).2.1 (A.swap B heap).2.2 = (A, B, heap) :=
  ⟨rfl, fun _ _ => rfl, fun _ _ => rfl, rfl⟩

end MatrixBasics

/-! ## Host matrices: `resize` on a view -/

section MatrixResizeView

variable {T : Type}

/-- C24 fails as stated: `matView` is the view the copy constructor makes of
`matOwner`, a `2 × 3` matrix, and `resize(2, 3, true)` on it returns normally and
leaves the view and memory as they are. -/
theorem resize_view_same_shape_returns :
    host_matrix.copy matOwner = .ok matView ∧ matView.own = false ∧
      matView.resize 500 2 3 true heapW = .ok (matView, heapW) :=
  ⟨rfl, rfl, rfl⟩

/-- C24 as amended: for a matrix with `own = false`, `resize(rows, cols, preserve)`
to a shape other than the one it has fails with the resize-forbidden error and
leaves its pointer, shape, leading dimension and flag unchanged; to the shape it
has, it returns normally and changes neither the matrix nor memory. -/
theorem resize_view_forbidden (A : host_matrix) (fresh rows cols : Int) (preserve : Bool)
    (heap : Heap T) (hown : A.own = false) :
    (rows ≠ A.size1 ∨ cols ≠ A.size2 →
      A.resize fresh rows cols preserve heap = .error (.resizeForbidden, A)) ∧
    (rows = A.size1 ∧ cols = A.size2 →
      A.resize fresh rows cols preserve heap = .ok (A, heap)) := by
  refine ⟨fun h => ?_, fun h => ?_⟩
  · unfold host_matrix.resize
    rw [if_pos h, hown]
    rfl
  · unfold host_matrix.resize
    rw [if_neg (by rw [not_or, not_not, not_not]; exact h)]

/-- Instance of the amended C24: the view of a `2 × 3` matrix, resized to `3 × 3`
and to `2 × 3`. -/
theorem resize_view_forbidden_witness :
    matView.resize 500 3 3 true heapW = .error (.resizeForbidden, matView) ∧
      matView.resize 500 2 3 false heapW = .ok (matView, heapW) :=
  ⟨(resize_view_forbidden matView 500 3 3 true heapW rfl).1 (Or.inl (by decide)),
   (resize_view_forbidden matView 500 2 3 false heapW rfl).2 ⟨rfl, rfl⟩⟩

end MatrixResizeView
/-! ## Host matrices: element copies -/

section MatrixCopies

variable {T : Type}

/-- Copying one list of pairs after another is copying their concatenation. -/
theorem copyElems_append (heap : Heap T) (l1 l2 : List (Int × Int)) :
    copyElems heap (l1 ++ l2) = copyElems (copyElems heap l1) l2 := by
  unfold copyElems
  rw [List.foldl_append]

/-- A loop of element copies is the element copies of the concatenated lists. -/
theorem copyElems_flatMap {β : Type} (f : β → List (Int × Int)) :
    ∀ (l : List β) (heap : Heap T),
      l.foldl (fun h x => copyElems h (f x)) heap = copyElems heap (l.flatMap f) := by
  intro l
  induction l with
  | nil => intro heap; rfl
  | cons x l ih =>
    intro heap
    rw [List.foldl_cons, ih, List.flatMap_cons, copyElems_append]

/-- Element copies whose sources are never written and whose destinations determine
their sources: every address that is not a destination keeps its value, and every
destination ends with the initial value of its source. -/
theorem copyElems_apply :
    ∀ (L : List (Int × Int)) (heap : Heap T),
      (∀ p ∈ L, ∀ q ∈ L, p.2 ≠ q.1) → (∀ p ∈ L, ∀ q ∈ L, p.1 = q.1 → p.2 = q.2) →
      (∀ a, (∀ p ∈ L, p.1 ≠ a) → copyElems heap L a = heap a) ∧
      (∀ p ∈ L, copyElems heap L p.1 = heap p.2) := by
  intro L
  induction L with
  | nil =>
    intro heap _ _
    exact ⟨fun a _ => rfl, fun p hp => absurd hp (List.not_mem_nil p)⟩
  | cons p L ih =>
    intro heap hsd hinj
    have hstep : copyElems heap (p :: L) = copyElems (Function.update heap p.1 (heap p.2)) L :=
      rfl
    obtain ⟨ih1, ih2⟩ := ih (Function.update heap p.1 (heap p.2))
      (fun a ha b hb => hsd a (List.mem_cons_of_mem _ ha) b (List.mem_cons_of_mem _ hb))
      (fun a ha b hb => hinj a (List.mem_cons_of_mem _ ha) b (List.mem_cons_of_mem _ hb))
    have hsrc : ∀ q ∈ p :: L, Function.update heap p.1 (heap p.2) q.2 = heap q.2 := fun q hq =>
      Function.update_noteq (hsd q hq p (List.mem_cons_self _ _)) _ _
    have hin : ∀ q ∈ L, copyElems heap (p :: L) q.1 = heap q.2 := fun q hq => by
      rw [hstep, ih2 q hq, hsrc q (List.mem_cons_of_mem _ hq)]
    refine ⟨fun a ha => ?_, fun q hq => ?_⟩
    · rw [hstep, ih1 a (fun q hq => ha q (List.mem_cons_of_mem _ hq))]
      exact Function.update_noteq (fun h => ha p (List.mem_cons_self _ _) h.symm) _ _
    · rcases List.mem_cons.1 hq with rfl | hq'
      · by_cases hex : ∃ r ∈ L, r.1 = q.1
        · obtain ⟨r, hr, hrq⟩ := hex
          rw [← hrq, hin r hr,
            hinj r (List.mem_cons_of_mem _ hr) q (List.mem_cons_self _ _) hrq]
        · rw [hstep, ih1 q.1 (fun r hr h => hex ⟨r, hr, h⟩)]
          exact Function.update_same _ _ _
      · exact hin q hq'

/-- Column-major offsets `j*ld + i` with `0 ≤ i < ld` determine `i` and `j`. -/
theorem offset_inj (ld i j i1 j1 : Int) (hi : 0 ≤ i) (hi1 : 0 ≤ i1) (h1 : i < ld)
    (h2 : i1 < ld) (h : j * ld + i = j1 * ld + i1) : i = i1 ∧ j = j1 := by
  have hj : j = j1 := by
    rcases lt_trichotomy j j1 with hlt | heq | hgt
    · exfalso; nlinarith
    · exact heq
    · exfalso; nlinarith
  subst hj
  exact ⟨by linarith, rfl⟩

/-- Column-major offsets of the elements of a `rows × cols` matrix with leading
dimension `ld ≥ rows` lie in `[0, ld*cols)`. -/
theorem offset_range (ld rows cols i j : Int) (hi : 0 ≤ i) (hi1 : i < rows) (hr : rows ≤ ld)
    (hj : 0 ≤ j) (hj1 : j < cols) : 0 ≤ j * ld + i ∧ j * ld + i < ld * cols := by
  constructor
  · nlinarith
  · nlinarith

/-- A monadic fold whose steps all succeed is the plain fold. -/
theorem foldlM_ok {β γ ε : Type} (f : β → γ → Except ε β) (g : β → γ → β) :
    ∀ (l : List γ) (b : β), (∀ x ∈ l, ∀ b1, f b1 x = .ok (g b1 x)) →
      l.foldlM f b = .ok (l.foldl g b) := by
  intro l
  induction l with
  | nil => intro b _; rfl
  | cons x l ih =>
    intro b h
    rw [List.foldlM_cons, h x (List.mem_cons_self _ _) b]
    exact ih (g b x) (fun y hy b1 => h y (List.mem_cons_of_mem _ hy) b1)

/-- The copy loop of `resize` never fails: every element it reads is within the
matrix, and it performs the element copies `preservePairs`. -/
theorem preserveLoop_ok (A : host_matrix_handle) (ptr rows cols : Int) (heap : Heap T) :
    preserveLoop A ptr rows cols heap = .ok (copyElems heap (preservePairs A ptr rows cols)) := by
  unfold preserveLoop preservePairs
  rw [foldlM_ok _ (fun h (j : Nat) => copyElems h ((List.range (min A.rows rows).toNat).map
    (fun (i : Nat) => (ptr + ((j : Int) * rows + (i : Int)), A.addr (i : Int) (j : Int)))))]
  · rw [copyElems_flatMap]
  · intro j hj b1
    rw [foldlM_ok _ (fun h (i : Nat) =>
      Function.update h (ptr + ((j : Int) * rows + (i : Int))) (h (A.addr (i : Int) (j : Int))))]
    · unfold copyElems
      rw [List.foldl_map]
    · intro i hi b2
      have hj1 := List.mem_range.1 hj
      have hi1 := List.mem_range.1 hi
      unfold host_matrix_handle.get host_matrix_handle.size1 host_matrix_handle.size2
      rw [if_pos (by omega)]

/-- The element copies of `memcpy(dst, src, n)`: offsets `0 ≤ k < n`. -/
theorem mem_memcpyPairs (dst src n : Int) (p : Int × Int) :
    p ∈ memcpyPairs dst src n ↔ ∃ k : Int, 0 ≤ k ∧ k < n ∧ p = (dst + k, src + k) := by
  unfold memcpyPairs
  rw [List.mem_map]
  constructor
  · rintro ⟨k, hk, rfl⟩
    have hk1 := List.mem_range.1 hk
    exact ⟨(k : Int), by omega, by omega, rfl⟩
  · rintro ⟨k, h0, h1, rfl⟩
    refine ⟨k.toNat, List.mem_range.2 (by omega), ?_⟩
    rw [Int.toNat_of_nonneg h0]

/-- The element copies of the column loop: one for each element of the matrix. -/
theorem mem_assignPairs (A o : host_matrix_handle) (p : Int × Int) :
    p ∈ assignPairs A o ↔
      ∃ i j : Int, 0 ≤ i ∧ i < A.rows ∧ 0 ≤ j ∧ j < A.cols ∧ p = (A.addr i j, o.addr i j) := by
  unfold assignPairs columnPairs host_matrix_handle.size1 host_matrix_handle.size2
  rw [List.mem_flatMap]
  constructor
  · rintro ⟨j, hj, hp⟩
    obtain ⟨i, hi, rfl⟩ := List.mem_map.1 hp
    have hj1 := List.mem_range.1 hj
    have hi1 := List.mem_range.1 hi
    exact ⟨(i : Int), (j : Int), by omega, by omega, by omega, by omega, rfl⟩
  · rintro ⟨i, j, hi0, hi1, hj0, hj1, rfl⟩
    refine ⟨j.toNat, List.mem_range.2 (by omega), List.mem_map.2
      ⟨i.toNat, List.mem_range.2 (by omega), ?_⟩⟩
    rw [Int.toNat_of_nonneg hi0, Int.toNat_of_nonneg hj0]

/-- The element copies of the copy loop of `resize`: one for each element of the
overlap of the old and the new shape. -/
theorem mem_preservePairs (A : host_matrix_handle) (ptr rows cols : Int) (p : Int × Int) :
    p ∈ preservePairs A ptr rows cols ↔
      ∃ i j : Int, 0 ≤ i ∧ i < min A.rows rows ∧ 0 ≤ j ∧ j < min A.cols cols ∧
        p = (ptr + (j * rows + i), A.addr i j) := by
  unfold preservePairs
  rw [List.mem_flatMap]
  constructor
  · rintro ⟨j, hj, hp⟩
    obtain ⟨i, hi, rfl⟩ := List.mem_map.1 hp
    have hj1 := List.mem_range.1 hj
    have hi1 := List.mem_range.1 hi
    exact ⟨(i : Int), (j : Int), by omega, by omega, by omega, by omega, rfl⟩
  · rintro ⟨i, j, hi0, hi1, hj0, hj1, rfl⟩
    refine ⟨j.toNat, List.mem_range.2 (by omega), List.mem_map.2
      ⟨i.toNat, List.mem_range.2 (by omega), ?_⟩⟩
    rw [Int.toNat_of_nonneg hi0, Int.toNat_of_nonneg hj0]

/-- The column loop of `operator=` performs the element copies `assignPairs`. -/
theorem assignColumns_eq (heap : Heap T) (A o : host_matrix_handle) :
    assignColumns heap A o = copyElems heap (assignPairs A o) := by
  unfold assignColumns assignPairs
  rw [copyElems_flatMap]

/-- The memory after `A = B` for references of equal shape with leading dimensions
at least the number of rows and buffers that do not overlap: whichever way the
elements are copied, every element of `A` holds what the element of `B` held, and
nothing outside the buffer of `A` is written. -/
theorem assign_run (A B : host_matrix_handle) (heap : Heap T)
    (hshape : B.size1 = A.size1 ∧ B.size2 = A.size2) (hldA : A.rows ≤ A.ld)
    (hldB : B.rows ≤ B.ld) (hptr : A.ptr ≠ B.ptr)
    (hdisj : ∀ a b : Int, 0 ≤ a → a < A.ld * A.cols → 0 ≤ b → b < B.ld * B.cols →
      A.ptr + a ≠ B.ptr + b) :
    ∃ heap1, A.assign B heap = .ok (A, heap1) ∧
      (∀ i j : Int, 0 ≤ i → i < A.rows → 0 ≤ j → j < A.cols →
        heap1 (A.addr i j) = heap (B.addr i j)) ∧
      (∀ a : Int, (∀ k : Int, 0 ≤ k → k < A.ld * A.cols → A.ptr + k ≠ a) →
        heap1 a = heap a) := by
  obtain ⟨hr, hc⟩ := hshape
  have hr1 : B.rows = A.rows := hr
  have hc1 : B.cols = A.cols := hc
  have hsame : A.same true false B = false := by
    simp [host_matrix_handle.same, host_matrix_handle.buf, hptr]
  unfold host_matrix_handle.assign
  rw [if_pos ⟨hr, hc⟩, hsame]
  simp only [Bool.not_false, if_true]
  split_ifs with htight
  · obtain ⟨ht1, ht2⟩ := htight
    have hA : A.ld = A.rows := ht1
    have hB : B.ld = A.rows := by rw [← hr1]; exact ht2
    obtain ⟨hframe, helem⟩ := copyElems_apply
      (memcpyPairs A.buf B.buf (A.size1 * A.size2)) heap
      (by
        intro p hp q hq
        obtain ⟨k, hk0, hk1, rfl⟩ := (mem_memcpyPairs _ _ _ p).1 hp
        obtain ⟨k1, hk2, hk3, rfl⟩ := (mem_memcpyPairs _ _ _ q).1 hq
        have hk1a : k < A.rows * A.cols := hk1
        have hk3a : k1 < A.rows * A.cols := hk3
        exact fun h => hdisj k1 k hk2 (by rw [hA]; exact hk3a) hk0
          (by rw [hB, hc1]; exact hk1a) h.symm)
      (by
        intro p hp q hq h
        obtain ⟨k, hk0, hk1, rfl⟩ := (mem_memcpyPairs _ _ _ p).1 hp
        obtain ⟨k1, hk2, hk3, rfl⟩ := (mem_memcpyPairs _ _ _ q).1 hq
        have hk : k = k1 := by
          have h1 : A.buf + k = A.buf + k1 := h
          linarith
        rw [hk])
    refine ⟨_, rfl, fun i j hi0 hi1 hj0 hj1 => ?_, fun a ha => ?_⟩
    · obtain ⟨o1, o2⟩ := offset_range A.rows A.rows A.cols i j hi0 hi1 le_rfl hj0 hj1
      have hm := helem (A.buf + (j * A.rows + i), B.buf + (j * A.rows + i))
        ((mem_memcpyPairs _ _ _ _).2 ⟨j * A.rows + i, o1, o2, rfl⟩)
      unfold host_matrix_handle.addr
      rw [hA, hB]
      exact hm
    · refine hframe a (fun p hp h => ?_)
      obtain ⟨k, hk0, hk1, rfl⟩ := (mem_memcpyPairs _ _ _ p).1 hp
      have hk1a : k < A.rows * A.cols := hk1
      exact ha k hk0 (by rw [hA]; exact hk1a) h
  · obtain ⟨hframe, helem⟩ := copyElems_apply (assignPairs A B) heap
      (by
        intro p hp q hq
        obtain ⟨i, j, hi0, hi1, hj0, hj1, rfl⟩ := (mem_assignPairs _ _ p).1 hp
        obtain ⟨i1, j1, hi2, hi3, hj2, hj3, rfl⟩ := (mem_assignPairs _ _ q).1 hq
        obtain ⟨o1, o2⟩ := offset_range B.ld B.rows B.cols i j hi0 (by rw [hr1]; exact hi1)
          hldB hj0 (by rw [hc1]; exact hj1)
        obtain ⟨o3, o4⟩ := offset_range A.ld A.rows A.cols i1 j1 hi2 hi3 hldA hj2 hj3
        exact fun h => hdisj _ _ o3 o4 o1 o2 h.symm)
      (by
        intro p hp q hq h
        obtain ⟨i, j, hi0, hi1, hj0, hj1, rfl⟩ := (mem_assignPairs _ _ p).1 hp
        obtain ⟨i1, j1, hi2, hi3, hj2, hj3, rfl⟩ := (mem_assignPairs _ _ q).1 hq
        have h1 : A.ptr + (j * A.ld + i) = A.ptr + (j1 * A.ld + i1) := h
        obtain ⟨e1, e2⟩ := offset_inj A.ld i j i1 j1 hi0 hi2 (lt_of_lt_of_le hi1 hldA)
          (lt_of_lt_of_le hi3 hldA) (by linarith)
        rw [e1, e2])
    refine ⟨_, by rw [assignColumns_eq], fun i j hi0 hi1 hj0 hj1 => ?_, fun a ha => ?_⟩
    · exact helem (A.addr i j, B.addr i j)
        ((mem_assignPairs _ _ _).2 ⟨i, j, hi0, hi1, hj0, hj1, rfl⟩)
    · refine hframe a (fun p hp h => ?_)
      obtain ⟨i, j, hi0, hi1, hj0, hj1, rfl⟩ := (mem_assignPairs _ _ p).1 hp
      obtain ⟨o3, o4⟩ := offset_range A.ld A.rows A.cols i j hi0 hi1 hldA hj0 hj1
      exact ha _ o3 o4 h

/-- The result of `resize(rows, cols, true)` on an owning matrix whose shape is not
`rows × cols`, when the block the allocator returns does not overlap the elements of
the matrix: the overlap of the two shapes is copied into the new block. -/
theorem resize_run (A : host_matrix) (fresh rows cols : Int) (heap : Heap T)
    (hown : A.own = true) (hshape : rows ≠ A.size1 ∨ cols ≠ A.size2)
    (hfresh : ∀ i j k : Int, 0 ≤ i → i < A.rows → 0 ≤ j → j < A.cols → 0 ≤ k →
      k < rows * cols → A.addr i j ≠ fresh + k) :
    ∃ heap1, A.resize fresh rows cols true heap =
        .ok ({ ptr := if rows * cols > 0 then fresh else 0, rows := rows, cols := cols,
               ld := rows, own := true }, heap1) ∧
      (∀ i j : Int, 0 ≤ i → i < min A.rows rows → 0 ≤ j → j < min A.cols cols →
        heap1 (fresh + (j * rows + i)) = heap (A.addr i j)) := by
  have hpos : ∀ i j : Int, 0 ≤ i → i < min A.rows rows → 0 ≤ j → j < min A.cols cols →
      rows * cols > 0 := fun i j hi0 hi1 hj0 hj1 =>
    mul_pos (by omega) (by omega)
  obtain ⟨-, helem⟩ := copyElems_apply
    (preservePairs A.tohost_matrix_handle (if rows * cols > 0 then fresh else 0) rows cols) heap
    (by
      intro p hp q hq
      obtain ⟨i, j, hi0, hi1, hj0, hj1, rfl⟩ := (mem_preservePairs _ _ _ _ p).1 hp
      obtain ⟨i1, j1, hi2, hi3, hj2, hj3, rfl⟩ := (mem_preservePairs _ _ _ _ q).1 hq
      rw [if_pos (hpos i j hi0 hi1 hj0 hj1)]
      obtain ⟨o1, o2⟩ := offset_range rows rows cols i1 j1 hi2 (by omega) le_rfl hj2 (by omega)
      exact hfresh i j _ hi0 (by omega) hj0 (by omega) o1 o2)
    (by
      intro p hp q hq h
      obtain ⟨i, j, hi0, hi1, hj0, hj1, rfl⟩ := (mem_preservePairs _ _ _ _ p).1 hp
      obtain ⟨i1, j1, hi2, hi3, hj2, hj3, rfl⟩ := (mem_preservePairs _ _ _ _ q).1 hq
      have h1 : (if rows * cols > 0 then fresh else 0) + (j * rows + i) =
        (if rows * cols > 0 then fresh else 0) + (j1 * rows + i1) := h
      obtain ⟨e1, e2⟩ := offset_inj rows i j i1 j1 hi0 hi2 (by omega) (by omega) (by linarith)
      rw [e1, e2])
  refine ⟨copyElems heap (preservePairs A.tohost_matrix_handle
    (if rows * cols > 0 then fresh else 0) rows cols), ?_, fun i j hi0 hi1 hj0 hj1 => ?_⟩
  · unfold host_matrix.resize
    rw [if_pos hshape, hown]
    simp only [if_true]
    rw [preserveLoop_ok]
  · have hm := helem ((if rows * cols > 0 then fresh else 0) + (j * rows + i),
      A.tohost_matrix_handle.addr i j)
      ((mem_preservePairs _ _ _ _ _).2 ⟨i, j, hi0, hi1, hj0, hj1, rfl⟩)
    have hp := hpos i j hi0 hi1 hj0 hj1
    simp only [if_pos hp] at hm ⊢
    exact hm

/-- On an owning matrix `resize` to another shape returns normally, with the new
block as pointer and the new number of rows as leading dimension. -/
theorem resize_ok (A : host_matrix) (fresh rows cols : Int) (preserve : Bool) (heap : Heap T)
    (hown : A.own = true) (hshape : rows ≠ A.size1 ∨ cols ≠ A.size2) :
    ∃ heap1, A.resize fresh rows cols preserve heap =
      .ok ({ ptr := if rows * cols > 0 then fresh else 0, rows := rows, cols := cols,
             ld := rows, own := true }, heap1) := by
  unfold host_matrix.resize
  rw [if_pos hshape, hown]
  simp only [if_true]
  cases preserve with
  | true =>
    simp only [if_true]
    rw [preserveLoop_ok]
    exact ⟨_, rfl⟩
  | false => exact ⟨heap, rfl⟩

end MatrixCopies

/-! ## Host matrices: `resize` and assignment -/

section MatrixClaims

variable {T : Type}

/-- C25: for an owning matrix and a new shape `rows × cols` different from the one it
has, `resize(rows, cols, true)` returns normally, provided the block the allocator
returns does not overlap the elements of the matrix; the matrix then has
`size1 = rows`, `size2 = cols`, `lead = rows`, and its element `(i, j)` is the old
element `(i, j)` for every `i` and `j` below the smaller of the old and the new
number of rows and of columns. -/
theorem resize_preserves_overlap (A : host_matrix) (fresh rows cols : Int) (heap : Heap T)
    (hown : A.own = true) (hshape : rows ≠ A.size1 ∨ cols ≠ A.size2)
    (hfresh : ∀ i j k : Int, 0 ≤ i → i < A.rows → 0 ≤ j → j < A.cols → 0 ≤ k →
      k < rows * cols → A.addr i j ≠ fresh + k) :
    ∃ B heap1, A.resize fresh rows cols true heap = .ok (B, heap1) ∧
      B.size1 = rows ∧ B.size2 = cols ∧ B.lead = rows ∧
      ∀ i j : Int, 0 ≤ i → i < min A.rows rows → 0 ≤ j → j < min A.cols cols →
        ∃ v, A.get heap i j = .ok v ∧ B.get heap1 i j = .ok v := by
  obtain ⟨heap1, hres, helem⟩ := resize_run A fresh rows cols heap hown hshape hfresh
  refine ⟨_, heap1, hres, rfl, rfl, rfl, fun i j hi0 hi1 hj0 hj1 => ⟨heap (A.addr i j), ?_, ?_⟩⟩
  · unfold host_matrix_handle.get host_matrix_handle.size1 host_matrix_handle.size2
    rw [if_pos (by omega)]
  · have hp : rows * cols > 0 := mul_pos (by omega) (by omega)
    unfold host_matrix_handle.get host_matrix_handle.size1 host_matrix_handle.size2
    rw [if_pos (show (0 ≤ i ∧ i < rows) ∧ (0 ≤ j ∧ j < cols) from by omega)]
    unfold host_matrix_handle.addr
    simp only [if_pos hp]
    rw [helem i j hi0 hi1 hj0 hj1]
    rfl

/-- Instance of C25: the `2 × 3` matrix at address `100` resized to `3 × 2` with the
new block at address `500`. -/
theorem resize_preserves_overlap_witness :
    ∃ B heap1, matOwner.resize 500 3 2 true heapW = .ok (B, heap1) ∧
      B.size1 = 3 ∧ B.size2 = 2 ∧ B.lead = 3 ∧
      ∀ i j : Int, 0 ≤ i → i < min matOwner.rows 3 → 0 ≤ j → j < min matOwner.cols 2 →
        ∃ v, matOwner.get heapW i j = .ok v ∧ B.get heap1 i j = .ok v :=
  resize_preserves_overlap matOwner 500 3 2 heapW rfl (Or.inl (by decide))
    (by
      intro i j k h1 h2 h3 h4 h5 h6
      simp only [matOwner, host_matrix_handle.addr] at *
      omega)

/-- C26: for references `A` and `B` of equal shape, with leading dimensions at least
the number of rows, distinct pointers and buffers that do not overlap, the
assignment `A = B` returns normally; afterwards every element `A(i, j)` is what
`B(i, j)` was, `B(i, j)` is unchanged, `A.same(B)` is false, and the pointer, shape
and leading dimension of `A` are what they were.  When the shapes differ the
assignment fails its precondition. -/
theorem assign_copies_elements (A B : host_matrix_handle) (heap : Heap T) :
    (B.size1 = A.size1 ∧ B.size2 = A.size2 → A.rows ≤ A.ld → B.rows ≤ B.ld → A.ptr ≠ B.ptr →
      (∀ a b : Int, 0 ≤ a → a < A.ld * A.cols → 0 ≤ b → b < B.ld * B.cols →
        A.ptr + a ≠ B.ptr + b) →
      ∃ A1 heap1, A.assign B heap = .ok (A1, heap1) ∧ A1 = A ∧
        (∀ i j : Int, 0 ≤ i → i < A.rows → 0 ≤ j → j < A.cols →
          ∃ v, B.get heap i j = .ok v ∧ A1.get heap1 i j = .ok v ∧
            B.get heap1 i j = .ok v) ∧
        A1.same true false B = false) ∧
    (¬ (B.size1 = A.size1 ∧ B.size2 = A.size2) → A.assign B heap = .error .assertion) := by
  refine ⟨fun hshape hldA hldB hptr hdisj => ?_, fun hne => ?_⟩
  · obtain ⟨heap1, hres, helem, hframe⟩ := assign_run A B heap hshape hldA hldB hptr hdisj
    have hr : B.rows = A.rows := hshape.1
    have hc : B.cols = A.cols := hshape.2
    refine ⟨A, heap1, hres, rfl, fun i j hi0 hi1 hj0 hj1 => ⟨heap (B.addr i j), ?_, ?_, ?_⟩, ?_⟩
    · unfold host_matrix_handle.get host_matrix_handle.size1 host_matrix_handle.size2
      rw [if_pos (by omega)]
    · unfold host_matrix_handle.get host_matrix_handle.size1 host_matrix_handle.size2
      rw [if_pos (by omega), helem i j hi0 hi1 hj0 hj1]
    · unfold host_matrix_handle.get host_matrix_handle.size1 host_matrix_handle.size2
      rw [if_pos (by omega)]
      obtain ⟨o1, o2⟩ := offset_range B.ld B.rows B.cols i j hi0 (by omega) hldB hj0 (by omega)
      rw [hframe (B.addr i j) (fun k hk0 hk1 => hdisj k _ hk0 hk1 o1 o2)]
    · simp [host_matrix_handle.same, host_matrix_handle.buf, hptr]
  · unfold host_matrix_handle.assign
    rw [if_neg hne]

/-- Instance of C26: a `2 × 3` reference with leading dimension `4` at address `200`
assigned from a tight one at address `300`, and assigned from a `5 × 3` one. -/
theorem assign_copies_elements_witness :
    (∃ A1 heap1, refWide.assign refTight heapW = .ok (A1, heap1) ∧ A1 = refWide ∧
      (∀ i j : Int, 0 ≤ i → i < refWide.rows → 0 ≤ j → j < refWide.cols →
        ∃ v, refTight.get heapW i j = .ok v ∧ A1.get heap1 i j = .ok v ∧
          refTight.get heap1 i j = .ok v) ∧
      A1.same true false refTight = false) ∧
    refWide.assign matTall.tohost_matrix_handle heapW = .error .assertion :=
  ⟨(assign_copies_elements refWide refTight heapW).1 ⟨rfl, rfl⟩ (by decide) (by decide)
    (by decide)
    (by
      intro a b h1 h2 h3 h4
      simp only [refWide, refTight] at *
      omega),
   (assign_copies_elements refWide matTall.tohost_matrix_handle heapW).2 (by decide)⟩

end MatrixClaims

/-! ## Host matrices: the leading dimension -/

section MatrixLead

variable {T : Type}

/-- C28 fails as stated: `host_matrix_reference(data, 5, 3, 2)` returns normally
with five rows and leading dimension `2`, which is less than `max(1, 5)`. -/
theorem reference_lead_below_rows :
    host_matrix_reference 0 5 3 2 = .ok { ptr := 0, rows := 5, cols := 3, ld := 2 } ∧
      ¬ (max 1 (5 : Int) ≤ 2) :=
  ⟨rfl, by decide⟩

/-- C28 as amended: for `rows ≥ 0` and `cols ≥ 0`, the matrix made by
`host_matrix_reference(data, rows, cols, lead)` with `lead` negative or at least
`rows`, by `host_matrix()`, by `host_matrix(rows, cols)`, and by the copy
constructor from a matrix that satisfies it, satisfies `ld ≥ max(1, rows)`; so do
both matrices after a `swap` of two matrices that satisfy it, and an owning matrix
after `resize` to another shape with at least one row. -/
theorem lead_at_least_rows :
    (∀ data rows cols lead : Int, 0 ≤ rows → 0 ≤ cols → (lead < 0 ∨ rows ≤ lead) →
      ∃ A, host_matrix_reference data rows cols lead = .ok A ∧ max 1 A.rows ≤ A.ld) ∧
    (∃ A, host_matrix.empty = .ok A ∧ max 1 A.rows ≤ A.ld) ∧
    (∀ fresh rows cols : Int, 0 ≤ rows → 0 ≤ cols →
      ∃ A, host_matrix.create fresh rows cols = .ok A ∧ max 1 A.rows ≤ A.ld) ∧
    (∀ o : host_matrix, 0 ≤ o.rows → 0 ≤ o.cols → max 1 o.rows ≤ o.ld →
      ∃ A, host_matrix.copy o = .ok A ∧ max 1 A.rows ≤ A.ld) ∧
    (∀ (A B : host_matrix) (heap : Heap T), max 1 A.rows ≤ A.ld → max 1 B.rows ≤ B.ld →
      max 1 (A.swap B heap).1.rows ≤ (A.swap B heap).1.ld ∧
      max 1 (A.swap B heap).2.1.rows ≤ (A.swap B heap).2.1.ld) ∧
    (∀ (A : host_matrix) (fresh rows cols : Int) (preserve : Bool) (heap : Heap T),
      A.own = true → (rows ≠ A.size1 ∨ cols ≠ A.size2) → 1 ≤ rows →
      ∃ B heap1, A.resize fresh rows cols preserve heap = .ok (B, heap1) ∧
        max 1 B.rows ≤ B.ld) := by
  refine ⟨?_, ⟨_, rfl, by decide⟩, ?_, ?_, fun A B heap hA hB => ⟨hB, hA⟩, ?_⟩
  · intro data rows cols lead hr hc hl
    unfold host_matrix_reference
    rw [if_pos ⟨hr, hc⟩]
    refine ⟨_, rfl, ?_⟩
    show max 1 rows ≤ max 1 (if lead < 0 then rows else lead)
    split_ifs <;> omega
  · intro fresh rows cols hr hc
    unfold host_matrix.create host_matrix_reference
    rw [if_pos ⟨hr, hc⟩]
    simp only []
    rw [if_pos ⟨hr, hc⟩]
    refine ⟨_, rfl, ?_⟩
    show max 1 rows ≤ max 1 (if rows < 0 then rows else rows)
    split_ifs <;> omega
  · intro o hr hc hl
    unfold host_matrix.copy host_matrix_reference host_matrix_handle.size1
      host_matrix_handle.size2
    rw [if_pos ⟨hr, hc⟩]
    refine ⟨_, rfl, ?_⟩
    show max 1 o.rows ≤ max 1 (if o.lead < 0 then o.rows else o.lead)
    have : o.lead = o.ld := rfl
    split_ifs <;> omega
  · intro A fresh rows cols preserve heap hown hshape hrows
    obtain ⟨heap1, hres⟩ := resize_ok A fresh rows cols preserve heap hown hshape
    refine ⟨_, heap1, hres, ?_⟩
    show max 1 rows ≤ rows
    omega

/-- Instance of the amended C28: `host_matrix_reference(data, 5, 3, -1)`,
`host_matrix(5, 3)`, a copy, a swap and a `resize` to `3 × 2`. -/
theorem lead_at_least_rows_witness :
    (∃ A, host_matrix_reference 0 5 3 (-1) = .ok A ∧ max 1 A.rows ≤ A.ld) ∧
    (∃ A, host_matrix.create 400 5 3 = .ok A ∧ max 1 A.rows ≤ A.ld) ∧
    (∃ A, host_matrix.copy matOwner = .ok A ∧ max 1 A.rows ≤ A.ld) ∧
    (max 1 (matOwner.swap matTall heapW).1.rows ≤ (matOwner.swap matTall heapW).1.ld ∧
      max 1 (matOwner.swap matTall heapW).2.1.rows ≤ (matOwner.swap matTall heapW).2.1.ld) ∧
    (∃ B heap1, matOwner.resize 500 3 2 false heapW = .ok (B, heap1) ∧
      max 1 B.rows ≤ B.ld) :=
  ⟨(lead_at_least_rows (T := Int)).1 0 5 3 (-1) (by decide) (by decide) (Or.inl (by decide)),
   (lead_at_least_rows (T := Int)).2.2.1 400 5 3 (by decide) (by decide),
   (lead_at_least_rows (T := Int)).2.2.2.1 matOwner (by decide) (by decide) (by decide),
   (lead_at_least_rows (T := Int)).2.2.2.2.1 matOwner matTall heapW (by decide) (by decide),
   (lead_at_least_rows (T := Int)).2.2.2.2.2 matOwner 500 3 2 false heapW rfl
     (Or.inl (by decide)) (by decide)⟩

/-- After `resize(0, cols, preserve)` on an owning matrix with at least one row the
leading dimension is `0`, where the constructors would give `1`. -/
theorem resize_zero_rows_lead :
    matOwner.resize 500 0 3 false heapW =
      .ok ({ ptr := 0, rows := 0, cols := 3, ld := 0, own := true }, heapW) :=
  rfl

end MatrixLead

/-! ## The integrator: the time variable -/

section IntegratorTime

variable {α : Type} [LinearOrderedField α] {N : Nat}

/-- With `t < t2` and `h > 0` the clamp does not leave the loop, and the step size it
leaves is positive and does not take `t` beyond `t2`. -/
theorem clamp_fits (t2 : α) (s : Loop α N) (hlt : s.t < t2) (hpos : 0 < s.h) :
    ∃ s1, clamp t2 s = .next s1 ∧ s1.t = s.t ∧ 0 < s1.h ∧ s1.t + s1.h ≤ t2 := by
  unfold clamp
  split_ifs with h1 h2
  · exact absurd (sub_pos.2 hlt) (not_lt.2 h2)
  · refine ⟨_, rfl, rfl, not_le.1 h2, ?_⟩
    show s.t + (t2 - s.t) ≤ t2
    linarith
  · refine ⟨s, rfl, rfl, hpos, ?_⟩
    have h3 := not_lt.1 h1
    linarith

/-- One iteration begun with `t < t2` and `h > 0`, for `facl > 0` and `facr > 0`:
the step attempted has positive size and `t + h ≤ t2`, and afterwards `t` is not
smaller than before and at most `t2`, and `h` is positive again if `t < t2`. -/
theorem body_time (c : IntegratorConstants α) (fns : MathFns α) (v : Visitor α N) (t2 : α)
    (p : Nat) (s : Loop α N) (hl : 0 < c.facl) (hr : 0 < c.facr) (hlt : s.t < t2)
    (hpos : 0 < s.h) :
    ∃ s1 s2, clamp t2 { s with iters := s.iters + 1 } = .next s1 ∧
      body c fns v t2 p s = .next s2 ∧ s1.t = s.t ∧ 0 < s1.h ∧ s1.t + s1.h ≤ t2 ∧
      s.t ≤ s2.t ∧ s2.t ≤ t2 ∧ (s2.t < t2 → 0 < s2.h) := by
  obtain ⟨s1, hcl, g1, g2, g3⟩ := clamp_fits t2 { s with iters := s.iters + 1 } hlt hpos
  have g1a : s1.t = s.t := g1
  rcases body_cases c fns v t2 p s with ⟨s3, hcl1, -⟩ | ⟨s3, st, e2, hcl1, hst, -, hb⟩
  · rw [hcl] at hcl1; cases hcl1
  · rw [hcl] at hcl1
    have hs3 : s3 = s1 := (Flow.next.inj hcl1).symm
    subst hs3
    have hfr := stages_frame v p s3
    rw [← hst] at hfr
    obtain ⟨f1, f2, -⟩ := hfr
    refine ⟨s3, _, hcl, hb, g1a, g2, g3, ?_, ?_, ?_⟩
    · show s.t ≤ (nextStepSize c fns t2 e2 (acceptReject t2 e2 st)).t
      rcases attempt_cases c fns t2 e2 st with ⟨-, a1, -⟩ | ⟨-, b1, -⟩
      · rw [a1, f1, f2, g1a]
        linarith
      · rw [b1, f1, g1a]
    · show (nextStepSize c fns t2 e2 (acceptReject t2 e2 st)).t ≤ t2
      rcases attempt_cases c fns t2 e2 st with ⟨-, a1, -⟩ | ⟨-, b1, -⟩
      · rw [a1, f1, f2]
        exact g3
      · rw [b1, f1, g1a]
        exact hlt.le
    · intro hlt2
      show 0 < (nextStepSize c fns t2 e2 (acceptReject t2 e2 st)).h
      have hlt3 : (nextStepSize c fns t2 e2 (acceptReject t2 e2 st)).t < t2 := hlt2
      have hs1 : 0 < st.h := by rw [f2]; exact g2
      rcases attempt_cases c fns t2 e2 st with
        ⟨-, a1, -, -, -, -, -, a7, -⟩ | ⟨-, b1, -, -, -, -, -, -, b8, -⟩
      · rw [a1] at hlt3
        obtain ⟨-, fac, hh, hfac⟩ := a7 hlt3
        rw [hh]
        exact mul_pos hs1 (hfac hl hr)
      · rw [b1] at hlt3
        obtain ⟨fac, hh, hfac⟩ := b8 hlt3
        rw [hh]
        exact mul_pos hs1 (hfac hl)

/-- C31: given `h0 > 0`, `facl > 0` and `t1 < t2`, with `facr` the constant `10` it
is derived as, after any number of iterations of the loop `t1 ≤ t ≤ t2`; and if
`t < t2`, the next iteration attempts a step of size `h > 0` with `t + h ≤ t2`, and
after it `t` is not smaller than before and at most `t2`. -/
theorem time_within_interval (c : IntegratorConstants α) (fns : MathFns α) (v : Visitor α N)
    (t1 t2 : α) (p : Nat) (x0 r2 err : Fin N → α) (fuel : Nat) (h0 : 0 < c.h0)
    (hl : 0 < c.facl) (hfacr : c.facr = 10) (ht : t1 < t2) :
    t1 ≤ (loop c fns v t2 p fuel (start c fns t1 x0 r2 err)).t ∧
    (loop c fns v t2 p fuel (start c fns t1 x0 r2 err)).t ≤ t2 ∧
    ((loop c fns v t2 p fuel (start c fns t1 x0 r2 err)).t < t2 →
      ∃ s1 s2,
        clamp t2 { loop c fns v t2 p fuel (start c fns t1 x0 r2 err) with
          iters := (loop c fns v t2 p fuel (start c fns t1 x0 r2 err)).iters + 1 }
            = .next s1 ∧
        body c fns v t2 p (loop c fns v t2 p fuel (start c fns t1 x0 r2 err)) = .next s2 ∧
        0 < s1.h ∧ s1.t + s1.h ≤ t2 ∧
        (loop c fns v t2 p fuel (start c fns t1 x0 r2 err)).t ≤ s2.t ∧ s2.t ≤ t2) := by
  have hr : 0 < c.facr := by rw [hfacr]; norm_num
  have hinv := loop_inv c fns v t2 p
    (fun s => t1 ≤ s.t ∧ s.t ≤ t2 ∧ (s.t < t2 → 0 < s.h))
    (by
      rintro s s3 hlt - ⟨i1, -, i3⟩ hb
      obtain ⟨s1, s2, -, hb1, -, -, -, k1, k2, k3⟩ :=
        body_time c fns v t2 p s hl hr hlt (i3 hlt)
      rw [hb1] at hb
      cases hb
      exact ⟨le_trans i1 k1, k2, k3⟩)
    (by
      rintro s s3 hlt - ⟨i1, -, i3⟩ hb
      obtain ⟨s1, s2, -, hb1, -⟩ := body_time c fns v t2 p s hl hr hlt (i3 hlt)
      rw [hb1] at hb
      cases hb)
    fuel (start c fns t1 x0 r2 err) ⟨le_rfl, ht.le, fun _ => h0⟩
  obtain ⟨i1, i2, i3⟩ := hinv
  refine ⟨i1, i2, fun hlt => ?_⟩
  obtain ⟨s1, s2, hcl, hb, -, g2, g3, k1, k2, -⟩ :=
    body_time c fns v t2 p _ hl hr hlt (i3 hlt)
  exact ⟨s1, s2, hcl, hb, g2, g3, k1, k2⟩

/-- Instance of C31: `dx/dt = 1` from `0` towards `t2 = 1`, with the constants
derived from `h0 = 1/4`, after one iteration. -/
theorem time_within_interval_witness :
    (0 : ℚ) ≤ (loop (constsDerived (1 / 4)) fnsW visitorW 1 0 1
      (start (constsDerived (1 / 4)) fnsW 0 (fun _ => 0) (fun _ => 0) (fun _ => 0))).t ∧
    (loop (constsDerived (1 / 4)) fnsW visitorW 1 0 1
      (start (constsDerived (1 / 4)) fnsW 0 (fun _ => 0) (fun _ => 0) (fun _ => 0))).t ≤ 1 ∧
    ((loop (constsDerived (1 / 4)) fnsW visitorW 1 0 1
      (start (constsDerived (1 / 4)) fnsW 0 (fun _ => 0) (fun _ => 0) (fun _ => 0))).t < 1 →
      ∃ s1 s2,
        clamp 1 { loop (constsDerived (1 / 4)) fnsW visitorW 1 0 1
            (start (constsDerived (1 / 4)) fnsW 0 (fun _ => 0) (fun _ => 0) (fun _ => 0)) with
          iters := (loop (constsDerived (1 / 4)) fnsW visitorW 1 0 1
            (start (constsDerived (1 / 4)) fnsW 0 (fun _ => 0) (fun _ => 0)
              (fun _ => 0))).iters + 1 } = .next s1 ∧
        body (constsDerived (1 / 4)) fnsW visitorW 1 0
          (loop (constsDerived (1 / 4)) fnsW visitorW 1 0 1
            (start (constsDerived (1 / 4)) fnsW 0 (fun _ => 0) (fun _ => 0) (fun _ => 0)))
          = .next s2 ∧
        0 < s1.h ∧ s1.t + s1.h ≤ 1 ∧
        (loop (constsDerived (1 / 4)) fnsW visitorW 1 0 1
          (start (constsDerived (1 / 4)) fnsW 0 (fun _ => 0) (fun _ => 0) (fun _ => 0))).t
            ≤ s2.t ∧ s2.t ≤ 1) :=
  time_within_interval (constsDerived (1 / 4)) fnsW visitorW 0 1 0 (fun _ => 0) (fun _ => 0)
    (fun _ => 0) 1 (by norm_num [constsDerived, deriveConstants])
    (by norm_num [constsDerived, deriveConstants]) rfl (by norm_num)

end IntegratorTime

/-! ## Host matrices: element access and the two ways of copying -/

section MatrixAccess

variable {T : Type}

/-- C32: for a matrix with `ld ≥ rows`, element access `(i, j)` with `0 ≤ i < rows`
and `0 ≤ j < cols` reads and writes the buffer at offset `i + j*ld`, which lies in
`[0, ld*cols)`; index pairs in range with the same offset are the same pair, so a
write to one element is read back there and changes no other element; access with
`i` or `j` out of range fails the precondition. -/
theorem element_access (A : host_matrix_handle) (heap : Heap T) (hld : A.rows ≤ A.ld) :
    (∀ i j : Int, 0 ≤ i → i < A.rows → 0 ≤ j → j < A.cols →
      A.get heap i j = .ok (heap (A.ptr + (i + j * A.ld))) ∧
      (∀ v : T, A.set heap i j v = .ok (Function.update heap (A.ptr + (i + j * A.ld)) v)) ∧
      0 ≤ i + j * A.ld ∧ i + j * A.ld < A.ld * A.cols) ∧
    (∀ i j i1 j1 : Int, 0 ≤ i → i < A.rows → 0 ≤ j → j < A.cols → 0 ≤ i1 → i1 < A.rows →
      0 ≤ j1 → j1 < A.cols → i + j * A.ld = i1 + j1 * A.ld → i = i1 ∧ j = j1) ∧
    (∀ (i j i1 j1 : Int) (v : T), 0 ≤ i → i < A.rows → 0 ≤ j → j < A.cols → 0 ≤ i1 →
      i1 < A.rows → 0 ≤ j1 → j1 < A.cols →
      ∃ heap1, A.set heap i j v = .ok heap1 ∧ A.get heap1 i j = .ok v ∧
        ((i1, j1) ≠ (i, j) → A.get heap1 i1 j1 = A.get heap i1 j1)) ∧
    (∀ (i j : Int) (v : T), ¬ ((0 ≤ i ∧ i < A.rows) ∧ (0 ≤ j ∧ j < A.cols)) →
      A.get heap i j = .error .assertion ∧ A.set heap i j v = .error .assertion) := by
  have hget : ∀ (h : Heap T) (i j : Int), 0 ≤ i → i < A.rows → 0 ≤ j → j < A.cols →
      A.get h i j = .ok (h (A.ptr + (i + j * A.ld))) := by
    intro h i j hi0 hi1 hj0 hj1
    unfold host_matrix_handle.get host_matrix_handle.size1 host_matrix_handle.size2
      host_matrix_handle.addr
    rw [if_pos ⟨⟨hi0, hi1⟩, ⟨hj0, hj1⟩⟩, add_comm (j * A.ld) i]
  have hset : ∀ (i j : Int) (v : T), 0 ≤ i → i < A.rows → 0 ≤ j → j < A.cols →
      A.set heap i j v = .ok (Function.update heap (A.ptr + (i + j * A.ld)) v) := by
    intro i j v hi0 hi1 hj0 hj1
    unfold host_matrix_handle.set host_matrix_handle.size1 host_matrix_handle.size2
      host_matrix_handle.addr
    rw [if_pos ⟨⟨hi0, hi1⟩, ⟨hj0, hj1⟩⟩, add_comm (j * A.ld) i]
  have hinj : ∀ i j i1 j1 : Int, 0 ≤ i → i < A.rows → 0 ≤ i1 → i1 < A.rows →
      i + j * A.ld = i1 + j1 * A.ld → i = i1 ∧ j = j1 := by
    intro i j i1 j1 hi0 hi1 hi2 hi3 h
    exact offset_inj A.ld i j i1 j1 hi0 hi2 (lt_of_lt_of_le hi1 hld) (lt_of_lt_of_le hi3 hld)
      (by linarith)
  refine ⟨fun i j hi0 hi1 hj0 hj1 => ⟨hget heap i j hi0 hi1 hj0 hj1,
      fun v => hset i j v hi0 hi1 hj0 hj1, ?_⟩,
    fun i j i1 j1 hi0 hi1 _ _ hi2 hi3 _ _ h => hinj i j i1 j1 hi0 hi1 hi2 hi3 h,
    fun i j i1 j1 v hi0 hi1 hj0 hj1 hi2 hi3 hj2 hj3 => ⟨_, hset i j v hi0 hi1 hj0 hj1, ?_, ?_⟩,
    fun i j v hout => ?_⟩
  · obtain ⟨o1, o2⟩ := offset_range A.ld A.rows A.cols i j hi0 hi1 hld hj0 hj1
    rw [add_comm i]
    exact ⟨o1, o2⟩
  · rw [hget _ i j hi0 hi1 hj0 hj1, Function.update_same]
  · intro hne
    rw [hget _ i1 j1 hi2 hi3 hj2 hj3, hget _ i1 j1 hi2 hi3 hj2 hj3, Function.update_noteq]
    intro h
    obtain ⟨e1, e2⟩ := hinj i1 j1 i j hi2 hi3 hi0 hi1 (by linarith)
    exact hne (by rw [e1, e2])
  · unfold host_matrix_handle.get host_matrix_handle.set host_matrix_handle.size1
      host_matrix_handle.size2
    rw [if_neg hout, if_neg hout]
    exact ⟨rfl, rfl⟩

/-- Instance of C32: the `2 × 3` reference with leading dimension `4` at address
`200`, in memory where every address holds its own value. -/
theorem element_access_witness :
    (refWide.get heapW 1 2 = .ok (heapW (200 + (1 + 2 * 4))) ∧
      (∀ v : Int, refWide.set heapW 1 2 v =
        .ok (Function.update heapW (200 + (1 + 2 * 4)) v)) ∧
      (0 : Int) ≤ 1 + 2 * 4 ∧ (1 : Int) + 2 * 4 < 4 * 3) ∧
    (∃ heap1, refWide.set heapW 1 2 77 = .ok heap1 ∧ refWide.get heap1 1 2 = .ok 77 ∧
      (((0 : Int), (1 : Int)) ≠ (1, 2) → refWide.get heap1 0 1 = refWide.get heapW 0 1)) ∧
    (refWide.get heapW 2 0 = .error .assertion ∧
      refWide.set heapW 2 0 77 = .error .assertion) :=
  ⟨(element_access refWide heapW (by decide)).1 1 2 (by decide) (by decide) (by decide)
      (by decide),
   (element_access refWide heapW (by decide)).2.2.1 1 2 0 1 77 (by decide) (by decide)
      (by decide) (by decide) (by decide) (by decide) (by decide) (by decide),
   (element_access refWide heapW (by decide)).2.2.2 2 0 77 (by decide)⟩

end MatrixAccess

/-! ## Host matrices: the two ways of copying -/

section MatrixCopyPaths

variable {T : Type}

/-- The memory after `memcpy(dst, src, n)` on blocks that do not overlap: offset `k`
of the destination holds what offset `k` of the source held, and nothing outside the
destination is written. -/
theorem memcpy_run (heap : Heap T) (dst src n : Int)
    (hdisj : ∀ a b : Int, 0 ≤ a → a < n → 0 ≤ b → b < n → dst + a ≠ src + b) :
    (∀ k : Int, 0 ≤ k → k < n → memcpy heap dst src n (dst + k) = heap (src + k)) ∧
    (∀ a : Int, (∀ k : Int, 0 ≤ k → k < n → dst + k ≠ a) → memcpy heap dst src n a = heap a) := by
  obtain ⟨hframe, helem⟩ := copyElems_apply (memcpyPairs dst src n) heap
    (by
      intro p hp q hq
      obtain ⟨k, hk0, hk1, rfl⟩ := (mem_memcpyPairs _ _ _ p).1 hp
      obtain ⟨k1, hk2, hk3, rfl⟩ := (mem_memcpyPairs _ _ _ q).1 hq
      exact fun h => hdisj k1 k hk2 hk3 hk0 hk1 h.symm)
    (by
      intro p hp q hq h
      obtain ⟨k, hk0, hk1, rfl⟩ := (mem_memcpyPairs _ _ _ p).1 hp
      obtain ⟨k1, hk2, hk3, rfl⟩ := (mem_memcpyPairs _ _ _ q).1 hq
      have hk : k = k1 := by
        have h1 : dst + k = dst + k1 := h
        linarith
      rw [hk])
  refine ⟨fun k hk0 hk1 => ?_, fun a ha => ?_⟩
  · exact helem (dst + k, src + k) ((mem_memcpyPairs _ _ _ _).2 ⟨k, hk0, hk1, rfl⟩)
  · refine hframe a (fun p hp h => ?_)
    obtain ⟨k, hk0, hk1, rfl⟩ := (mem_memcpyPairs _ _ _ p).1 hp
    exact ha k hk0 hk1 h

/-- The memory after the column loop of `operator=` for references of equal shape
with leading dimensions at least the number of rows and buffers that do not overlap:
every element of `A` holds what the element of `B` held, and nothing but the
elements of `A` is written. -/
theorem assignColumns_run (A B : host_matrix_handle) (heap : Heap T)
    (hshape : B.size1 = A.size1 ∧ B.size2 = A.size2) (hldA : A.rows ≤ A.ld)
    (hldB : B.rows ≤ B.ld)
    (hdisj : ∀ a b : Int, 0 ≤ a → a < A.ld * A.cols → 0 ≤ b → b < B.ld * B.cols →
      A.ptr + a ≠ B.ptr + b) :
    (∀ i j : Int, 0 ≤ i → i < A.rows → 0 ≤ j → j < A.cols →
      assignColumns heap A B (A.addr i j) = heap (B.addr i j)) ∧
    (∀ a : Int, (∀ i j : Int, 0 ≤ i → i < A.rows → 0 ≤ j → j < A.cols → A.addr i j ≠ a) →
      assignColumns heap A B a = heap a) := by
  have hr1 : B.rows = A.rows := hshape.1
  have hc1 : B.cols = A.cols := hshape.2
  obtain ⟨hframe, helem⟩ := copyElems_apply (assignPairs A B) heap
    (by
      intro p hp q hq
      obtain ⟨i, j, hi0, hi1, hj0, hj1, rfl⟩ := (mem_assignPairs _ _ p).1 hp
      obtain ⟨i1, j1, hi2, hi3, hj2, hj3, rfl⟩ := (mem_assignPairs _ _ q).1 hq
      obtain ⟨o1, o2⟩ := offset_range B.ld B.rows B.cols i j hi0 (by rw [hr1]; exact hi1)
        hldB hj0 (by rw [hc1]; exact hj1)
      obtain ⟨o3, o4⟩ := offset_range A.ld A.rows A.cols i1 j1 hi2 hi3 hldA hj2 hj3
      exact fun h => hdisj _ _ o3 o4 o1 o2 h.symm)
    (by
      intro p hp q hq h
      obtain ⟨i, j, hi0, hi1, hj0, hj1, rfl⟩ := (mem_assignPairs _ _ p).1 hp
      obtain ⟨i1, j1, hi2, hi3, hj2, hj3, rfl⟩ := (mem_assignPairs _ _ q).1 hq
      have h1 : A.ptr + (j * A.ld + i) = A.ptr + (j1 * A.ld + i1) := h
      obtain ⟨e1, e2⟩ := offset_inj A.ld i j i1 j1 hi0 hi2 (lt_of_lt_of_le hi1 hldA)
        (lt_of_lt_of_le hi3 hldA) (by linarith)
      rw [e1, e2])
  rw [assignColumns_eq]
  refine ⟨fun i j hi0 hi1 hj0 hj1 => ?_, fun a ha => ?_⟩
  · exact helem (A.addr i j, B.addr i j)
      ((mem_assignPairs _ _ _).2 ⟨i, j, hi0, hi1, hj0, hj1, rfl⟩)
  · refine hframe a (fun p hp h => ?_)
    obtain ⟨i, j, hi0, hi1, hj0, hj1, rfl⟩ := (mem_assignPairs _ _ p).1 hp
    exact ha i j hi0 hi1 hj0 hj1 h

/-- Every offset below `rows*cols` is the column-major offset `j*rows + i` of an
index pair within a `rows × cols` shape. -/
theorem offset_surj (rows cols k : Int) (hk0 : 0 ≤ k)
    (hk1 : k < rows * cols) (hr : 0 ≤ rows) :
    ∃ i j : Int, 0 ≤ i ∧ i < rows ∧ 0 ≤ j ∧ j < cols ∧ j * rows + i = k := by
  have hrpos : 0 < rows := by
    rcases hr.lt_or_eq with h | h
    · exact h
    · rw [← h, zero_mul] at hk1
      omega
  refine ⟨k % rows, k / rows, Int.emod_nonneg k hrpos.ne', Int.emod_lt_of_pos k hrpos,
    Int.ediv_nonneg hk0 hr, ?_, ?_⟩
  · exact Int.ediv_lt_of_lt_mul hrpos (by rw [mul_comm]; exact hk1)
  · rw [mul_comm]
    exact Int.ediv_add_emod k rows

/-- C33: for references `A` and `B` of equal shape (with `rows ≥ 0`),
both tight (`ld = rows`), on distinct buffers that do not overlap, the assignment
takes the fast path, and the memory the contiguous copy of `rows*cols` elements
leaves is the memory the column-by-column copy would leave. -/
theorem assign_paths_agree (A B : host_matrix_handle) (heap : Heap T)
    (hshape : B.size1 = A.size1 ∧ B.size2 = A.size2) (hr : 0 ≤ A.rows)
    (htA : A.lead = A.size1) (htB : B.lead = B.size1) (hptr : A.ptr ≠ B.ptr)
    (hdisj : ∀ a b : Int, 0 ≤ a → a < A.ld * A.cols → 0 ≤ b → b < B.ld * B.cols →
      A.ptr + a ≠ B.ptr + b) :
    A.assign B heap = .ok (A, memcpy heap A.buf B.buf (A.size1 * A.size2)) ∧
      memcpy heap A.buf B.buf (A.size1 * A.size2) = assignColumns heap A B := by
  have hA : A.ld = A.rows := htA
  have hr1 : B.rows = A.rows := hshape.1
  have hc1 : B.cols = A.cols := hshape.2
  have hB : B.ld = A.rows := by rw [← hr1]; exact htB
  constructor
  · have hsame : A.same true false B = false := by
      simp [host_matrix_handle.same, host_matrix_handle.buf, hptr]
    unfold host_matrix_handle.assign
    rw [if_pos hshape, hsame]
    simp only [Bool.not_false, if_true]
    rw [if_pos ⟨htA, htB⟩]
  · obtain ⟨m1, m2⟩ := memcpy_run heap A.buf B.buf (A.size1 * A.size2)
      (fun a b ha0 ha1 hb0 hb1 => hdisj a b ha0
        (by rw [hA]; exact ha1) hb0 (by rw [hB, hc1]; exact hb1))
    obtain ⟨c1, c2⟩ := assignColumns_run A B heap hshape (le_of_eq hA.symm)
      (by rw [hB, hr1]) hdisj
    funext a
    by_cases hex : ∃ k : Int, 0 ≤ k ∧ k < A.rows * A.cols ∧ A.ptr + k = a
    · obtain ⟨k, hk0, hk1, rfl⟩ := hex
      obtain ⟨i, j, hi0, hi1, hj0, hj1, hk⟩ := offset_surj A.rows A.cols k hk0 hk1 hr
      have e1 := m1 k hk0 hk1
      have e2 := c1 i j hi0 hi1 hj0 hj1
      unfold host_matrix_handle.addr at e2
      rw [hA, hB, hk] at e2
      exact e1.trans e2.symm
    · rw [m2 a (fun k hk0 hk1 h => hex ⟨k, hk0, hk1, h⟩),
        c2 a (fun i j hi0 hi1 hj0 hj1 h => by
          obtain ⟨o1, o2⟩ := offset_range A.rows A.rows A.cols i j hi0 hi1 le_rfl hj0 hj1
          refine hex ⟨j * A.rows + i, o1, o2, ?_⟩
          rw [← h]
          unfold host_matrix_handle.addr
          rw [hA])]

/-- Instance of C33: two tight `2 × 3` references, at addresses `300` and `100`. -/
theorem assign_paths_agree_witness :
    refTight.assign matOwner.tohost_matrix_handle heapW =
        .ok (refTight, memcpy heapW refTight.buf matOwner.tohost_matrix_handle.buf
          (refTight.size1 * refTight.size2)) ∧
      memcpy heapW refTight.buf matOwner.tohost_matrix_handle.buf
          (refTight.size1 * refTight.size2) =
        assignColumns heapW refTight matOwner.tohost_matrix_handle :=
  assign_paths_agree refTight matOwner.tohost_matrix_handle heapW ⟨rfl, rfl⟩ (by decide)
    rfl rfl (by decide)
    (by
      intro a b h1 h2 h3 h4
      simp only [refTight, matOwner] at *
      omega)

end MatrixCopyPaths

/-! ## The elements `filter` applies `correct` to -/

section CorrectTargets

variable {τ α γ ε ω μ ι θ : Type} {P m : Nat}

theorem corrected_append (a b : List (Event τ α)) :
    corrected (a ++ b) = corrected a ++ corrected b := by
  induction a with
  | nil => rfl
  | cons e t ih => cases e <;> simp [corrected, ih]

theorem corrected_predicts (l : List (ScheduleElement τ)) :
    corrected (l.map (Event.predict : ScheduleElement τ → Event τ α)) = [] := by
  induction l with
  | nil => rfl
  | cons e t ih => simpa [corrected] using ih

theorem corrected_resamplerOps (ops : List (Event τ α))
    (h : ∀ ev ∈ ops, ev = Event.resam_resample ∨ ∃ v, ev = Event.setMaxLogWeight v) :
    corrected ops = [] := by
  induction ops with
  | nil => rfl
  | cons e t ih =>
    have ht := ih (fun ev hev => h ev (List.mem_cons_of_mem _ hev))
    rcases h e (List.mem_cons_self _ _) with rfl | ⟨v, rfl⟩ <;> simpa [corrected] using ht

/-- An element without an output that is neither the first nor the final one of its
stretch is no target. -/
theorem correctTargets_skip (e : ScheduleElement τ) (rest : List (ScheduleElement τ))
    (he : e.hasOutput = false) (hrest : rest ≠ []) :
    correctTargets false (e :: rest) = correctTargets false rest := by
  cases rest with
  | nil => exact absurd rfl hrest
  | cons e2 r => simp [correctTargets, he]

/-- The elements a `step` passes over have no output, so of the stretch from `i + 1`
to its stopping position `k` only element `k` is a target. -/
theorem correctTargets_stretch (sched : List (ScheduleElement τ)) :
    ∀ (d i k : Nat), k = i + 1 + d → ∀ (hk : k < sched.length),
      (∀ j, i < j → j < k → ∃ e1, sched[j]? = some e1 ∧ e1.hasOutput = false) →
      correctTargets false ((sched.take (k + 1)).drop (i + 1)) = [sched[k]] := by
  intro d
  induction d with
  | zero =>
    intro i k hk hlen _
    subst hk
    rw [seg_singleton sched (i + 1) hlen]
    rfl
  | succ d ih =>
    intro i k hk hlen hmin
    have hi1 : i + 1 < sched.length := by omega
    have hrec := ih (i + 1) k (by omega) hlen (fun j h1 h2 => hmin j (by omega) h2)
    rw [seg_split sched (i + 1) (i + 1 + 1) (k + 1) (by omega) (by omega) (by omega),
      seg_singleton sched (i + 1) hi1]
    obtain ⟨e1, he1, ho1⟩ := hmin (i + 1) (by omega) (by omega)
    rw [List.getElem?_eq_getElem hi1] at he1
    cases he1
    show correctTargets false (sched[i + 1] :: (sched.take (k + 1)).drop (i + 1 + 1)) = _
    rw [correctTargets_skip _ _ ho1 (by
      intro hnil
      rw [hnil] at hrec
      cases hrec), hrec]

/-- An element that is the first of its stretch or has an output stays a target when
the stretch is extended beyond it. -/
theorem correctTargets_extend (e : ScheduleElement τ) (b : List (ScheduleElement τ)) :
    ∀ (a : List (ScheduleElement τ)) (f : Bool),
      ((a = [] ∧ f = true) ∨ e.hasOutput = true) →
      correctTargets f (a ++ e :: b) = correctTargets f (a ++ [e]) ++ correctTargets false b := by
  intro a
  induction a with
  | nil =>
    intro f h
    have hf : (f || e.hasOutput) = true := by
      rcases h with ⟨-, h⟩ | h
      · rw [h]; rfl
      · rw [h]; simp
    cases b with
    | nil => simp [correctTargets]
    | cons e2 r => simp [correctTargets, hf]
  | cons a0 a1 ih =>
    intro f h
    have he : e.hasOutput = true := by
      rcases h with ⟨h, -⟩ | h
      · cases h
      · exact h
    have h1 := ih false (Or.inr he)
    have hc : ∀ (l : List (ScheduleElement τ)), l ≠ [] →
        correctTargets f (a0 :: l) =
          if f || a0.hasOutput then a0 :: correctTargets false l else correctTargets false l := by
      intro l hl
      cases l with
      | nil => exact absurd rfl hl
      | cons y ys => rfl
    rw [List.cons_append, List.cons_append, hc _ (by simp), hc _ (by simp), h1]
    split_ifs <;> simp

/-- The targets of the stretch up to the stopping position `k` of a `step` entered at
`i`: those of the stretch up to `i`, and element `k`. -/
theorem correctTargets_step (sched : List (ScheduleElement τ)) (first i k : Nat)
    (hfi : first ≤ i) (hik : i < k) (hk : k < sched.length)
    (hcond : i = first ∨ ∃ e, sched[i]? = some e ∧ e.hasOutput = true)
    (hmin : ∀ j, i < j → j < k → ∃ e1, sched[j]? = some e1 ∧ e1.hasOutput = false) :
    correctTargets true ((sched.take (k + 1)).drop first) =
      correctTargets true ((sched.take (i + 1)).drop first) ++ [sched[k]] := by
  have hi : i < sched.length := by omega
  have hstretch := correctTargets_stretch sched (k - (i + 1)) i k (by omega) hk hmin
  have hcond1 : ((sched.take i).drop first = [] ∧ true = true) ∨ sched[i].hasOutput = true := by
    rcases hcond with h | ⟨e, he, ho⟩
    · left
      refine ⟨?_, rfl⟩
      rw [h]
      exact List.drop_eq_nil_of_le (by simp)
    · right
      rw [List.getElem?_eq_getElem hi] at he
      cases he
      exact ho
  rw [seg_split sched first (i + 1) (k + 1) (by omega) (by omega) (by omega),
    seg_split sched first i (i + 1) hfi (by omega) (by omega), seg_singleton sched i hi,
    List.append_assoc, List.singleton_append,
    correctTargets_extend _ _ _ true hcond1, hstretch]

/-- The trace entries one `step` adds: one returned value, and one `correct`, applied
to the element at the position the `step` stops at. -/
theorem step_corrected [Zero α] [Add α] [Sub α] [NatCast α]
    (pf : ParticleFilter τ α γ ε ω μ ι θ P P m) (sched : List (ScheduleElement τ))
    (last i : Nat) (x : Mach τ α γ ε ω P P m) (hi : i + 1 < last) (hl : last ≤ sched.length)
    (inc : α) (k : Nat) (x1 : Mach τ α γ ε ω P P m)
    (hs : step pf sched last i x = .ok (inc, k, x1)) :
    ∃ evs e, x1.trace = x.trace ++ evs ∧ sched[k]? = some e ∧ corrected evs = [e] ∧
      stepReturns evs = [inc] ∧ i < k ∧ k < last ∧ (k + 1 = last ∨ e.hasOutput = true) ∧
      (∀ j, i < j → j < k → ∃ e1, sched[j]? = some e1 ∧ e1.hasOutput = false) := by
  obtain ⟨now, y1, ops, k1, y2, e, ll, y3, -, he, hstep, hik, hkl, hstop, hmin,
    ⟨htr1, hops, -⟩, ⟨htr, -⟩, ⟨htr3, -⟩⟩ := step_run pf sched last i x hi hl
  rw [hstep] at hs
  simp only [Except.ok.injEq, Prod.mk.injEq] at hs
  obtain ⟨rfl, rfl, rfl⟩ := hs
  refine ⟨Event.resample now :: ops ++ ((sched.drop (i + 1)).take (k1 - i)).map Event.predict
    ++ [Event.correct e ll, Event.output e (triggered pf now x), Event.stepReturn ll], e,
    ?_, he, ?_, ?_, hik, hkl, hstop, hmin⟩
  · simp [emit, output_trace, htr3, htr, htr1]
  · have h1 : corrected (Event.resample now :: ops) = [] := by
      simpa [corrected] using corrected_resamplerOps ops hops
    rw [corrected_append, corrected_append, h1, corrected_predicts]
    rfl
  · have h1 : stepReturns (Event.resample now :: ops) = [] := by
      simpa [stepReturns] using stepReturns_resamplerOps ops hops
    rw [stepReturns_append, stepReturns_append, h1, stepReturns_predicts]
    rfl

/-- C34: for every non-empty schedule `[first, last)`, `filter` returns after at most
`last - first - 1` calls of `step`, and the elements it applies `correct` to are, in
schedule order and each once, the first element, every later element with
`hasOutput = true` and the final element, and no other. -/
theorem filter_corrects_targets [Zero α] [Add α] [Sub α] [NatCast α]
    (pf : ParticleFilter τ α γ ε ω μ ι θ P P P) (sched : List (ScheduleElement τ))
    (first last : Nat) (inInit : ι) (x : Mach τ α γ ε ω P P P) (hne : first < last)
    (hl : last ≤ sched.length) :
    ∃ ll x1 evs, filter pf sched first last inInit x = .ok (ll, x1) ∧
      x1.trace = x.trace ++ evs ∧
      corrected evs = correctTargets true ((sched.take last).drop first) ∧
      (stepReturns evs).length ≤ last - first - 1 := by
  have hf : first < sched.length := by omega
  obtain ⟨c0, x3, hcor, htr3, -⟩ := correct_run pf sched[first]
    (output0 (initTail sched[first] (pf.sim_init x.w sched[first] x.s inInit).1
      (pf.sim_init x.w sched[first] x.s inInit).2 x))
  have htr0 : (output sched[first] false x3).trace = x.trace ++
      [Event.init sched[first], Event.output0, Event.correct sched[first] c0,
        Event.output sched[first] false] := by
    simp [output_trace, htr3, output0_trace, initTail_trace]
  obtain ⟨ll, k, x5, hloop, hk, -, -, evs, htr5, hcorr, -, hcount⟩ :=
    filterLoop_exit pf sched last hl
    (fun i _ y => first ≤ i ∧ i < last ∧ ∃ evs, y.trace = x.trace ++ evs ∧
      corrected evs = correctTargets true ((sched.take (i + 1)).drop first) ∧
      (i = first ∨ i + 1 = last ∨ ∃ e, sched[i]? = some e ∧ e.hasOutput = true) ∧
      (stepReturns evs).length ≤ i - first)
    (by
      rintro i ll y inc k y1 hi hs ⟨hfi, -, evs, htr, hcorr, hcond, hcount⟩
      obtain ⟨new, e, hnew, he, hcn, hrn, hik, hkl, hstop, hmin⟩ :=
        step_corrected pf sched last i y hi hl inc k y1 hs
      have hk1 : k < sched.length := by omega
      have he1 : e = sched[k] := by
        rw [List.getElem?_eq_getElem hk1] at he
        cases he
        rfl
      refine ⟨by omega, hkl, evs ++ new, ?_, ?_, ?_, ?_⟩
      · rw [hnew, htr, List.append_assoc]
      · rw [corrected_append, hcorr, hcn, he1]
        exact (correctTargets_step sched first i k hfi hik hk1
          (by
            rcases hcond with h | h | h
            · exact Or.inl h
            · omega
            · exact Or.inr h) hmin).symm
      · rcases hstop with h | h
        · exact Or.inr (Or.inl h)
        · exact Or.inr (Or.inr ⟨e, he, h⟩)
      · rw [stepReturns_append, hrn, List.length_append]
        simp only [List.length_singleton]
        omega)
    sched.length first c0 (output sched[first] false x3) hne (by omega)
    ⟨le_refl _, hne, _, htr0, by rw [seg_singleton sched first hf]; rfl, Or.inl rfl,
      by simp [stepReturns]⟩
  refine ⟨ll, outputT ll (term pf x5), evs ++ [Event.term, Event.outputT ll], ?_, ?_, ?_, ?_⟩
  · simp [filter, deref, List.getElem?_eq_getElem hf, init, hcor, hloop, bind, Except.bind,
      pure, Except.pure]
  · simp [outputT_trace, term, emit, htr5]
  · rw [corrected_append, hcorr, hk]
    simp [corrected]
  · rw [stepReturns_append]
    simp only [stepReturns, List.append_nil]
    omega

/-- Instance of C34: the two-particle filter on four times with observations, of
which the second and third have no output; `correct` is applied to the first and the
last. -/
theorem filter_corrects_targets_witness :
    (∃ ll x1 evs, filter pfW schedObsNoOutput 0 4 () machW = .ok (ll, x1) ∧
      x1.trace = machW.trace ++ evs ∧
      corrected evs = correctTargets true ((schedObsNoOutput.take 4).drop 0) ∧
      (stepReturns evs).length ≤ 4 - 0 - 1) ∧
    correctTargets true ((schedObsNoOutput.take 4).drop 0) =
      [elW 0 true true 0, elW 3 true true 1] :=
  ⟨filter_corrects_targets pfW schedObsNoOutput 0 4 () machW (by decide) (by decide),
    by decide⟩

end CorrectTargets

/-! ## `filter` with and without an output sink -/

section SinkIndependence

variable {τ α γ ε ω μ ι θ : Type} {P n m : Nat}

theorem detach_emit (e : Event τ α) (x : Mach τ α γ ε ω P n m) :
    detach (emit e x) = emit e (detach x) := rfl

theorem detach_sink (c : SinkCall τ α γ ε P n m) (x : Mach τ α γ ε ω P n m) :
    detach (sink c x) = detach x := rfl

theorem detach_initTail [Zero α] (now : ScheduleElement τ) (w : ω) (s : State γ ε P)
    (x : Mach τ α γ ε ω P n m) :
    detach (initTail now w s x) = initTail now w s (detach x) := by
  unfold initTail
  cases h : x.out <;> simp [detach, emit, sink, h]

theorem detach_output0 (x : Mach τ α γ ε ω P n m) :
    detach (output0 x) = output0 (detach x) := by
  unfold output0
  cases h : x.out <;> simp [detach, emit, sink, h]

theorem detach_output (now : ScheduleElement τ) (r : Bool) (x : Mach τ α γ ε ω P n m) :
    detach (output now r x) = output now r (detach x) := by
  unfold output
  cases h : x.out <;> cases h2 : now.hasOutput <;> simp [detach, emit, sink, h, h2]

theorem detach_outputT (ll : α) (x : Mach τ α γ ε ω P n m) :
    detach (outputT ll x) = outputT ll (detach x) := by
  unfold outputT
  cases h : x.out <;> simp [detach, emit, sink, h]

theorem detach_predict (pf : ParticleFilter τ α γ ε ω μ ι θ P n m) (e : ScheduleElement τ)
    (x : Mach τ α γ ε ω P n m) : detach (predict pf e x) = predict pf e (detach x) := rfl

theorem detach_term (pf : ParticleFilter τ α γ ε ω μ ι θ P n m) (x : Mach τ α γ ε ω P n m) :
    detach (term pf x) = term pf (detach x) := rfl

theorem init_detach [Zero α] (pf : ParticleFilter τ α γ ε ω μ ι θ P n m)
    (now : ScheduleElement τ) (inInit : ι) (x : Mach τ α γ ε ω P n m) :
    init pf now inInit (detach x) = (init pf now inInit x).map detach := by
  unfold init
  split_ifs
  · show Except.ok _ = Except.ok _
    rw [detach_initTail]
    rfl
  · rfl

theorem correct_detach [Zero α] [Add α] [Sub α] [NatCast α]
    (pf : ParticleFilter τ α γ ε ω μ ι θ P n m) (now : ScheduleElement τ)
    (x : Mach τ α γ ε ω P n m) :
    correct pf now (detach x) = (correct pf now x).map (fun r => (r.1, detach r.2)) := by
  unfold correct
  split_ifs <;> rfl

theorem resample_detach (pf : ParticleFilter τ α γ ε ω μ ι θ P n m) (now : ScheduleElement τ)
    (x : Mach τ α γ ε ω P n m) :
    resample pf now (detach x) = (resample pf now x).map (fun r => (r.1, detach r.2)) := by
  unfold resample
  split_ifs
  · have ht : triggered pf now (detach x) = triggered pf now x := rfl
    rw [ht]
    cases h1 : triggered pf now x <;> cases h2 : pf.resam with
    | none => rfl
    | some R =>
      first
      | rfl
      | (simp only [setMax]; split_ifs <;> rfl)
  · rfl

theorem predictLoop_detach (pf : ParticleFilter τ α γ ε ω μ ι θ P n m) (last : Nat) :
    ∀ (l : List (ScheduleElement τ)) (iter : Nat) (x : Mach τ α γ ε ω P n m),
      predictLoop pf last l iter (detach x) =
        (predictLoop pf last l iter x).map (fun r => (r.1, detach r.2)) := by
  intro l
  induction l with
  | nil => intro iter x; rfl
  | cons e rest ih =>
    intro iter x
    unfold predictLoop
    split_ifs
    · rw [← ih, detach_predict]
    · rfl

theorem step_detach [Zero α] [Add α] [Sub α] [NatCast α]
    (pf : ParticleFilter τ α γ ε ω μ ι θ P n m) (sched : List (ScheduleElement τ))
    (last iter : Nat) (x : Mach τ α γ ε ω P n m) :
    step pf sched last iter (detach x) =
      (step pf sched last iter x).map (fun r => (r.1, r.2.1, detach r.2.2)) := by
  unfold step
  cases h0 : deref sched iter with
  | error e => rfl
  | ok now =>
    simp only [bind, Except.bind]
    rw [resample_detach]
    cases h1 : resample pf now x with
    | error e => rfl
    | ok r1 =>
      obtain ⟨r, x1⟩ := r1
      simp only [Except.map]
      rw [predictLoop_detach]
      cases h2 : predictLoop pf last (List.drop (iter + 1) sched) iter x1 with
      | error e => rfl
      | ok r2 =>
        obtain ⟨k, x2⟩ := r2
        simp only [Except.map]
        cases h3 : deref sched k with
        | error e => rfl
        | ok e =>
          simp only []
          rw [correct_detach]
          cases h4 : correct pf e x2 with
          | error e => rfl
          | ok r4 =>
            obtain ⟨ll, x3⟩ := r4
            simp only [Except.map, pure, Except.pure]
            rw [← detach_output, ← detach_emit]

theorem filterLoop_detach [Zero α] [Add α] [Sub α] [NatCast α]
    (pf : ParticleFilter τ α γ ε ω μ ι θ P n m) (sched : List (ScheduleElement τ))
    (last : Nat) :
    ∀ (fuel iter : Nat) (ll : α) (x : Mach τ α γ ε ω P n m),
      filterLoop pf sched last fuel iter ll (detach x) =
        (filterLoop pf sched last fuel iter ll x).map (fun r => (r.1, r.2.1, detach r.2.2)) := by
  intro fuel
  induction fuel with
  | zero =>
    intro iter ll x
    unfold filterLoop
    split_ifs <;> rfl
  | succ fuel ih =>
    intro iter ll x
    unfold filterLoop
    split_ifs
    · simp only [bind, Except.bind]
      rw [step_detach]
      cases h1 : step pf sched last iter x with
      | error e => rfl
      | ok r1 =>
        obtain ⟨inc, k, x1⟩ := r1
        simp only [Except.map]
        rw [ih]
        rfl
    · rfl

/-- Detaching the sink before `filter` gives the result of `filter` with the sink
detached afterwards: the same failure, or the same value and the same machine apart
from the sink. -/
theorem filter_detach [Zero α] [Add α] [Sub α] [NatCast α]
    (pf : ParticleFilter τ α γ ε ω μ ι θ P P P) (sched : List (ScheduleElement τ))
    (first last : Nat) (inInit : ι) (x : Mach τ α γ ε ω P P P) :
    filter pf sched first last inInit (detach x) =
      (filter pf sched first last inInit x).map (fun r => (r.1, detach r.2)) := by
  unfold filter
  cases h0 : deref sched first with
  | error e => rfl
  | ok now =>
    simp only [bind, Except.bind]
    rw [init_detach]
    cases h1 : init pf now inInit x with
    | error e => rfl
    | ok x1 =>
      simp only [Except.map]
      rw [← detach_output0, correct_detach]
      cases h2 : correct pf now (output0 x1) with
      | error e => rfl
      | ok r2 =>
        obtain ⟨c0, x2⟩ := r2
        simp only [Except.map]
        rw [← detach_output, filterLoop_detach]
        cases h3 : filterLoop pf sched last sched.length first c0 (output now false x2) with
        | error e => rfl
        | ok r3 =>
          obtain ⟨ll, k, x3⟩ := r3
          simp only [Except.map, pure, Except.pure]
          rw [← detach_term, ← detach_outputT]

/-- On a non-empty schedule `[first, last)` within the schedule, `filter` returns. -/
theorem filter_ok [Zero α] [Add α] [Sub α] [NatCast α]
    (pf : ParticleFilter τ α γ ε ω μ ι θ P P P) (sched : List (ScheduleElement τ))
    (first last : Nat) (inInit : ι) (x : Mach τ α γ ε ω P P P) (hne : first < last)
    (hl : last ≤ sched.length) :
    ∃ ll x1, filter pf sched first last inInit x = .ok (ll, x1) := by
  have hf : first < sched.length := by omega
  obtain ⟨c0, x3, hcor, -⟩ := correct_run pf sched[first]
    (output0 (initTail sched[first] (pf.sim_init x.w sched[first] x.s inInit).1
      (pf.sim_init x.w sched[first] x.s inInit).2 x))
  obtain ⟨ll, k, x5, hloop, -⟩ := filterLoop_run pf sched last hl (fun _ _ _ => True)
    (fun _ _ _ _ _ _ _ _ _ => trivial) sched.length first c0 (output sched[first] false x3)
    hne (by omega) trivial
  exact ⟨ll, outputT ll (term pf x5), by
    simp [filter, deref, List.getElem?_eq_getElem hf, init, hcor, hloop, bind, Except.bind,
      pure, Except.pure]⟩

/-- C35: for the same filter, schedule `[first, last)` (non-empty) and initial
machine, `filter` with an output sink attached (holding the calls `c0`) and
`filter` with `out == NULL` both return, with the same `ll`, and leave the same
particle state, log-weights, ancestors, random stream and trace; only the sink
differs. -/
theorem filter_sink_independent [Zero α] [Add α] [Sub α] [NatCast α]
    (pf : ParticleFilter τ α γ ε ω μ ι θ P P P) (sched : List (ScheduleElement τ))
    (first last : Nat) (inInit : ι) (x : Mach τ α γ ε ω P P P)
    (c0 : List (SinkCall τ α γ ε P P P)) (hne : first < last) (hl : last ≤ sched.length) :
    ∃ ll xa xn, filter pf sched first last inInit { x with out := some c0 } = .ok (ll, xa) ∧
      filter pf sched first last inInit { x with out := none } = .ok (ll, xn) ∧
      xn.s = xa.s ∧ xn.lws = xa.lws ∧ xn.as = xa.as ∧ xn.w = xa.w ∧ xn.trace = xa.trace ∧
      xn.out = none := by
  obtain ⟨ll, xa, ha⟩ := filter_ok pf sched first last inInit { x with out := some c0 } hne hl
  have hd := filter_detach pf sched first last inInit { x with out := some c0 }
  rw [ha] at hd
  exact ⟨ll, xa, detach xa, ha, hd, rfl, rfl, rfl, rfl, rfl, rfl⟩

/-- Instance of C35: the two-particle filter on three times. -/
theorem filter_sink_independent_witness :
    ∃ ll xa xn, filter pfW schedW 0 3 () { machW with out := some [] } = .ok (ll, xa) ∧
      filter pfW schedW 0 3 () { machW with out := none } = .ok (ll, xn) ∧
      xn.s = xa.s ∧ xn.lws = xa.lws ∧ xn.as = xa.as ∧ xn.w = xa.w ∧ xn.trace = xa.trace ∧
      xn.out = none :=
  filter_sink_independent pfW schedW 0 3 () machW [] (by decide) (by decide)

end SinkIndependence

/-! ## Log-density functors -/

section FunctorClaims

variable {α : Type} [LinearOrderedField α]

/-- With `log (1/y) = -log y` for positive `y`, the inverse-gamma log-density functor
evaluates to `alpha*log(beta) - lgamma(alpha) - (alpha + 1)*log(x) - beta/x`. -/
theorem inverse_gamma_call (fns : PdfFns α) (alpha beta x : α) (hb : 0 < beta) (hx : 0 < x)
    (hlog : ∀ y, 0 < y → fns.log (1 / y) = - fns.log y) :
    (inverse_gamma_log_density_functor.new fns alpha beta).call fns x =
      alpha * fns.log beta - fns.lgamma alpha - (alpha + 1) * fns.log x - beta / x := by
  show (alpha - 1) * fns.log (1 / x) - 1 / x / (1 / beta) -
      (fns.lgamma alpha + alpha * fns.log (1 / beta)) - 2 * fns.log x = _
  rw [hlog x hx, hlog beta hb]
  have h1 : 1 / x / (1 / beta) = beta / x := by
    rw [one_div, one_div, div_inv_eq_mul, mul_comm, div_eq_mul_inv]
  rw [h1]
  ring

/-- C36: for `alpha > 0`, `beta > 0` and `x > 0`, with a `log` that satisfies
`log (1/y) = -log y` for positive `y`,
`inverse_gamma_log_density_functor(alpha, beta)(x)` is
`alpha*log(beta) - lgamma(alpha) - (alpha + 1)*log(x) - beta/x`, and
`gamma_log_density_functor(alpha, beta)(x)` is
`(alpha - 1)*log(x) - x/beta - lgamma(alpha) - alpha*log(beta)`. -/
theorem log_density_functors (fns : PdfFns α) (alpha beta x : α) (_ha : 0 < alpha)
    (hb : 0 < beta) (hx : 0 < x) (hlog : ∀ y, 0 < y → fns.log (1 / y) = - fns.log y) :
    (inverse_gamma_log_density_functor.new fns alpha beta).call fns x =
      alpha * fns.log beta - fns.lgamma alpha - (alpha + 1) * fns.log x - beta / x ∧
    (gamma_log_density_functor.new fns alpha beta).call fns x =
      (alpha - 1) * fns.log x - x / beta - fns.lgamma alpha - alpha * fns.log beta := by
  refine ⟨inverse_gamma_call fns alpha beta x hb hx hlog, ?_⟩
  show (alpha - 1) * fns.log x - x / beta - (fns.lgamma alpha + alpha * fns.log beta) = _
  ring

/-- Instance of C36: `alpha = 2`, `beta = 3`, `x = 5`. -/
theorem log_density_functors_witness :
    (inverse_gamma_log_density_functor.new pdfFnsW 2 3).call pdfFnsW 5 =
      2 * pdfFnsW.log 3 - pdfFnsW.lgamma 2 - (2 + 1) * pdfFnsW.log 5 - 3 / 5 ∧
    (gamma_log_density_functor.new pdfFnsW 2 3).call pdfFnsW 5 =
      (2 - 1) * pdfFnsW.log 5 - 5 / 3 - pdfFnsW.lgamma 2 - 2 * pdfFnsW.log 3 :=
  log_density_functors pdfFnsW 2 3 5 (by norm_num) (by norm_num) (by norm_num)
    (by intro y _; simp only [pdfFnsW, one_div, inv_inv]; ring)

/-- The two log-densities over the real numbers, with the natural logarithm and the
logarithm of the gamma function. -/
theorem real_log_density_functors (alpha beta x : ℝ) (hb : 0 < beta) (hx : 0 < x) :
    (inverse_gamma_log_density_functor.new ⟨Real.log, fun a => Real.log (Real.Gamma a)⟩
        alpha beta).call ⟨Real.log, fun a => Real.log (Real.Gamma a)⟩ x =
      alpha * Real.log beta - Real.log (Real.Gamma alpha) - (alpha + 1) * Real.log x -
        beta / x :=
  inverse_gamma_call ⟨Real.log, fun a => Real.log (Real.Gamma a)⟩ alpha beta x hb hx
    (fun y _ => by simp only [one_div, Real.log_inv])

end FunctorClaims

end bi
